import Mathlib

/-!
# chad-fibers: cooperative fibers, nested schedulers and generators

A shallow embedding of `generators.hpp`.

* A fiber body (`Fiber = std::function<void()>`) is a point `s : σ` of a program
  `step : σ → Cmd σ`: `step s` is the next thing the body does and where it goes on.
* Objects with an address (`FiberScheduler`, `Generator::Iterator`) live in lists inside
  `World`; the address of an object is its index.  Schedulers are automatic variables, so
  a new one is put at the end of the list and removed again by its destructor.
* `Context::switch_context` is machine code.  What it does for the program is modelled
  directly: `run` switches into the saved fiber, the fiber runs until it switches back
  (`yield`, or the end of `trampoline`) and `run` goes on with the `Action` handed back.
  The saved `eip`/`esp` and the callable of a `Context` are one field, `fiber`.
* Loops and recursion take fuel; `none` means that the fuel ran out.
* `World.log` is a ghost trace of what was executed.
* `StackPool` and its `Stack` handles are modelled on their own, in `Memory`.
-/

namespace ChadFibers

/-- Exceptions: the three `std::runtime_error`s of the library and what a body throws. -/
inductive Exc where
  | global_scheduler_is_empty
  | empty
  | duplicated_run
  | user (id : Nat)
  deriving DecidableEq, Repr

/-- What a process cannot recover from: a failed `assert`, or behaviour the C++ leaves
undefined (null or dangling pointer, switching through a context of another scheduler). -/
inductive Fault where
  | assert_failed
  | undefined
  deriving DecidableEq, Repr

/-- The next thing a fiber body does, with the points where it goes on. -/
inductive Cmd (σ : Type) where
  /-- the body returns -/
  | ret
  /-- the body throws `e` and does not catch it -/
  | throw (e : Exc)
  /-- a body step with a visible effect (`++x`, `cur_fiber = fiber_id`), labelled `a` -/
  | step (a : Nat) (k : σ)
  /-- global `yield()` -/
  | yield (k : σ)
  /-- global `yield(v)` -/
  | yield_value (v : Nat) (k : σ)
  /-- global `schedule(f)` -/
  | schedule (f : σ) (k : σ)
  /-- `{ FiberScheduler local_sched; local_sched.schedule(f) for f in fs;
  scheduler_run(local_sched); }` then `k`; with `h = some s` the call stands in
  `try { } catch (...) { }` and the body goes on at `s` after an exception -/
  | nested (fs : List σ) (k : σ) (h : Option σ)

/-- The ghost trace: what was executed, in order. -/
inductive Event where
  /-- a fiber of the scheduler at `sched` executed the body step labelled `a` -/
  | step (sched : Nat) (a : Nat)
  /-- `run` of the scheduler at `sched` switched into the head of its queue while
  `current_scheduler` had the value `current` -/
  | start (sched : Nat) (current : Option Nat)
  /-- a fiber of the scheduler at `sched` yielded with this `user_data` -/
  | yield (sched : Nat) (data : Option Nat)
  deriving DecidableEq, Repr

/-- The scheduler an event happened in. -/
def Event.sched : Event → Nat
  | .step sched _ => sched
  | .start sched _ => sched
  | .yield sched _ => sched

/-- The tag of `Action`. -/
inductive ActionKind where
  | START
  | STOP
  | SCHED
  deriving DecidableEq, Repr

/-- The value `struct Action` that goes through a context switch. -/
structure Action where
  action : ActionKind
  user_data : Option Nat := none
  deriving DecidableEq, Repr

/-- The callable of a context together with the point it has reached. -/
inductive Fiber (σ : Type) where
  /-- a user body at point `s` -/
  | fn (s : σ)
  /-- the lambda of `Iterator(Fiber fiber)` before it ran:
  `create_current_fiber_watch<GeneratorWatch>(this); fiber();` with `this = it` -/
  | generator_lambda (it : Nat) (fiber : σ)
  deriving DecidableEq, Repr

/-- The value `struct Context`.  `fiber = none` is a default-constructed, moved-from or finished
context; `watch = some it` is a `GeneratorWatch(it)`. -/
structure Context (σ : Type) where
  fiber : Option (Fiber σ) := none
  watch : Option Nat := none
  exception : Option Exc := none
  deriving DecidableEq, Repr

/-- The members of `class FiberScheduler`. -/
structure FiberScheduler (σ : Type) where
  queue : List (Context σ) := []
  sched_context : Context σ := {}
  deriving DecidableEq, Repr

/-- The members of `Generator::Iterator`. -/
structure Iterator (σ : Type) where
  context_ : Option (Context σ) := none
  next_ : Option Nat := none
  stop_ : Bool := false
  deriving DecidableEq, Repr

/-- The state of the process. -/
structure World (σ : Type) where
  current_scheduler : Option Nat := none
  scheds : List (FiberScheduler σ) := []
  iters : List (Iterator σ) := []
  log : List Event := []
  deriving DecidableEq, Repr

/-- How a call ends. -/
inductive Exit where
  | returned
  | threw (e : Exc)
  | fault (f : Fault)
  deriving DecidableEq, Repr

/-- How the execution of a body ends or pauses. -/
inductive BodyExit (σ : Type) where
  | returned
  | threw (e : Exc)
  /-- the body switched back to `run` with `action`; it goes on at `k` when resumed -/
  | switched (action : Action) (k : σ)
  | fault (f : Fault)
  deriving DecidableEq, Repr

variable {σ : Type}

/-- The same ending seen from inside a body. -/
def Exit.toBody : Exit → BodyExit σ
  | .returned => .returned
  | .threw e => .threw e
  | .fault f => .fault f

/-- Append to the ghost trace. -/
def World.emit (w : World σ) (e : Event) : World σ :=
  { w with log := w.log ++ [e] }

/-- Overwrite the scheduler at address `a`. -/
def World.set_sched (w : World σ) (a : Nat) (S : FiberScheduler σ) : World σ :=
  { w with scheds := w.scheds.set a S }

/-- Overwrite the iterator at address `a`. -/
def World.set_iter (w : World σ) (a : Nat) (I : Iterator σ) : World σ :=
  { w with iters := w.iters.set a I }

/-- The function `FiberScheduler::create_context_from_fiber`: a fresh context that starts in
`trampoline` with `fiber` as argument. -/
def FiberScheduler.create_context_from_fiber (fiber : Fiber σ) : Context σ :=
  { fiber := some fiber }

/-- The member `FiberScheduler::schedule(Context)`: `queue.push(std::move(context))`. -/
def FiberScheduler.schedule_context (S : FiberScheduler σ) (context : Context σ) :
    FiberScheduler σ :=
  { S with queue := S.queue ++ [context] }

/-- The member `FiberScheduler::schedule(Fiber)`. -/
def FiberScheduler.schedule (S : FiberScheduler σ) (fiber : Fiber σ) : FiberScheduler σ :=
  S.schedule_context (FiberScheduler.create_context_from_fiber fiber)

/-- The destructor `~FiberScheduler() { assert(queue.empty()); }` of the scheduler at `a`. -/
def FiberScheduler.destroy (a : Nat) (w : World σ) : Exit × World σ :=
  match w.scheds[a]? with
  | none => (.fault .undefined, w)
  | some S =>
    if S.queue.isEmpty then (.returned, { w with scheds := w.scheds.take a })
    else (.fault .assert_failed, w)

/-- The global `schedule(Fiber fiber)`. -/
def schedule (fiber : σ) (w : World σ) : Exit × World σ :=
  match w.current_scheduler with
  | none => (.threw .global_scheduler_is_empty, w)
  | some c =>
    match w.scheds[c]? with
    | none => (.fault .undefined, w)
    | some S => (.returned, w.set_sched c (S.schedule (.fn fiber)))

/-- The global `create_current_fiber_watch<GeneratorWatch>(it)`. -/
def create_current_fiber_watch (it : Nat) (w : World σ) : Exit × World σ :=
  match w.current_scheduler with
  | none => (.threw .global_scheduler_is_empty, w)
  | some c =>
    match w.scheds[c]? with
    | none => (.fault .undefined, w)
    | some S => (.returned, w.set_sched c { S with sched_context := { S.sched_context with watch := some it } })

/-- The global `yield()` / `yield(data)` called by a fiber that `run` of the scheduler at `this`
switched into: `current_scheduler->sched_context.switch_context({SCHED, data})`.  The switch leads
back into that `run` only when `current_scheduler` is `this`. -/
def yield (this : Nat) (data : Option Nat) (k : σ) (w : World σ) : BodyExit σ × World σ :=
  match w.current_scheduler with
  | none => (.threw .global_scheduler_is_empty, w)
  | some c =>
    if c = this then (.switched { action := .SCHED, user_data := data } k, w.emit (.yield c data))
    else (.fault .undefined, w)

/-- The call `GeneratorWatch::operator()(Action& action, Context& context)` with `*it = I`. -/
def GeneratorWatch.call (I : Iterator σ) (action : Action) (context : Context σ) :
    Iterator σ × Action × Context σ :=
  let I1 := { I with next_ := action.user_data }
  let I2 := if action.action = .STOP then { I1 with stop_ := true } else I1
  if action.action = .SCHED then
    ({ I2 with context_ := some context }, { action with action := .STOP }, {})
  else (I2, action, context)

/-- The first part of the loop body of `FiberScheduler::run`, up to the switch. -/
inductive Dequeue (σ : Type) where
  /-- the queue is empty: the loop ends -/
  | empty
  /-- the head was moved to `sched_context`; switch into `fiber` -/
  | switch (fiber : Fiber σ) (w : World σ)
  | fault (f : Fault)

/-- `sched_context = std::move(queue.front()); queue.pop(); sched_context.exception = nullptr;` -/
def FiberScheduler.dequeue (this : Nat) (w : World σ) : Dequeue σ :=
  match w.scheds[this]? with
  | none => .fault .undefined
  | some S =>
    match S.queue with
    | [] => .empty
    | front :: rest =>
      match front.fiber with
      | none => .fault .undefined
      | some f =>
        .switch f ((w.set_sched this
          { queue := rest, sched_context := { front with exception := none } }).emit
            (.start this w.current_scheduler))

/-- The rest of the loop body of `FiberScheduler::run`, after the switch came back. -/
inductive Resumed (σ : Type) where
  /-- `std::rethrow_exception(sched_context.exception)` -/
  | rethrow (e : Exc) (w : World σ)
  /-- next iteration -/
  | again (w : World σ)
  | fault (f : Fault)

/-- The statement `queue.push(std::move(current_scheduler->sched_context))` in `run`. -/
def FiberScheduler.requeue (this : Nat) (w : World σ) : Resumed σ :=
  match w.current_scheduler with
  | none => .fault .undefined
  | some c =>
    match w.scheds[c]? with
    | none => .fault .undefined
    | some Sc =>
      let w1 := w.set_sched c { Sc with sched_context := {} }
      match w1.scheds[this]? with
      | none => .fault .undefined
      | some St => .again (w1.set_sched this (St.schedule_context Sc.sched_context))

/-- The part of `FiberScheduler::run` after `switch_context` returned `action`: rethrow a stored
exception, else call the watch, else requeue on `SCHED`. -/
def FiberScheduler.resumed (this : Nat) (action : Action) (w : World σ) : Resumed σ :=
  match w.scheds[this]? with
  | none => .fault .undefined
  | some S =>
    match S.sched_context.exception with
    | some e => .rethrow e w
    | none =>
      match S.sched_context.watch with
      | none =>
        if action.action = .SCHED then FiberScheduler.requeue this w else .again w
      | some it =>
        match w.iters[it]? with
        | none => .fault .undefined
        | some I =>
          let r := GeneratorWatch.call I action S.sched_context
          let w1 := (w.set_iter it r.1).set_sched this { S with sched_context := r.2.2 }
          if r.2.1.action = .SCHED then FiberScheduler.requeue this w1 else .again w1

/-- The final `current_scheduler->sched_context.switch_context({STOP})` of `trampoline`, for a
fiber that `run` of the scheduler at `this` switched into. -/
def trampoline_stop (this : Nat) (w : World σ) : Except Fault Action × World σ :=
  match w.current_scheduler with
  | none => (.error .undefined, w)
  | some c =>
    if c = this then
      match w.scheds[c]? with
      | none => (.error .undefined, w)
      | some S =>
        (.ok { action := .STOP }, w.set_sched c { S with sched_context := { S.sched_context with fiber := none } })
    else (.error .undefined, w)

/-- The handler of `trampoline`:
`catch (...) { current_scheduler->sched_context.exception = std::current_exception(); }`. -/
def trampoline_catch (e : Exc) (w : World σ) : Option (World σ) :=
  match w.current_scheduler with
  | none => none
  | some c =>
    match w.scheds[c]? with
    | none => none
    | some S => some (w.set_sched c { S with sched_context := { S.sched_context with exception := some e } })

/-- The switch of `FiberScheduler::yield` seen from `run`: the point `k` where the fiber goes on
is saved in the `sched_context` the switch went through. -/
def save_context (this : Nat) (k : σ) (w : World σ) : Option (World σ) :=
  match w.scheds[this]? with
  | none => none
  | some S => some (w.set_sched this { S with sched_context := { S.sched_context with fiber := some (.fn k) } })

/-- What follows the body inside the fiber, up to the switch back to `run` of the scheduler at
`this`: a body that yielded is inside `FiberScheduler::yield`, and its switch saves the point `k`;
a body that returned or threw is back in `trampoline`, which stores the exception and switches
with `STOP`. -/
def switch_back (this : Nat) : BodyExit σ × World σ → Except Fault Action × World σ
  | (.fault f, w1) => (.error f, w1)
  | (.switched action k, w1) =>
    match save_context this k w1 with
    | none => (.error .undefined, w1)
    | some w2 => (.ok action, w2)
  | (.returned, w1) => trampoline_stop this w1
  | (.threw e, w1) =>
    match trampoline_catch e w1 with
    | none => (.error .undefined, w1)
    | some w2 => trampoline_stop this w2

variable (step : σ → Cmd σ)

mutual

/-- Execute the body of a fiber of the scheduler at `this` from point `s` until it returns,
throws or switches back. -/
def call : Nat → Nat → σ → World σ → Option (BodyExit σ × World σ)
  | 0, _, _, _ => none
  | fuel + 1, this, s, w =>
    match step s with
    | .ret => some (.returned, w)
    | .throw e => some (.threw e, w)
    | .step a k => call fuel this k (w.emit (.step this a))
    | .yield k => some (yield this none k w)
    | .yield_value v k => some (yield this (some v) k w)
    | .schedule f k =>
      match schedule f w with
      | (.returned, w1) => call fuel this k w1
      | (x, w1) => some (x.toBody, w1)
    | .nested fs k h =>
      let local_sched := w.scheds.length
      let w1 : World σ :=
        { w with scheds := w.scheds ++ [fs.foldl (fun S f => S.schedule (.fn f)) {}] }
      match scheduler_run fuel local_sched w1 with
      | none => none
      | some (.fault f, w2) => some (.fault f, w2)
      | some (.returned, w2) =>
        match FiberScheduler.destroy local_sched w2 with
        | (.returned, w3) => call fuel this k w3
        | (x, w3) => some (x.toBody, w3)
      | some (.threw e, w2) =>
        match FiberScheduler.destroy local_sched w2 with
        | (.returned, w3) =>
          match h with
          | some s1 => call fuel this s1 w3
          | none => some (.threw e, w3)
        | (x, w3) => some (x.toBody, w3)
termination_by structural fuel => fuel

/-- The function `trampoline(Fiber* fiber)`, entered or re-entered by a switch from `run` of the
scheduler at `this`, up to the switch back; the result is the `Action` that `run` receives. -/
def trampoline : Nat → Nat → Fiber σ → World σ → Option (Except Fault Action × World σ)
  | 0, _, _, _ => none
  | fuel + 1, this, fiber, w =>
    let r :=
      match fiber with
      | .fn s => call fuel this s w
      | .generator_lambda it s =>
        match create_current_fiber_watch it w with
        | (.returned, w1) => call fuel this s w1
        | (x, w1) => some (x.toBody, w1)
    match r with
    | none => none
    | some r => some (switch_back this r)
termination_by structural fuel => fuel

/-- The member `FiberScheduler::run` of the scheduler at `this`. -/
def run : Nat → Nat → World σ → Option (Exit × World σ)
  | 0, _, _ => none
  | fuel + 1, this, w =>
    match FiberScheduler.dequeue this w with
    | .fault f => some (.fault f, w)
    | .empty => some (.returned, w)
    | .switch fiber w1 =>
      match trampoline fuel this fiber w1 with
      | none => none
      | some (.error f, w2) => some (.fault f, w2)
      | some (.ok action, w2) =>
        match FiberScheduler.resumed this action w2 with
        | .fault f => some (.fault f, w2)
        | .rethrow e w3 => some (.threw e, w3)
        | .again w3 => run fuel this w3
termination_by structural fuel => fuel

/-- The function `scheduler_run(FiberScheduler& sched)`. -/
def scheduler_run : Nat → Nat → World σ → Option (Exit × World σ)
  | 0, _, _ => none
  | fuel + 1, sched, w =>
    let prev_sched := w.current_scheduler
    match run fuel sched { w with current_scheduler := some sched } with
    | none => none
    | some (.fault f, w1) => some (.fault f, w1)
    | some (.threw e, w1) => some (.threw e, { w1 with current_scheduler := prev_sched })
    | some (.returned, w1) => some (.returned, { w1 with current_scheduler := prev_sched })
termination_by structural fuel => fuel
end

/-- The member `Generator::Iterator::update` of the iterator at address `it`. -/
def Iterator.update (fuel : Nat) (it : Nat) (w : World σ) : Option (Exit × World σ) :=
  match w.iters[it]? with
  | none => some (.fault .undefined, w)
  | some I =>
    let I1 : Iterator σ := { I with next_ := none }
    if I1.stop_ then some (.returned, w.set_iter it I1)
    else
      match I1.context_ with
      | none => some (.returned, w.set_iter it { I1 with stop_ := true })
      | some context =>
        let sheduler := w.scheds.length
        let w1 : World σ :=
          { w.set_iter it { I1 with context_ := some {} } with
            scheds := w.scheds ++ [({} : FiberScheduler σ).schedule_context context] }
        match scheduler_run step fuel sheduler w1 with
        | none => none
        | some (.fault f, w2) => some (.fault f, w2)
        | some (x, w2) =>
          match FiberScheduler.destroy sheduler w2 with
          | (.returned, w3) => some (x, w3)
          | (y, w3) => some (y, w3)

/-- The constructor `Iterator(Fiber fiber)`; the new iterator gets the address
`w.iters.length`. -/
def Iterator.construct (fuel : Nat) (fiber : σ) (w : World σ) : Option (Exit × World σ) :=
  let it := w.iters.length
  Iterator.update step fuel it
    { w with iters := w.iters ++
        [{ context_ := some (FiberScheduler.create_context_from_fiber (.generator_lambda it fiber)) }] }

/-- The member `Generator::Iterator::operator*` of the iterator at address `it`; the second
component is the value returned. -/
def Iterator.deref (fuel : Nat) (it : Nat) (w : World σ) : Option (Exit × Option Nat × World σ) :=
  match w.iters[it]? with
  | none => some (.fault .undefined, none, w)
  | some I =>
    match I.next_ with
    | none => some (.threw .empty, none, w)
    | some val =>
      match Iterator.update step fuel it w with
      | none => none
      | some (.returned, w1) => some (.returned, some val, w1)
      | some (x, w1) => some (x, none, w1)

/-- The friend `operator!=(const Iterator& a, const Iterator& b)`. -/
def Iterator.ne (a b : Iterator σ) : Bool :=
  a.next_.isSome || b.next_.isSome

/-- The member `func` of `class Generator`. -/
structure Generator (σ : Type) where
  func : Option σ
  deriving DecidableEq, Repr

/-- The member `Generator::end`. -/
def Generator.end_ : Iterator σ := {}

/-- The member `Generator::begin`; the iterator it returns has the address `w.iters.length`. -/
def Generator.begin (fuel : Nat) (g : Generator σ) (w : World σ) :
    Option (Exit × Generator σ × World σ) :=
  match g.func with
  | none => some (.threw .duplicated_run, g, w)
  | some f =>
    match Iterator.construct step fuel f w with
    | none => none
    | some (x, w1) => some (x, { func := none }, w1)

/-- The loop of `for (auto elem : gen) { ... }` once `begin()` returned the iterator at `it`:
`for (; it != end(); ++it) { auto elem = *it; ... }`.  The body receives `elem`; `brk` says,
from the values received so far, whether the body leaves the loop with `break`. -/
def for_loop (brk : List Nat → Bool) : Nat → Nat → List Nat → World σ →
    Option (Exit × List Nat × World σ)
  | 0, _, _, _ => none
  | fuel + 1, it, received, w =>
    match w.iters[it]? with
    | none => some (.fault .undefined, received, w)
    | some I =>
      if Iterator.ne I Generator.end_ then
        match Iterator.deref step fuel it w with
        | none => none
        | some (.returned, some elem, w1) =>
          if brk (received ++ [elem]) then some (.returned, received ++ [elem], w1)
          else for_loop brk fuel it (received ++ [elem]) w1
        | some (x, _, w1) => some (x, received, w1)
      else some (.returned, received, w)

/-- The statement `for (auto elem : Generator<Result>(func)) { ... }`; the result carries the
values the body received. -/
def range_for (brk : List Nat → Bool) (fuel : Nat) (func : σ) (w : World σ) :
    Option (Exit × List Nat × World σ) :=
  match Generator.begin step fuel { func := some func } w with
  | none => none
  | some (.returned, _, w1) => for_loop step brk fuel w.iters.length [] w1
  | some (x, _, w1) => some (x, [], w1)


/-! ## Describing bodies

The claims speak about bodies of a given shape ("does not yield", "K times step and yield",
"yields v1, ..., vn and returns").  A stretch of a body between two switches is described by
the list of things it does and the way it ends. -/

/-- One thing a body does that does not leave the fiber. -/
inductive Op (σ : Type) where
  | step (a : Nat)
  | schedule (f : σ)

/-- How a stretch of a body ends: it returns, throws, or yields and goes on at `k` later. -/
inductive Stop (σ : Type) where
  | ret
  | throw (e : Exc)
  | yield (data : Option Nat) (k : σ)

/-- The body at point `s` does `ops` and then ends with `e`: it contains no other command. -/
inductive Slice (step : σ → Cmd σ) : σ → List (Op σ) → Stop σ → Prop where
  | ret {s : σ} : step s = .ret → Slice step s [] .ret
  | throw {s : σ} {e : Exc} : step s = .throw e → Slice step s [] (.throw e)
  | yield {s k : σ} : step s = .yield k → Slice step s [] (.yield none k)
  | yield_value {s k : σ} {v : Nat} : step s = .yield_value v k →
      Slice step s [] (.yield (some v) k)
  | step {s k : σ} {a : Nat} {ops : List (Op σ)} {e : Stop σ} : step s = .step a k →
      Slice step k ops e → Slice step s (.step a :: ops) e
  | schedule {s f k : σ} {ops : List (Op σ)} {e : Stop σ} : step s = .schedule f k →
      Slice step k ops e → Slice step s (.schedule f :: ops) e

/-- The trace of `ops` done by a fiber of the scheduler at `this`. -/
def Op.events (this : Nat) : List (Op σ) → List Event
  | [] => []
  | .step a :: ops => .step this a :: Op.events this ops
  | .schedule _ :: ops => Op.events this ops

/-- The contexts that `ops` append to the queue. -/
def Op.contexts : List (Op σ) → List (Context σ)
  | [] => []
  | .step _ :: ops => Op.contexts ops
  | .schedule f :: ops => FiberScheduler.create_context_from_fiber (.fn f) :: Op.contexts ops

/-- The way the execution of the body ends. -/
def Stop.exit : Stop σ → BodyExit σ
  | .ret => .returned
  | .throw e => .threw e
  | .yield data k => .switched { action := .SCHED, user_data := data } k

/-- The trace of the end of a stretch. -/
def Stop.events (this : Nat) : Stop σ → List Event
  | .yield data _ => [.yield this data]
  | _ => []

/-- The world after the iteration of `run` of the scheduler at `this` that took a context
without watch from the queue, leaving `rest`, when the stretch of the body was `ops` ending
with `e`: the scheduled fibers are behind `rest`, a fiber that yielded is behind them. -/
def after_slice (this : Nat) (w : World σ) (rest : List (Context σ)) (ops : List (Op σ))
    (e : Stop σ) : World σ :=
  { w with
    scheds := w.scheds.set this
      { queue := rest ++ Op.contexts ops ++
          (match e with
           | .yield _ k => [FiberScheduler.create_context_from_fiber (.fn k)]
           | _ => [])
        sched_context :=
          (match e with
           | .throw x => { exception := some x }
           | _ => {}) }
    log := w.log ++ Event.start this (some this) :: (Op.events this ops ++ e.events this) }

/-- The label of a body step in the trace. -/
def Event.label? : Event → Option Nat
  | .step _ a => some a
  | _ => none

/-- The body steps of a trace, in order. -/
def steps (log : List Event) : List Nat :=
  log.filterMap Event.label?

/-- The value of a counter that every body step labelled `a` increments (`++x`), read off the
trace. -/
def counter (a : Nat) (log : List Event) : Nat :=
  (steps log).count a

/-- The calls `sched.schedule(f)`, for `f` in `fs` in that order, on the scheduler at address
`sched`, made from outside any fiber. -/
def schedule_all (sched : Nat) (fs : List σ) (w : World σ) : World σ :=
  match w.scheds[sched]? with
  | none => w
  | some S => w.set_sched sched (fs.foldl (fun S f => S.schedule (.fn f)) S)

mutual

/-- Bodies as finite trees, for concrete programs: every command with its continuations;
`nested_catch` is `nested` with a handler. -/
inductive Prog where
  | ret
  | throw (e : Exc)
  | step (a : Nat) (k : Prog)
  | yield (k : Prog)
  | yield_value (v : Nat) (k : Prog)
  | schedule (f : Prog) (k : Prog)
  | nested (fs : Progs) (k : Prog)
  | nested_catch (fs : Progs) (k : Prog) (h : Prog)
  deriving DecidableEq

/-- Lists of tree bodies. -/
inductive Progs where
  | nil
  | cons (f : Prog) (fs : Progs)
  deriving DecidableEq

end

/-- The bodies of a list of trees. -/
def Progs.toList : Progs → List Prog
  | .nil => []
  | .cons f fs => f :: fs.toList

/-- The program of tree bodies: a tree does what its root says. -/
def Prog.unfold : Prog → Cmd Prog
  | .ret => .ret
  | .throw e => .throw e
  | .step a k => .step a k
  | .yield k => .yield k
  | .yield_value v k => .yield_value v k
  | .schedule f k => .schedule f k
  | .nested fs k => .nested fs.toList k none
  | .nested_catch fs k h => .nested fs.toList k (some h)

/-- The three fibers of `test_multiple`, each `++x` (step `0`), with the steps they do. -/
def test_multiple : List (Prog × List Nat) :=
  [(.step 0 .ret, [0]), (.step 0 .ret, [0]), (.step 0 .ret, [0])]

/-- A process with one scheduler, at address 0, and nothing else. -/
def one_scheduler : World Prog :=
  { scheds := [{}] }

/-- The body at `s` is `K` times (the body step `a`; `yield()`) and then returns. -/
inductive Rounds (step : σ → Cmd σ) (a : Nat) : Nat → σ → Prop where
  | zero {s : σ} : Slice step s [] .ret → Rounds step a 0 s
  | succ {s k : σ} {K : Nat} : Slice step s [.step a] (.yield none k) → Rounds step a K k →
      Rounds step a (K + 1) s

/-- The trace of one round of the scheduler at `this`, in which every fiber does its one step,
labelled as in `labels`, and yields. -/
def round_log (this : Nat) (labels : List Nat) : List Event :=
  labels.flatMap (fun a => [Event.start this (some this), Event.step this a, Event.yield this none])

/-- The fibers of `test_yield_many` with their ids, and a body of `K` steps. -/
def yield_body (a : Nat) : Nat → Prog
  | 0 => .ret
  | K + 1 => .step a (.yield (yield_body a K))

/-- The three fibers of `test_yield_many`, with `ITERS = 10`, and their ids. -/
def test_yield_many : List (Prog × Nat) :=
  [(yield_body 1 10, 1), (yield_body 2 10, 2), (yield_body 3 10, 3)]

/-- The event belongs to the scheduler at `a` or to one created later, and a switch into a
fiber happened while `current_scheduler` pointed to the scheduler that switched. -/
def Event.within (a : Nat) (e : Event) : Prop :=
  a ≤ e.sched ∧ ∀ s c, e = .start s c → c = some s

/-- What an execution inside the scheduler at `a` leaves alone: from `w` to `w'` no scheduler
was left over or lost, the schedulers below `a` are the same, and the trace has only grown, by
events of the scheduler at `a` and of schedulers nested in it. -/
structure Frame (a : Nat) (w w' : World σ) : Prop where
  length : w'.scheds.length = w.scheds.length
  below : w'.scheds.take a = w.scheds.take a
  log : ∃ l, w'.log = w.log ++ l ∧ ∀ e ∈ l, Event.within a e

/-- The call `(*fiber)()` in `trampoline`, for a fiber that `run` of the scheduler at `this`
switched into; `trampoline` is this call followed by `switch_back`. -/
def invoke (fuel : Nat) (this : Nat) : Fiber σ → World σ → Option (BodyExit σ × World σ)
  | .fn s, w => call step fuel this s w
  | .generator_lambda it s, w =>
    match create_current_fiber_watch it w with
    | (.returned, w1) => call step fuel this s w1
    | (x, w1) => some (x.toBody, w1)

/-- The loop of `run` of the scheduler at `this`, entered in world `w`, is at the beginning of an
iteration in world `w'`: after some complete iterations, none of which left the loop. -/
inductive Iterates (step : σ → Cmd σ) (this : Nat) : World σ → World σ → Prop where
  | refl {w : World σ} : Iterates step this w w
  | next {w w1 w2 w3 w' : World σ} {fiber : Fiber σ} (n : Nat) {action : Action} :
      FiberScheduler.dequeue this w = .switch fiber w1 →
      trampoline step n this fiber w1 = some (.ok action, w2) →
      FiberScheduler.resumed this action w2 = .again w3 →
      Iterates step this w3 w' → Iterates step this w w'

/-- Three fibers of which the second throws. -/
def second_throws : List Prog :=
  [.step 0 .ret, .step 1 (.throw (.user 7)), .step 2 .ret]

/-- The world of `second_throws` when the loop of `run` begins its second iteration. -/
def second_throws_wk : World Prog :=
  { current_scheduler := some 0
    scheds := [{ queue := [{ fiber := some (.fn (.step 1 (.throw (.user 7)))) },
                           { fiber := some (.fn (.step 2 .ret)) }] }]
    log := [.start 0 (some 0), .step 0 0] }

/-- The world of `second_throws` when `run` has switched into the second fiber. -/
def second_throws_w1 : World Prog :=
  { current_scheduler := some 0
    scheds := [{ queue := [{ fiber := some (.fn (.step 2 .ret)) }]
                 sched_context := { fiber := some (.fn (.step 1 (.throw (.user 7)))) } }]
    log := [.start 0 (some 0), .step 0 0, .start 0 (some 0)] }

/-- The world of `second_throws` when the second fiber throws. -/
def second_throws_w2 : World Prog :=
  { second_throws_w1 with log := [.start 0 (some 0), .step 0 0, .start 0 (some 0), .step 0 1] }

/-- The point of the outer fiber of `test_recursive_sched_exc` after its first `yield()`. -/
def test_exc_resumed : Prog :=
  .schedule (.step 0 .ret) <|
  .nested .nil (.nested_catch (.cons (.step 1 (.throw (.user 0))) .nil) .ret
    (.yield <| .schedule (.step 0 .ret) .ret))

/-- The fiber that `test_recursive_sched` schedules on its second local scheduler; the steps
`++y` carry the label 1. -/
def test_inner_fiber : Prog :=
  .step 1 <| .yield <| .yield <| .yield <| .yield <| .schedule (.step 1 .ret) .ret

/-- The point of the outer fiber of `test_recursive_sched` after its first `yield()`; the steps
`++x` carry the label 0. -/
def test_resumed : Prog :=
  .schedule (.step 0 .ret) <|
  .nested .nil (.nested (.cons test_inner_fiber .nil) (.yield <| .schedule (.step 0 .ret) .ret))

/-- The world of `test_recursive_sched` when the outer fiber, a fiber of the scheduler at
address 0, calls `scheduler_run(local_sched)` for the second local scheduler, at address 1. -/
def test_inner : World Prog :=
  { current_scheduler := some 0
    scheds := [{ queue := [{ fiber := some (.fn (.step 0 .ret)) }]
                 sched_context := { fiber := some (.fn test_resumed) } },
               { queue := [{ fiber := some (.fn test_inner_fiber) }] }]
    log := [.start 0 (some 0), .yield 0 none, .start 0 (some 0), .step 0 0, .start 0 (some 0)] }

/-- The world of `test_recursive_sched` when that call has returned. -/
def test_inner_exit : World Prog :=
  { current_scheduler := some 0
    scheds := [{ queue := [{ fiber := some (.fn (.step 0 .ret)) }]
                 sched_context := { fiber := some (.fn test_resumed) } },
               {}]
    log := [.start 0 (some 0), .yield 0 none, .start 0 (some 0), .step 0 0, .start 0 (some 0),
      .start 1 (some 1), .step 1 1, .yield 1 none, .start 1 (some 1), .yield 1 none,
      .start 1 (some 1), .yield 1 none, .start 1 (some 1), .yield 1 none, .start 1 (some 1),
      .start 1 (some 1), .step 1 1] }

/-- The context of a producer that was resumed before and is suspended at point `s`; its watch is
the `GeneratorWatch` of the iterator at `it`. -/
def suspended (it : Nat) (s : σ) : Context σ :=
  { fiber := some (.fn s), watch := some it }

/-- The context that `Iterator(Fiber fiber)` builds for the producer `s`. -/
def fresh (it : Nat) (s : σ) : Context σ :=
  FiberScheduler.create_context_from_fiber (.generator_lambda it s)

/-- The iterator at `it` after an advance step in which the stretch of the producer ended with
`e`. -/
def Iterator.after (it : Nat) : Stop σ → Iterator σ
  | .ret => { context_ := some {}, next_ := none, stop_ := true }
  | .throw _ => { context_ := some {}, next_ := none, stop_ := false }
  | .yield data k => { context_ := some (suspended it k), next_ := data, stop_ := false }

/-- How an advance step exits when the stretch of the producer ended with `e`. -/
def Stop.update_exit : Stop σ → Exit
  | .throw x => .threw x
  | _ => .returned

/-- The producer at point `s` calls `yield(v)` for the values of `segs`, in that order, doing
before each call the body steps listed with the value and nothing else, and is then at point
`k`. -/
inductive Yields (step : σ → Cmd σ) : σ → List (List Nat × Nat) → σ → Prop where
  | nil {s : σ} : Yields step s [] s
  | cons {s s' k : σ} {as : List Nat} {v : Nat} {segs : List (List Nat × Nat)} :
      Slice step s (as.map Op.step) (.yield (some v) s') → Yields step s' segs k →
      Yields step s ((as, v) :: segs) k

/-- The trace of an advance step that ran the producer, in the scheduler at `L`, over the steps
`sg.1` up to `yield(sg.2)`: one switch into the producer, its steps, its yield. -/
def segment_log (L : Nat) (sg : List Nat × Nat) : List Event :=
  Event.start L (some L) :: (sg.1.map (Event.step L) ++ [Event.yield L (some sg.2)])

/-- The values passed to `yield(v)` in a trace, in order. -/
def yielded (log : List Event) : List Nat :=
  log.filterMap (fun e => match e with
    | .yield _ (some v) => some v
    | _ => none)

/-- The producer of `test_generator`: `yield(2 * i)` for `i = 0, ..., 9`; program point `i`. -/
def test_generator : Nat → Cmd Nat :=
  fun i => if i < 10 then .yield_value (2 * i) (i + 1) else .ret

/-- The producer of `test_generator_endless`: `yield(i++)` for ever; program point `i`. -/
def test_generator_endless : Nat → Cmd Nat :=
  fun i => .yield_value i (i + 1)

/-- What the producer of `test_generator` does: no body steps, and the values 0, 2, ..., 18. -/
def test_generator_segs : List (List Nat × Nat) :=
  [([], 0), ([], 2), ([], 4), ([], 6), ([], 8), ([], 10), ([], 12), ([], 14), ([], 16), ([], 18)]

/-- The number of switches into a fiber in a trace. -/
def switches (log : List Event) : Nat :=
  (log.filter (fun e => match e with
    | .start _ _ => true
    | _ => false)).length

/-- What the producer of `test_generator_endless` does up to `yield(15)`. -/
def test_generator_endless_segs : List (List Nat × Nat) :=
  [([], 0), ([], 1), ([], 2), ([], 3), ([], 4), ([], 5), ([], 6), ([], 7), ([], 8), ([], 9),
   ([], 10), ([], 11), ([], 12), ([], 13), ([], 14), ([], 15)]

/-- The `break` of `test_generator_endless`: `sum += elem; if (sum > 100) break;`. -/
def sum_exceeds_100 (received : List Nat) : Bool :=
  decide (100 < received.sum)

/-- The command is one of a producer that hands back values only: a return, a throw, a body
step or a `yield(v)`; not the plain `yield()`, and no scheduling. -/
def Cmd.value_only : Cmd σ → Prop
  | .ret => True
  | .throw _ => True
  | .step _ _ => True
  | .yield_value _ _ => True
  | _ => False

/-- The stretch does not end with the plain `yield()`. -/
def Stop.value_only : Stop σ → Prop
  | .yield none _ => False
  | _ => True

/-- A producer that calls the plain `yield()` before it yields a value:
`yield(); yield(1);`. -/
def plain_yield_producer : Prog :=
  .yield (.yield_value 1 .ret)

/-- The world in which the range `for` over `plain_yield_producer` ends. -/
def plain_yield_exit : World Prog :=
  { iters := [{ context_ := some (suspended 0 (.yield_value 1 .ret)), next_ := none,
                stop_ := false }]
    log := [.start 0 (some 0), .yield 0 none] }

/-- The body at `s` consists of body steps and `schedule(f)` calls, the bodies `f` are of that
kind too, and so on, to a finite depth.  The nesting that begins with `s` has `n` bodies,
`s` included, and `ls` lists the labels of all their body steps. -/
inductive Nesting (step : σ → Cmd σ) : σ → Nat → List Nat → Prop where
  | ret {s : σ} : step s = .ret → Nesting step s 1 []
  | step {s k : σ} {a n : Nat} {ls : List Nat} : step s = .step a k → Nesting step k n ls →
      Nesting step s n (a :: ls)
  | schedule {s f k : σ} {m n : Nat} {lf lk : List Nat} : step s = .schedule f k →
      Nesting step f m lf → Nesting step k n lk → Nesting step s (m + n) (lf ++ lk)

/-- The three fibers of `test_recursive`, nested 1, 2 and 3 deep, with the number of bodies of
each nesting and the labels of its steps; the step `++x` carries the label 0. -/
def test_recursive : List (Prog × Nat × List Nat) :=
  [(.schedule (.step 0 .ret) .ret, 2, [0]),
   (.schedule (.schedule (.step 0 .ret) .ret) .ret, 3, [0]),
   (.schedule (.schedule (.schedule (.step 0 .ret) .ret) .ret) .ret, 4, [0])]

/-- Two fibers of which the first throws at once; the second does the step 0. -/
def first_throws : List Prog :=
  [.throw (.user 7), .step 0 .ret]

/-- The world in which `scheduler_run` over `first_throws` exits. -/
def first_throws_exit : World Prog :=
  { current_scheduler := none
    scheds := [{ queue := [{ fiber := some (.fn (.step 0 .ret)) }]
                 sched_context := { fiber := none, exception := some (.user 7) } }]
    log := [.start 0 (some 0)] }

/-- A world with a scheduler at address 0 and, as in the first block of `test_recursive_sched`,
a local scheduler at address 1 on which nothing was scheduled. -/
def empty_local_sched : World Prog :=
  { current_scheduler := some 0
    scheds := [{ queue := [{ fiber := some (.fn (.step 0 .ret)) }] }, {}] }

/-- A producer that throws before it yields: `throw 9;`. -/
def throws_at_once : Prog :=
  .throw (.user 9)

/-- The world in which `begin()` on the generator of `throws_at_once` exits. -/
def throws_at_once_exit : World Prog :=
  { iters := [{ context_ := some {}, next_ := none, stop_ := false }]
    log := [.start 0 (some 0)] }

/-- Dereferences `*it` of the iterator at address `it`, one after the other, each of which
returns: from the world `w` they return the values `vs`, in this order, and lead to `w'`. -/
inductive Derefs (step : σ → Cmd σ) (it : Nat) : World σ → List Nat → World σ → Prop where
  | nil {w : World σ} : Derefs step it w [] w
  | cons {w w1 w' : World σ} {v : Nat} {vs : List Nat} (fuel : Nat) :
      Iterator.deref step fuel it w = some (.returned, some v, w1) →
      Derefs step it w1 vs w' → Derefs step it w (v :: vs) w'

/-- A producer that yields 1 and 2 and then throws: `yield(1); yield(2); throw 9;`. -/
def yields_then_throws : Prog :=
  .yield_value 1 (.yield_value 2 (.throw (.user 9)))

/-- A world with the iterator that `Iterator(Fiber)` builds for `test_generator_endless`,
before its first advance step. -/
def endless_fresh : World Nat :=
  { iters := [{ context_ := some (fresh 0 0) }] }

/-- The command is one of a producer that does no scheduling: it is not `schedule(f)` and it
runs no local scheduler. -/
def Cmd.no_scheduling : Cmd σ → Prop
  | .schedule _ _ => False
  | .nested _ _ _ => False
  | _ => True

/-- A producer that yields 1 and 2, schedules a fiber that throws, and returns:
`yield(1); yield(2); schedule([] { throw 5; });`. -/
def yields_then_schedules : Prog :=
  .yield_value 1 (.yield_value 2 (.schedule (.throw (.user 5)) .ret))

/-- The world in which the range `for` over `yields_then_schedules` exits. -/
def yields_then_schedules_exit : World Prog :=
  { iters := [{ context_ := some {}, next_ := none, stop_ := true }]
    log := [.start 0 (some 0), .yield 0 (some 1), .start 0 (some 0), .yield 0 (some 2),
      .start 0 (some 0), .start 0 (some 0)] }

/-- A producer that schedules a fiber that throws and then yields:
`schedule([] { throw 5; }); yield(1);`. -/
def schedules_before_yield : Prog :=
  .schedule (.throw (.user 5)) (.yield_value 1 .ret)

/-- The world in which `begin()` on the generator of `schedules_before_yield` exits. -/
def schedules_before_yield_exit : World Prog :=
  { iters := [{ context_ := some (suspended 0 .ret), next_ := some 1, stop_ := false }]
    log := [.start 0 (some 0), .yield 0 (some 1), .start 0 (some 0)] }

/-- A producer that yields, schedules a fiber and throws:
`yield(1); schedule([&] { ++x; }); throw 9;`. -/
def schedules_then_throws : Prog :=
  .yield_value 1 (.schedule (.step 0 .ret) (.throw (.user 9)))

/-- The world after `begin()` on the generator of `schedules_then_throws`. -/
def schedules_then_throws_begun : World Prog :=
  { iters := [Iterator.after 0 (.yield (some 1) (.schedule (.step 0 .ret) (.throw (.user 9))))]
    log := [.start 0 (some 0), .yield 0 (some 1)] }

/-- The world in which the first `operator*` on that iterator stops: the private scheduler of
the advance step is still there, with the scheduled fiber in its queue. -/
def schedules_then_throws_exit : World Prog :=
  { scheds := [{ queue := [{ fiber := some (.fn (.step 0 .ret)) }]
                 sched_context := { fiber := none, watch := some 0, exception := some (.user 9) } }]
    iters := [{ context_ := some {}, next_ := none, stop_ := false }]
    log := [.start 0 (some 0), .yield 0 (some 1), .start 0 (some 0)] }

/-- A producer that yields 1, schedules a fiber that throws 5, yields 2 and throws 9:
`yield(1); schedule([] { throw 5; }); yield(2); throw 9;`. -/
def yields_around_schedule : Prog :=
  .yield_value 1 (.schedule (.throw (.user 5)) (.yield_value 2 (.throw (.user 9))))

/-- The world after `begin()` on the generator of `yields_around_schedule`. -/
def yields_around_schedule_begun : World Prog :=
  { iters := [Iterator.after 0 (.yield (some 1)
      (.schedule (.throw (.user 5)) (.yield_value 2 (.throw (.user 9)))))]
    log := [.start 0 (some 0), .yield 0 (some 1)] }

/-- The world after the first `operator*` on that iterator. -/
def yields_around_schedule_first : World Prog :=
  { iters := [Iterator.after 0 (.yield (some 2) (.throw (.user 9)))]
    log := [.start 0 (some 0), .yield 0 (some 1), .start 0 (some 0), .yield 0 (some 2),
      .start 0 (some 0)] }

/-- The world after the second `operator*` on that iterator. -/
def yields_around_schedule_second : World Prog :=
  { iters := [{ context_ := some {}, next_ := none, stop_ := false }]
    log := [.start 0 (some 0), .yield 0 (some 1), .start 0 (some 0), .yield 0 (some 2),
      .start 0 (some 0), .start 0 (some 0)] }

/-! ## The stack pool

The pools and the `Stack` handles are kept apart from `World`: a `Context` owns its `Stack`, and
the scheduler never looks at it. -/

/-- The members of `StackPool::Stack`: the pool the buffer came from and the buffer; `none` is
`nullptr`. -/
structure Stack where
  sp : Option Nat := none
  ptr : Option Nat := none
  deriving DecidableEq, Repr

/-- The member `stacks` of `class StackPool`, the free list (named `stacks_`: `stacks` is a
keyword here). -/
structure StackPool where
  stacks_ : List Nat := []
  deriving DecidableEq, Repr

/-- The pools and the objects of type `Stack` of the process, by address; a `Stack` whose
lifetime has ended is `none`. -/
structure Memory where
  pools : List StackPool := []
  handles : List (Option Stack) := []
  deriving DecidableEq, Repr

/-- The member `StackPool::free(void* stack)`: `stacks.push_back(stack)`. -/
def StackPool.free (P : StackPool) (stack : Nat) : StackPool :=
  { stacks_ := P.stacks_ ++ [stack] }

/-- The member `StackPool::alloc` of the pool at address `this`; `calloc` is what `std::calloc`
returns when it is called. -/
def StackPool.alloc (this : Nat) (calloc : Option Nat) (P : StackPool) : Stack × StackPool :=
  match P.stacks_.getLast? with
  | some ptr => ({ sp := some this, ptr := some ptr }, { stacks_ := P.stacks_.dropLast })
  | none => ({ sp := some this, ptr := calloc }, P)

/-- The member `Stack::free` of the `Stack` at address `a`; `none` is undefined behaviour (no
live object at `a`, or a call through a null or dangling `sp`). -/
def Stack.free (a : Nat) (m : Memory) : Option Memory :=
  match m.handles[a]? with
  | some (some S) =>
    match S.ptr with
    | none => some m
    | some ptr =>
      match S.sp with
      | none => none
      | some sp =>
        match m.pools[sp]? with
        | none => none
        | some P =>
          some { pools := m.pools.set sp (P.free ptr)
                 handles := m.handles.set a (some { S with ptr := none }) }
  | _ => none

/-- The destructor `~Stack() { free(); }` of the `Stack` at address `a`, whose lifetime ends. -/
def Stack.destroy (a : Nat) (m : Memory) : Option Memory :=
  match Stack.free a m with
  | none => none
  | some m1 => some { m1 with handles := m1.handles.set a none }

/-- The constructor `Stack(Stack&& other)`; the new object gets the address
`m.handles.length`. -/
def Stack.move_construct (other : Nat) (m : Memory) : Option Memory :=
  match m.handles[other]? with
  | some (some O) =>
    some { m with
      handles := m.handles.set other (some { O with ptr := none }) ++
        [some { sp := O.sp, ptr := O.ptr }] }
  | _ => none

/-- The statement `std::swap(ptr, other.ptr)` for the objects at `this` and `other`. -/
def Stack.swap_ptr (this other : Nat) (m : Memory) : Option Memory :=
  match m.handles[this]?, m.handles[other]? with
  | some (some T), some (some O) =>
    let m1 : Memory := { m with handles := m.handles.set this (some { T with ptr := O.ptr }) }
    match m1.handles[other]? with
    | some (some O1) =>
      some { m1 with handles := m1.handles.set other (some { O1 with ptr := T.ptr }) }
    | _ => none
  | _, _ => none

/-- The operator `Stack& operator=(Stack&& other)` of the object at `this`:
`free(); sp = other.sp; std::swap(ptr, other.ptr);`. -/
def Stack.move_assign (this other : Nat) (m : Memory) : Option Memory :=
  match Stack.free this m with
  | none => none
  | some m1 =>
    match m1.handles[this]?, m1.handles[other]? with
    | some (some T), some (some O) =>
      Stack.swap_ptr this other
        { m1 with handles := m1.handles.set this (some { T with sp := O.sp }) }
    | _, _ => none

/-- The constructor `Stack() = default`; the new object gets the address `m.handles.length`. -/
def Stack.construct (m : Memory) : Memory :=
  { m with handles := m.handles ++ [some {}] }

/-- The definition `Stack s = pool.alloc();` for the pool at address `pool`; the new object gets
the address `m.handles.length`. -/
def Stack.from_alloc (pool : Nat) (calloc : Option Nat) (m : Memory) : Option Memory :=
  match m.pools[pool]? with
  | none => none
  | some P =>
    let r := StackPool.alloc pool calloc P
    some { pools := m.pools.set pool r.2, handles := m.handles ++ [some r.1] }

/-- The buffer a `Stack` object holds, if it is alive and holds one. -/
def Stack.buffer (o : Option Stack) : List Nat :=
  match o with
  | some S => S.ptr.toList
  | none => []

/-- The buffers held by the live `Stack` objects, each as often as it is held. -/
def Memory.held (m : Memory) : List Nat :=
  m.handles.flatMap Stack.buffer

/-- The buffers in the free lists of the pools, each as often as it is listed. -/
def Memory.free_list (m : Memory) : List Nat :=
  m.pools.flatMap StackPool.stacks_

/-- Every buffer is held by at most one live `Stack` or is once in a free list, not both; and a
`Stack` that holds a buffer points to its pool. -/
def Memory.exclusive (m : Memory) : Prop :=
  (m.held ++ m.free_list).Nodup ∧
  ∀ S, some S ∈ m.handles → ∀ b, S.ptr = some b → ∃ sp, S.sp = some sp ∧ sp < m.pools.length

/-- What `std::calloc` can return: a null pointer, or a block that is not in use. -/
def Memory.may_calloc (m : Memory) : Option Nat → Prop
  | none => True
  | some b => b ∉ m.held ++ m.free_list

instance Memory.decidable_may_calloc (m : Memory) (c : Option Nat) :
    Decidable (m.may_calloc c) := by
  cases c <;> unfold Memory.may_calloc <;> infer_instance

/-- The operations on `Stack` objects. -/
inductive StackOp where
  /-- the definition `Stack s;` -/
  | construct
  /-- the definition `Stack s = pool.alloc();` where `std::calloc`, if called, returns
  `calloc` -/
  | alloc (pool : Nat) (calloc : Option Nat)
  /-- the definition `Stack s(std::move(other));` -/
  | move_construct (other : Nat)
  /-- the assignment `this = std::move(other);` -/
  | move_assign (this other : Nat)
  /-- the lifetime of the object at `this` ends -/
  | destroy (this : Nat)
  deriving DecidableEq, Repr

/-- One operation; `none` when it is undefined or when `std::calloc` cannot return what the
operation says. -/
def Memory.exec (m : Memory) : StackOp → Option Memory
  | .construct => some (Stack.construct m)
  | .alloc pool calloc =>
    match m.pools[pool]? with
    | none => none
    | some P =>
      if P.stacks_ = [] ∧ ¬ m.may_calloc calloc then none else Stack.from_alloc pool calloc m
  | .move_construct other => Stack.move_construct other m
  | .move_assign this other => Stack.move_assign this other m
  | .destroy this => Stack.destroy this m

/-- A sequence of operations. -/
def Memory.execs : Memory → List StackOp → Option Memory
  | m, [] => some m
  | m, op :: ops =>
    match m.exec op with
    | none => none
    | some m1 => m1.execs ops


/-- The operation is defined in `m`, and can happen: the objects it names are alive, the pool
exists, and `std::calloc`, when called, returns a null pointer or a block that is not in use. -/
def Memory.allows (m : Memory) : StackOp → Prop
  | .construct => True
  | .alloc pool calloc => ∃ P, m.pools[pool]? = some P ∧ (P.stacks_ = [] → m.may_calloc calloc)
  | .move_construct other => ∃ O, m.handles[other]? = some (some O)
  | .move_assign this other =>
    (∃ T, m.handles[this]? = some (some T)) ∧ ∃ O, m.handles[other]? = some (some O)
  | .destroy this => ∃ T, m.handles[this]? = some (some T)

/-- The operations of a small example: two buffers are allocated, moved, assigned over and
given back, and two of the next three allocations take them from the free list. -/
def stack_ops : List StackOp :=
  [.alloc 0 (some 10), .alloc 0 (some 11), .move_construct 0, .move_assign 1 2,
   .move_assign 1 1, .destroy 0, .destroy 2, .alloc 0 (some 12), .alloc 0 none, .alloc 0 none,
   .construct, .move_assign 6 3]

/-- The memory after `stack_ops`. -/
def stack_ops_exit : Memory :=
  { pools := [{ stacks_ := [] }]
    handles := [none, some { sp := some 0, ptr := none }, none,
      some { sp := some 0, ptr := none }, some { sp := some 0, ptr := some 11 },
      some { sp := some 0, ptr := none }, some { sp := some 0, ptr := some 10 }] }

/-! ## Contexts that can be switched into -/

/-- The iterator a fiber refers to exists, in a process with `n` iterators. -/
def Fiber.ready (n : Nat) : Fiber σ → Prop
  | .fn _ => True
  | .generator_lambda it _ => it < n

/-- The context can be switched into, in a process with `n` iterators: it holds a fiber, and
the `GeneratorWatch` it carries or is going to install points to an iterator that exists. -/
def Context.ready (n : Nat) (c : Context σ) : Prop :=
  (∃ f, c.fiber = some f ∧ f.ready n) ∧ ∀ it, c.watch = some it → it < n

/-- The scheduler at `this` exists and every context in its queue can be switched into. -/
def World.ready (w : World σ) (this : Nat) : Prop :=
  ∃ S, w.scheds[this]? = some S ∧ ∀ c ∈ S.queue, c.ready w.iters.length

/-- A fiber that `run` of the scheduler at `this` switched into is executing:
`current_scheduler` points to that scheduler, its queue can be run, and the watch of its
`sched_context`, the context of the fiber, points to an iterator that exists. -/
def World.running (w : World σ) (this : Nat) : Prop :=
  w.current_scheduler = some this ∧
  ∃ S, w.scheds[this]? = some S ∧ (∀ c ∈ S.queue, c.ready w.iters.length) ∧
    ∀ it, S.sched_context.watch = some it → it < w.iters.length

/-- The world of `test_recursive_sched_exc` when `run` of the scheduler at address 0 has
switched into the outer fiber for the second time, after its first `yield()`. -/
def test_exc_resumed_world : World Prog :=
  { current_scheduler := some 0
    scheds := [{ queue := [], sched_context := { fiber := some (.fn test_exc_resumed) } }]
    log := [.start 0 (some 0), .yield 0 none, .start 0 (some 0), .step 0 0, .start 0 (some 0)] }

/-- The world of `test_recursive_sched_exc` when the outer fiber, after two nested runs of which
the second threw, calls `yield()` again. -/
def test_exc_hand_back : World Prog :=
  { current_scheduler := some 0
    scheds := [{ queue := [{ fiber := some (.fn (.step 0 .ret)) }]
                 sched_context := { fiber := some (.fn test_exc_resumed) } }]
    log := [.start 0 (some 0), .yield 0 none, .start 0 (some 0), .step 0 0, .start 0 (some 0),
      .start 1 (some 1), .step 1 1, .yield 0 none] }

/-! ## Theorems -/

theorem fuel_succ (fuel : Nat) :
    (∀ this s w r, call step fuel this s w = some r → call step (fuel + 1) this s w = some r) ∧
    (∀ this f w r, trampoline step fuel this f w = some r →
      trampoline step (fuel + 1) this f w = some r) ∧
    (∀ this w r, run step fuel this w = some r → run step (fuel + 1) this w = some r) ∧
    (∀ sched w r, scheduler_run step fuel sched w = some r →
      scheduler_run step (fuel + 1) sched w = some r) := by
  induction fuel with
  | zero => 
    refine ⟨?_, ?_, ?_, ?_⟩ <;> intros <;> simp_all [call, trampoline, run, scheduler_run]
  | succ n ih =>
    obtain ⟨ihc, iht, ihr, ihs⟩ := ih
    refine ⟨?_, ?_, ?_, ?_⟩
    · intro this s w r h
      rw [call] at h
      rw [call]
      cases hs : step s with
      | ret => simpa [hs] using h
      | throw e => simpa [hs] using h
      | step a k => simp only [hs] at h ⊢; exact ihc _ _ _ _ h
      | yield k => simpa [hs] using h
      | yield_value v k => simpa [hs] using h
      | schedule f k =>
        simp only [hs] at h ⊢
        split at h
        · exact ihc _ _ _ _ h
        · exact h
      | nested fs k hd =>
        simp only [hs] at h ⊢
        cases hsr : scheduler_run step n w.scheds.length
            { w with scheds := w.scheds ++ [fs.foldl (fun S f => S.schedule (.fn f)) {}] } with
        | none => simp [hsr] at h
        | some r1 =>
          rw [ihs _ _ _ hsr]
          rw [hsr] at h
          obtain ⟨x, w2⟩ := r1
          cases x with
          | fault f => exact h
          | returned =>
            simp only at h ⊢
            split at h
            · exact ihc _ _ _ _ h
            · exact h
          | threw e =>
            simp only at h ⊢
            split at h
            · cases hd with
              | none => exact h
              | some s1 => exact ihc _ _ _ _ h
            · exact h
    · intro this f w r h
      cases f with
      | fn s =>
        rw [trampoline] at h ⊢
        cases hc : call step n this s w with
        | none => simp [hc] at h
        | some r0 => rw [ihc _ _ _ _ hc]; rw [hc] at h; exact h
      | generator_lambda it s =>
        rw [trampoline] at h ⊢
        obtain ⟨x, w1, hw⟩ : ∃ x w1, create_current_fiber_watch it w = (x, w1) := ⟨_, _, rfl⟩
        rw [hw] at h ⊢
        cases x with
        | returned =>
          simp only at h ⊢
          cases hc : call step n this s w1 with
          | none => simp [hc] at h
          | some r0 => rw [ihc _ _ _ _ hc]; rw [hc] at h; exact h
        | threw e => exact h
        | fault f => exact h
    · intro this w r h
      rw [run] at h
      rw [run]
      cases hd : FiberScheduler.dequeue this w with
      | fault f => simpa [hd] using h
      | empty => simpa [hd] using h
      | switch fiber w1 =>
        simp only [hd] at h ⊢
        cases ht : trampoline step n this fiber w1 with
        | none => simp [ht] at h
        | some r1 =>
          rw [iht _ _ _ _ ht]
          rw [ht] at h
          obtain ⟨x, w2⟩ := r1
          cases x with
          | error f => exact h
          | ok action =>
            simp only at h ⊢
            split at h
            · exact h
            · exact h
            · next w3 heq => exact ihr _ _ _ h
    · intro sched w r h
      rw [scheduler_run] at h
      rw [scheduler_run]
      cases hr : run step n sched { w with current_scheduler := some sched } with
      | none => simp [hr] at h
      | some r1 =>
        rw [ihr _ _ _ hr]
        rw [hr] at h
        exact h

theorem World.eq_iff (w w' : World σ) : w = w' ↔ w.current_scheduler = w'.current_scheduler ∧
    w.scheds = w'.scheds ∧ w.iters = w'.iters ∧ w.log = w'.log := by
  cases w; cases w'; simp

theorem lt_of_getElem?_eq_some {α : Type} {l : List α} {i : Nat} {x : α} (h : l[i]? = some x) :
    i < l.length := by
  by_contra hn
  rw [List.getElem?_eq_none (Nat.le_of_not_lt hn)] at h
  cases h

theorem set_getElem?_self {α : Type} (l : List α) (i : Nat) (x : α) (h : l[i]? = some x) :
    l.set i x = l := by
  apply List.ext_getElem?
  intro n
  rw [List.getElem?_set]
  split
  · next hin =>
    subst hin
    simp [h]
    exact lt_of_getElem?_eq_some h
  · rfl

theorem call_slice {this : Nat} {s : σ} {ops : List (Op σ)} {e : Stop σ}
    (hsl : Slice step s ops e) :
    ∀ (w : World σ) (S : FiberScheduler σ), w.current_scheduler = some this →
      w.scheds[this]? = some S → ∀ fuel, ops.length < fuel →
      call step fuel this s w = some (e.exit,
        { w with
          scheds := w.scheds.set this { S with queue := S.queue ++ Op.contexts ops }
          log := w.log ++ Op.events this ops ++ e.events this }) := by
  induction hsl with
  | ret h =>
    intro w S hc hS fuel hf
    obtain ⟨n, rfl⟩ : ∃ n, fuel = n + 1 := ⟨fuel - 1, by omega⟩
    rw [call, h]
    simp [Stop.exit, Op.contexts, Op.events, Stop.events, World.eq_iff, set_getElem?_self _ _ _ hS]
  | throw h =>
    intro w S hc hS fuel hf
    obtain ⟨n, rfl⟩ : ∃ n, fuel = n + 1 := ⟨fuel - 1, by omega⟩
    rw [call, h]
    simp [Stop.exit, Op.contexts, Op.events, Stop.events, World.eq_iff, set_getElem?_self _ _ _ hS]
  | yield h =>
    intro w S hc hS fuel hf
    obtain ⟨n, rfl⟩ : ∃ n, fuel = n + 1 := ⟨fuel - 1, by omega⟩
    rw [call, h]
    simp [yield, hc, World.emit, Stop.exit, Op.contexts, Op.events, Stop.events, World.eq_iff,
      set_getElem?_self _ _ _ hS]
  | yield_value h =>
    intro w S hc hS fuel hf
    obtain ⟨n, rfl⟩ : ∃ n, fuel = n + 1 := ⟨fuel - 1, by omega⟩
    rw [call, h]
    simp [yield, hc, World.emit, Stop.exit, Op.contexts, Op.events, Stop.events, World.eq_iff,
      set_getElem?_self _ _ _ hS]
  | step h _ ih =>
    intro w S hc hS fuel hf
    obtain ⟨n, rfl⟩ : ∃ n, fuel = n + 1 := ⟨fuel - 1, by omega⟩
    rw [call, h]
    simp only
    rw [ih (w.emit _) S hc hS n (by simpa using hf)]
    simp [World.emit, Op.contexts, Op.events, World.eq_iff]
  | @schedule s f k ops e h _ ih =>
    intro w S hc hS fuel hf
    obtain ⟨n, rfl⟩ : ∃ n, fuel = n + 1 := ⟨fuel - 1, by omega⟩
    rw [call, h]
    have hlt := lt_of_getElem?_eq_some hS
    simp only [schedule, hc, hS]
    rw [ih (w.set_sched this (S.schedule (.fn f))) (S.schedule (.fn f)) hc
      (by simp [World.set_sched, hlt]) n (by simpa using hf)]
    simp [World.set_sched, hc, Op.contexts, Op.events, World.eq_iff, FiberScheduler.schedule,
      FiberScheduler.schedule_context]

theorem call_mono {n m : Nat} (h : n ≤ m) {this : Nat} {s : σ} {w : World σ}
    {r : BodyExit σ × World σ} (hr : call step n this s w = some r) :
    call step m this s w = some r := by
  induction h with
  | refl => exact hr
  | step _ ih => exact (fuel_succ step _).1 _ _ _ _ ih

theorem trampoline_mono {n m : Nat} (h : n ≤ m) {this : Nat} {f : Fiber σ} {w : World σ}
    {r : Except Fault Action × World σ} (hr : trampoline step n this f w = some r) :
    trampoline step m this f w = some r := by
  induction h with
  | refl => exact hr
  | step _ ih => exact (fuel_succ step _).2.1 _ _ _ _ ih

theorem run_mono {n m : Nat} (h : n ≤ m) {this : Nat} {w : World σ}
    {r : Exit × World σ} (hr : run step n this w = some r) :
    run step m this w = some r := by
  induction h with
  | refl => exact hr
  | step _ ih => exact (fuel_succ step _).2.2.1 _ _ _ ih

theorem scheduler_run_mono {n m : Nat} (h : n ≤ m) {sched : Nat} {w : World σ}
    {r : Exit × World σ} (hr : scheduler_run step n sched w = some r) :
    scheduler_run step m sched w = some r := by
  induction h with
  | refl => exact hr
  | step _ ih => exact (fuel_succ step _).2.2.2 _ _ _ ih

theorem run_slice {this : Nat} {s : σ} {ops : List (Op σ)} {e : Stop σ}
    (hsl : Slice step s ops e) (w : World σ) (S : FiberScheduler σ) (rest : List (Context σ))
    (ex : Option Exc) (hc : w.current_scheduler = some this) (hS : w.scheds[this]? = some S)
    (hq : S.queue = { fiber := some (.fn s), watch := none, exception := ex } :: rest)
    (fuel : Nat) (hf : ops.length + 1 < fuel) :
    run step (fuel + 1) this w =
      match e with
      | .throw x => some (.threw x, after_slice this w rest ops e)
      | _ => run step fuel this (after_slice this w rest ops e) := by
  have hlt := lt_of_getElem?_eq_some hS
  obtain ⟨n, rfl⟩ : ∃ n, fuel = n + 1 := ⟨fuel - 1, by omega⟩
  rw [run]
  simp only [FiberScheduler.dequeue, hS, hq]
  rw [trampoline]
  rw [call_slice step hsl _ { queue := rest, sched_context := { fiber := some (.fn s), watch := none, exception := none } }
    (by simpa [World.emit, World.set_sched] using hc) (by simp [World.emit, World.set_sched, hlt]) n (by omega)]
  cases e with
  | ret =>
    simp [switch_back, Stop.exit, trampoline_stop, World.emit, World.set_sched, hc, hlt, FiberScheduler.resumed,
      after_slice, Stop.events]
  | throw x =>
    simp [switch_back, Stop.exit, trampoline_stop, trampoline_catch, World.emit, World.set_sched, hc, hlt,
      FiberScheduler.resumed, after_slice, Stop.events]
  | yield d k =>
    simp [switch_back, Stop.exit, save_context, World.emit, World.set_sched, hc, hlt, FiberScheduler.resumed,
      FiberScheduler.requeue, FiberScheduler.schedule_context,
      FiberScheduler.create_context_from_fiber, after_slice, Stop.events]

theorem foldl_schedule (fs : List σ) (S : FiberScheduler σ) :
    fs.foldl (fun S f => S.schedule (.fn f)) S =
      { S with queue := S.queue ++ fs.map (fun f => FiberScheduler.create_context_from_fiber (.fn f)) } := by
  induction fs generalizing S with
  | nil => simp
  | cons f fs ih =>
    simp only [List.foldl_cons, ih]
    simp [FiberScheduler.schedule, FiberScheduler.schedule_context]

theorem contexts_map_step (as : List Nat) : Op.contexts (as.map (Op.step : Nat → Op σ)) = [] := by
  induction as with
  | nil => rfl
  | cons a as ih => simpa [Op.contexts] using ih

theorem events_map_step (this : Nat) (as : List Nat) :
    Op.events this (as.map (Op.step : Nat → Op σ)) = as.map (Event.step this) := by
  induction as with
  | nil => rfl
  | cons a as ih => simpa [Op.events] using ih

/-- The loop of `run` over a queue of fresh contexts whose bodies only do steps and return. -/
theorem run_straight (this : Nat) (bodies : List (σ × List Nat))
    (hb : ∀ b ∈ bodies, Slice step b.1 (b.2.map Op.step) .ret) :
    ∀ (w : World σ) (S : FiberScheduler σ), w.current_scheduler = some this →
      w.scheds[this]? = some S →
      S.queue = bodies.map (fun b => FiberScheduler.create_context_from_fiber (.fn b.1)) →
      ∃ N, ∀ fuel, N ≤ fuel → ∃ sc, run step fuel this w = some (.returned,
        { w with
          scheds := w.scheds.set this { queue := [], sched_context := sc }
          log := w.log ++ bodies.flatMap
            (fun b => Event.start this (some this) :: b.2.map (Event.step this)) }) := by
  induction bodies with
  | nil =>
    intro w S hc hS hq
    refine ⟨1, fun fuel hf => ⟨S.sched_context, ?_⟩⟩
    obtain ⟨n, rfl⟩ : ∃ n, fuel = n + 1 := ⟨fuel - 1, by omega⟩
    have hS' : S = { queue := [], sched_context := S.sched_context } := by
      cases S; simp at hq; simp [hq]
    rw [run]
    simp only [FiberScheduler.dequeue, hS]
    rw [hS']
    simp only [List.flatMap_nil, List.append_nil]
    rw [← hS', set_getElem?_self _ _ _ hS]
  | cons b bs ih =>
    intro w S hc hS hq
    have hlt := lt_of_getElem?_eq_some hS
    have hb1 := hb b (List.mem_cons_self _ _)
    obtain ⟨N, hN⟩ := ih (fun b' hb' => hb b' (List.mem_cons_of_mem _ hb'))
      (after_slice this w (bs.map (fun b => FiberScheduler.create_context_from_fiber (.fn b.1)))
        (b.2.map Op.step) .ret)
      { queue := bs.map (fun b => FiberScheduler.create_context_from_fiber (.fn b.1)),
        sched_context := {} }
      (by simpa [after_slice] using hc)
      (by simp [after_slice, hlt, contexts_map_step]) rfl
    refine ⟨max (N + 1) (b.2.length + 3), fun fuel hf => ?_⟩
    obtain ⟨n, rfl⟩ : ∃ n, fuel = n + 1 := ⟨fuel - 1, by omega⟩
    obtain ⟨sc, hsc⟩ := hN n (by omega)
    refine ⟨sc, ?_⟩
    rw [run_slice step hb1 w S
      (bs.map (fun b => FiberScheduler.create_context_from_fiber (.fn b.1))) none hc hS
      (by rw [hq]; rfl) n (by simp; omega)]
    simp only
    rw [hsc]
    simp [after_slice, World.eq_iff, events_map_step, Stop.events]

theorem steps_append (l₁ l₂ : List Event) : steps (l₁ ++ l₂) = steps l₁ ++ steps l₂ := by
  simp [steps]

theorem counter_append (a : Nat) (l₁ l₂ : List Event) :
    counter a (l₁ ++ l₂) = counter a l₁ + counter a l₂ := by
  simp [counter, steps_append]

theorem counter_single_steps (a sched : Nat) (bodies : List (σ × List Nat))
    (h : ∀ b ∈ bodies, b.2 = [a]) :
    counter a (bodies.flatMap
      (fun b => Event.start sched (some sched) :: b.2.map (Event.step sched))) = bodies.length := by
  induction bodies with
  | nil => rfl
  | cons b bs ih =>
    have hb := h b (List.mem_cons_self _ _)
    have ih' := ih (fun b' hb' => h b' (List.mem_cons_of_mem _ hb'))
    rw [List.flatMap_cons, counter_append, ih', hb]
    simp [counter, steps, Event.label?]
    omega

/-- Claim C1. Fibers `F1..Fn` whose bodies only do body steps and return are scheduled, in that
order, on a scheduler with an empty queue.  Then `scheduler_run` returns (with enough fuel),
and when it does the trace has grown by exactly: start of `F1`, all steps of `F1`, start of
`F2`, all steps of `F2`, ..., so every body ran exactly once, in order and to its end; the queue
is empty.  If every body is the one step `++x`, the counter `x` has grown by `n`. -/
theorem scheduler_run_fifo_without_yield (bodies : List (σ × List Nat))
    (hb : ∀ b ∈ bodies, Slice step b.1 (b.2.map Op.step) .ret)
    (w : World σ) (sched : Nat) (S : FiberScheduler σ)
    (hS : w.scheds[sched]? = some S) (hq : S.queue = []) :
    ∃ N, ∀ fuel, N ≤ fuel → ∃ w',
      scheduler_run step fuel sched (schedule_all sched (bodies.map Prod.fst) w) =
        some (.returned, w') ∧
      w'.log = w.log ++ bodies.flatMap
        (fun b => Event.start sched (some sched) :: b.2.map (Event.step sched)) ∧
      w'.current_scheduler = w.current_scheduler ∧
      (w'.scheds[sched]?).map (fun S' => S'.queue) = some [] ∧
      ∀ a, (∀ b ∈ bodies, b.2 = [a]) → counter a w'.log = counter a w.log + bodies.length := by
  have hlt := lt_of_getElem?_eq_some hS
  obtain ⟨N, hN⟩ := run_straight step sched bodies hb
    { (schedule_all sched (bodies.map Prod.fst) w) with current_scheduler := some sched }
    { S with queue := bodies.map (fun b => FiberScheduler.create_context_from_fiber (.fn b.1)) }
    rfl
    (by simp [schedule_all, hS, World.set_sched, hlt, foldl_schedule, hq, List.map_map, Function.comp_def])
    rfl
  refine ⟨N + 1, fun fuel hf => ?_⟩
  obtain ⟨n, rfl⟩ : ∃ n, fuel = n + 1 := ⟨fuel - 1, by omega⟩
  obtain ⟨sc, hsc⟩ := hN n (by omega)
  rw [scheduler_run]
  simp only [hsc]
  refine ⟨_, rfl, ?_, ?_, ?_, ?_⟩
  · simp [schedule_all, hS, World.set_sched]
  · simp [schedule_all, hS, World.set_sched]
  · simp [schedule_all, hS, World.set_sched, hlt]
  · intro a ha
    simp only [schedule_all, hS, World.set_sched]
    rw [counter_append, counter_single_steps a sched bodies ha]


/-- The three fibers of `test_multiple`: each body is the one step `++x`, and the run leaves the
counter at 3. -/
theorem scheduler_run_fifo_without_yield_witness :
    (∀ b ∈ test_multiple, Slice Prog.unfold b.1 (b.2.map Op.step) .ret) ∧
    ∃ N, ∀ fuel, N ≤ fuel → ∃ w',
      scheduler_run Prog.unfold fuel 0 (schedule_all 0 (test_multiple.map Prod.fst) one_scheduler) =
        some (.returned, w') ∧
      w'.log = one_scheduler.log ++ test_multiple.flatMap
        (fun b => Event.start 0 (some 0) :: b.2.map (Event.step 0)) ∧
      w'.current_scheduler = one_scheduler.current_scheduler ∧
      (w'.scheds[0]?).map (fun S' => S'.queue) = some [] ∧
      ∀ a, (∀ b ∈ test_multiple, b.2 = [a]) →
        counter a w'.log = counter a one_scheduler.log + test_multiple.length :=
  have h : ∀ b ∈ test_multiple, Slice Prog.unfold b.1 (b.2.map Op.step) .ret := by
    intro b hb
    simp only [test_multiple, List.mem_cons, List.mem_singleton, List.not_mem_nil, or_false,
      or_self] at hb
    subst hb
    exact Slice.step rfl (Slice.ret rfl)
  ⟨h, scheduler_run_fifo_without_yield Prog.unfold test_multiple h one_scheduler 0 {} rfl rfl⟩

/-- One round: every fiber at the head of the queue does its step and yields, and is put
behind the rest of the queue. -/
theorem run_round (this : Nat) (K : Nat) (fs : List (σ × Nat))
    (hr : ∀ f ∈ fs, Rounds step f.2 (K + 1) f.1) :
    ∃ fs' : List (σ × Nat), fs'.map Prod.snd = fs.map Prod.snd ∧
      (∀ f ∈ fs', Rounds step f.2 K f.1) ∧
      ∀ (w : World σ) (S : FiberScheduler σ) (q : List (Context σ)),
        w.current_scheduler = some this → w.scheds[this]? = some S →
        S.queue = fs.map (fun f => FiberScheduler.create_context_from_fiber (.fn f.1)) ++ q →
        ∃ sc, ∀ fuel, 3 ≤ fuel → run step (fuel + fs.length) this w = run step fuel this
          { w with
            scheds := w.scheds.set this
              { queue := q ++ fs'.map (fun f => FiberScheduler.create_context_from_fiber (.fn f.1)),
                sched_context := sc }
            log := w.log ++ round_log this (fs.map Prod.snd) } := by
  induction fs with
  | nil =>
    refine ⟨[], rfl, by simp, ?_⟩
    intro w S q hc hS hq
    refine ⟨S.sched_context, fun fuel _ => ?_⟩
    have hS' : S = { queue := q, sched_context := S.sched_context } := by
      cases S; simp at hq; simp [hq]
    congr 1
    simp [World.eq_iff, round_log, ← hS', set_getElem?_self _ _ _ hS]
  | cons f fs ih =>
    obtain ⟨fs', hl, hr', hrun⟩ := ih (fun g hg => hr g (List.mem_cons_of_mem _ hg))
    have hf := hr f (List.mem_cons_self _ _)
    cases hf with
    | @succ s k _ hsl hk =>
      refine ⟨(k, f.2) :: fs', by simp [hl], ?_, ?_⟩
      · intro g hg
        rcases List.mem_cons.1 hg with hg | hg
        · subst hg; exact hk
        · exact hr' g hg
      · intro w S q hc hS hq
        have hlt := lt_of_getElem?_eq_some hS
        obtain ⟨sc, hsc⟩ := hrun
          (after_slice this w
            (fs.map (fun f => FiberScheduler.create_context_from_fiber (.fn f.1)) ++ q)
            [.step f.2] (.yield none k))
          { queue := fs.map (fun f => FiberScheduler.create_context_from_fiber (.fn f.1)) ++
              (q ++ [FiberScheduler.create_context_from_fiber (.fn k)]),
            sched_context := {} }
          (q ++ [FiberScheduler.create_context_from_fiber (.fn k)])
          (by simpa [after_slice] using hc)
          (by simp [after_slice, hlt, Op.contexts]) rfl
        refine ⟨sc, fun fuel hfuel => ?_⟩
        have e1 : fuel + (f :: fs).length = (fuel + fs.length) + 1 := by simp; omega
        rw [e1, run_slice step hsl w S
          (fs.map (fun f => FiberScheduler.create_context_from_fiber (.fn f.1)) ++ q) none hc hS
          (by rw [hq]; rfl) (fuel + fs.length) (by simp; omega)]
        simp only
        rw [hsc fuel hfuel]
        congr 1
        simp [after_slice, World.eq_iff, round_log, Op.events, Stop.events]

theorem flatMap_start_only (this : Nat) (fs : List (σ × Nat)) :
    (fs.map (fun f => (f.1, ([] : List Nat)))).flatMap
      (fun b => Event.start this (some this) :: b.2.map (Event.step this)) =
    List.replicate fs.length (Event.start this (some this)) := by
  induction fs with
  | nil => rfl
  | cons f fs ih => simp [List.replicate_succ, ih]

/-- The loop of `run` over fibers that each do `K` times (step; yield). -/
theorem run_rounds (this : Nat) (K : Nat) :
    ∀ (fs : List (σ × Nat)), (∀ f ∈ fs, Rounds step f.2 K f.1) →
    ∀ (w : World σ) (S : FiberScheduler σ), w.current_scheduler = some this →
      w.scheds[this]? = some S →
      S.queue = fs.map (fun f => FiberScheduler.create_context_from_fiber (.fn f.1)) →
      ∃ N, ∀ fuel, N ≤ fuel → ∃ sc, run step fuel this w = some (.returned,
        { w with
          scheds := w.scheds.set this { queue := [], sched_context := sc }
          log := w.log ++ ((List.replicate K (round_log this (fs.map Prod.snd))).flatten ++
            List.replicate fs.length (Event.start this (some this))) }) := by
  induction K with
  | zero =>
    intro fs hr w S hc hS hq
    obtain ⟨N, hN⟩ := run_straight step this (fs.map (fun f => (f.1, ([] : List Nat))))
      (by
        intro b hb
        obtain ⟨f, hf, rfl⟩ := List.mem_map.1 hb
        cases hr f hf with
        | zero h => exact h)
      w S hc hS (by simp [hq, List.map_map, Function.comp_def])
    refine ⟨N, fun fuel hf => ?_⟩
    obtain ⟨sc, hsc⟩ := hN fuel hf
    refine ⟨sc, ?_⟩
    rw [hsc, flatMap_start_only]
    simp
  | succ K ih =>
    intro fs hr w S hc hS hq
    have hlt := lt_of_getElem?_eq_some hS
    obtain ⟨fs', hl, hr', hrun⟩ := run_round step this K fs hr
    obtain ⟨sc, hsc⟩ := hrun w S [] hc hS (by simp [hq])
    obtain ⟨N, hN⟩ := ih fs' hr'
      { w with
        scheds := w.scheds.set this
          { queue := [] ++ fs'.map (fun f => FiberScheduler.create_context_from_fiber (.fn f.1)),
            sched_context := sc }
        log := w.log ++ round_log this (fs.map Prod.snd) }
      { queue := fs'.map (fun f => FiberScheduler.create_context_from_fiber (.fn f.1)),
        sched_context := sc }
      hc (by simp [hlt]) rfl
    refine ⟨max N 3 + fs.length, fun fuel hf => ?_⟩
    obtain ⟨n, rfl⟩ : ∃ n, fuel = n + fs.length := ⟨fuel - fs.length, by omega⟩
    obtain ⟨sc', hsc'⟩ := hN n (by omega)
    refine ⟨sc', ?_⟩
    rw [hsc n (by omega), hsc']
    have hlen : fs'.length = fs.length := by
      have := congrArg List.length hl
      simpa using this
    simp [World.eq_iff, hl, hlen, List.replicate_succ]

theorem steps_round_log (this : Nat) (labels : List Nat) :
    steps (round_log this labels) = labels := by
  induction labels with
  | nil => rfl
  | cons a l ih =>
    simp only [round_log, List.flatMap_cons] at ih ⊢
    rw [steps_append, ih]
    simp [steps, Event.label?]

theorem steps_replicate_start (this n : Nat) :
    steps (List.replicate n (Event.start this (some this))) = [] := by
  induction n with
  | zero => rfl
  | succ n ih =>
    rw [List.replicate_succ]
    simp [steps, Event.label?]

theorem steps_flatten_replicate (K : Nat) (l : List Event) :
    steps (List.replicate K l).flatten = (List.replicate K (steps l)).flatten := by
  induction K with
  | zero => rfl
  | succ K ih => simp [List.replicate_succ, steps_append, ih]

theorem getLast?_ne_head_of_nodup {l : List Nat} (hn : l.Nodup) (h2 : 2 ≤ l.length) :
    ∀ x ∈ l.getLast?, ∀ y ∈ l.head?, x ≠ y := by
  match l, hn, h2 with
  | a :: b :: t, hn, _ =>
    intro x hx y hy
    simp only [List.head?_cons, Option.mem_def, Option.some.injEq] at hy
    subst hy
    rw [Option.mem_def, List.getLast?_cons_cons] at hx
    have hmem : x ∈ b :: t := List.mem_of_getLast?_eq_some hx
    have hnot : a ∉ b :: t := (List.nodup_cons.1 hn).1
    intro hxy
    exact hnot (hxy ▸ hmem)

theorem chain'_flatten_replicate {l : List Nat} (hn : l.Nodup) (h2 : 2 ≤ l.length) (K : Nat) :
    List.Chain' (fun x y => x ≠ y) (List.replicate K l).flatten := by
  induction K with
  | zero => simp
  | succ K ih =>
    rw [List.replicate_succ, List.flatten_cons, List.chain'_append]
    refine ⟨List.Pairwise.chain' hn, ih, ?_⟩
    intro x hx y hy
    cases K with
    | zero => simp at hy
    | succ K =>
      rw [List.replicate_succ, List.flatten_cons] at hy
      have hne : l ≠ [] := by
        intro h
        simp [h] at h2
      rw [List.head?_append_of_ne_nil _ hne] at hy
      exact getLast?_ne_head_of_nodup hn h2 x hx y hy

theorem length_flatten_replicate (K : Nat) (l : List Nat) :
    (List.replicate K l).flatten.length = l.length * K := by
  induction K with
  | zero => rfl
  | succ K ih =>
    rw [List.replicate_succ, List.flatten_cons, List.length_append, ih, Nat.mul_succ]
    omega

theorem rounds_yield_body (a K : Nat) : Rounds Prog.unfold a K (yield_body a K) := by
  induction K with
  | zero => exact Rounds.zero (Slice.ret rfl)
  | succ K ih => exact Rounds.succ (Slice.step rfl (Slice.yield rfl)) ih

/-- Claim C2. Fibers `F1..FN` whose bodies are `K` times (one body step; `yield()`) are scheduled
in that order on a scheduler with an empty queue; the step of fiber `i` carries the label
`fibers[i].2`.  Then `scheduler_run` returns (with enough fuel), and when it does the trace has
grown by exactly `K` rounds, each of them start, step, yield of `F1`, then of `F2`, ..., then of
`FN`, followed by the `N` last resumptions in which the bodies return.  So the body steps are `K`
rounds `F1, ..., FN`, there are `N * K` of them, and when the labels differ and `N >= 2` no two
steps in a row are of the same fiber. -/
theorem scheduler_run_round_robin (K : Nat) (fibers : List (σ × Nat))
    (hr : ∀ f ∈ fibers, Rounds step f.2 K f.1)
    (w : World σ) (sched : Nat) (S : FiberScheduler σ)
    (hS : w.scheds[sched]? = some S) (hq : S.queue = []) :
    ∃ N, ∀ fuel, N ≤ fuel → ∃ w',
      scheduler_run step fuel sched (schedule_all sched (fibers.map Prod.fst) w) =
        some (.returned, w') ∧
      w'.log = w.log ++ ((List.replicate K (round_log sched (fibers.map Prod.snd))).flatten ++
        List.replicate fibers.length (Event.start sched (some sched))) ∧
      steps w'.log = steps w.log ++ (List.replicate K (fibers.map Prod.snd)).flatten ∧
      (steps w'.log).length = (steps w.log).length + fibers.length * K ∧
      (2 ≤ fibers.length → (fibers.map Prod.snd).Nodup →
        List.Chain' (fun x y => x ≠ y) (List.replicate K (fibers.map Prod.snd)).flatten) ∧
      (w'.scheds[sched]?).map (fun S' => S'.queue) = some [] := by
  have hlt := lt_of_getElem?_eq_some hS
  obtain ⟨N, hN⟩ := run_rounds step sched K fibers hr
    { (schedule_all sched (fibers.map Prod.fst) w) with current_scheduler := some sched }
    { S with queue := fibers.map (fun f => FiberScheduler.create_context_from_fiber (.fn f.1)) }
    rfl
    (by simp [schedule_all, hS, World.set_sched, hlt, foldl_schedule, hq, List.map_map,
      Function.comp_def])
    rfl
  refine ⟨N + 1, fun fuel hf => ?_⟩
  obtain ⟨n, rfl⟩ : ∃ n, fuel = n + 1 := ⟨fuel - 1, by omega⟩
  obtain ⟨sc, hsc⟩ := hN n (by omega)
  rw [scheduler_run]
  simp only [hsc]
  have hlog : steps (w.log ++ ((List.replicate K (round_log sched (fibers.map Prod.snd))).flatten ++
      List.replicate fibers.length (Event.start sched (some sched)))) =
      steps w.log ++ (List.replicate K (fibers.map Prod.snd)).flatten := by
    rw [steps_append, steps_append, steps_flatten_replicate, steps_round_log,
      steps_replicate_start, List.append_nil]
  refine ⟨_, rfl, ?_, ?_, ?_, ?_, ?_⟩
  · simp [schedule_all, hS, World.set_sched]
  · simpa [schedule_all, hS, World.set_sched] using hlog
  · have := congrArg List.length hlog
    rw [List.length_append, length_flatten_replicate, List.length_map] at this
    simpa [schedule_all, hS, World.set_sched] using this
  · intro h2 hn
    exact chain'_flatten_replicate hn (by simpa using h2) K
  · simp [schedule_all, hS, World.set_sched, hlt]

/-- The three fibers of `test_yield_many` with `ITERS = 10`: ten rounds 1, 2, 3. -/
theorem scheduler_run_round_robin_witness :
    (∀ f ∈ test_yield_many, Rounds Prog.unfold f.2 10 f.1) ∧
    ∃ N, ∀ fuel, N ≤ fuel → ∃ w',
      scheduler_run Prog.unfold fuel 0
          (schedule_all 0 (test_yield_many.map Prod.fst) one_scheduler) =
        some (.returned, w') ∧
      w'.log = one_scheduler.log ++
        ((List.replicate 10 (round_log 0 (test_yield_many.map Prod.snd))).flatten ++
          List.replicate test_yield_many.length (Event.start 0 (some 0))) ∧
      steps w'.log = steps one_scheduler.log ++
        (List.replicate 10 (test_yield_many.map Prod.snd)).flatten ∧
      (steps w'.log).length = (steps one_scheduler.log).length + test_yield_many.length * 10 ∧
      (2 ≤ test_yield_many.length → (test_yield_many.map Prod.snd).Nodup →
        List.Chain' (fun x y => x ≠ y)
          (List.replicate 10 (test_yield_many.map Prod.snd)).flatten) ∧
      (w'.scheds[0]?).map (fun S' => S'.queue) = some [] :=
  have h : ∀ f ∈ test_yield_many, Rounds Prog.unfold f.2 10 f.1 := by
    intro f hf
    simp only [test_yield_many, List.mem_cons, List.mem_singleton, List.not_mem_nil,
      or_false] at hf
    rcases hf with rfl | rfl | rfl <;> exact rounds_yield_body _ _
  ⟨h, scheduler_run_round_robin Prog.unfold 10 test_yield_many h one_scheduler 0 {} rfl rfl⟩

theorem Frame.refl (a : Nat) (w : World σ) : Frame a w w :=
  ⟨rfl, rfl, [], by simp, by simp⟩

theorem Frame.trans {a : Nat} {w₁ w₂ w₃ : World σ} (h₁ : Frame a w₁ w₂) (h₂ : Frame a w₂ w₃) :
    Frame a w₁ w₃ := by
  obtain ⟨l₁, e₁, g₁⟩ := h₁.log
  obtain ⟨l₂, e₂, g₂⟩ := h₂.log
  refine ⟨h₂.length.trans h₁.length, h₂.below.trans h₁.below, l₁ ++ l₂, ?_, ?_⟩
  · rw [e₂, e₁, List.append_assoc]
  · intro e he
    rcases List.mem_append.1 he with h | h
    · exact g₁ e h
    · exact g₂ e h

theorem Event.within_mono {a b : Nat} (h : a ≤ b) {e : Event} (he : Event.within b e) :
    Event.within a e :=
  ⟨Nat.le_trans h he.1, he.2⟩

theorem take_take_of_le {α : Type} {a b : Nat} (h : a ≤ b) (l : List α) :
    (l.take b).take a = l.take a := by
  rw [List.take_take, Nat.min_eq_left h]

theorem Frame.mono {a b : Nat} (h : a ≤ b) {w w' : World σ} (hf : Frame b w w') :
    Frame a w w' := by
  obtain ⟨l, e, g⟩ := hf.log
  refine ⟨hf.length, ?_, l, e, fun x hx => Event.within_mono h (g x hx)⟩
  rw [← take_take_of_le h w'.scheds, hf.below, take_take_of_le h]

theorem take_set_of_le {α : Type} (l : List α) {a b : Nat} (h : a ≤ b) (x : α) :
    (l.set b x).take a = l.take a := by
  apply List.ext_getElem?
  intro n
  rw [List.getElem?_take, List.getElem?_take]
  split
  · next hn => rw [List.getElem?_set_ne (by omega)]
  · rfl

theorem Frame.set_sched (w : World σ) {a b : Nat} (h : a ≤ b) (S : FiberScheduler σ) :
    Frame a w (w.set_sched b S) :=
  ⟨by simp [World.set_sched], by simp [World.set_sched, take_set_of_le _ h], [], by
    simp [World.set_sched], by simp⟩

theorem Frame.set_iter (w : World σ) (a b : Nat) (I : Iterator σ) :
    Frame a w (w.set_iter b I) :=
  ⟨rfl, rfl, [], by simp [World.set_iter], by simp⟩

theorem Frame.emit (w : World σ) {a : Nat} {e : Event} (h : Event.within a e) :
    Frame a w (w.emit e) :=
  ⟨rfl, rfl, [e], rfl, by simpa using h⟩

theorem Frame.current (w : World σ) (a : Nat) (c : Option Nat) :
    Frame a w { w with current_scheduler := c } :=
  ⟨rfl, rfl, [], by simp, by simp⟩

theorem getElem?_of_lt {α : Type} {l : List α} {i : Nat} (h : i < l.length) :
    ∃ x, l[i]? = some x :=
  ⟨l[i], List.getElem?_eq_getElem h⟩

theorem requeue_again {this : Nat} {w w' : World σ}
    (hc : w.current_scheduler = some this)
    (h : FiberScheduler.requeue this w = .again w') :
    Frame this w w' ∧ w'.current_scheduler = some this := by
  simp only [FiberScheduler.requeue, hc] at h
  split at h
  · cases h
  · next Sc hSc =>
    split at h
    · cases h
    · next St hSt =>
      cases h
      exact ⟨(Frame.set_sched _ (Nat.le_refl _) _).trans (Frame.set_sched _ (Nat.le_refl _) _),
        by simpa [World.set_sched] using hc⟩

theorem resumed_again {this : Nat} {action : Action} {w w' : World σ}
    (hc : w.current_scheduler = some this)
    (h : FiberScheduler.resumed this action w = .again w') :
    Frame this w w' ∧ w'.current_scheduler = some this := by
  simp only [FiberScheduler.resumed] at h
  split at h
  · cases h
  · next S hS =>
    split at h
    · cases h
    · split at h
      · split at h
        · exact requeue_again hc h
        · cases h; exact ⟨Frame.refl _ _, hc⟩
      · next it hit =>
        split at h
        · cases h
        · next I hI =>
          have hf : Frame this w ((w.set_iter it (GeneratorWatch.call I action S.sched_context).1).set_sched
              this { S with sched_context := (GeneratorWatch.call I action S.sched_context).2.2 }) :=
            (Frame.set_iter _ _ _ _).trans (Frame.set_sched _ (Nat.le_refl _) _)
          split at h
          · obtain ⟨h1, h2⟩ := requeue_again
              (by simpa [World.set_sched, World.set_iter] using hc) h
            exact ⟨hf.trans h1, h2⟩
          · cases h
            exact ⟨hf, by simpa [World.set_sched, World.set_iter] using hc⟩

theorem resumed_rethrow {this : Nat} {action : Action} {w w' : World σ} {e : Exc}
    (h : FiberScheduler.resumed this action w = .rethrow e w') :
    w' = w ∧ ∃ S, w.scheds[this]? = some S ∧ S.sched_context.exception = some e := by
  simp only [FiberScheduler.resumed] at h
  split at h
  · cases h
  · next S hS =>
    split at h
    · next e' he' => cases h; exact ⟨rfl, S, hS, he'⟩
    · split at h
      · split at h
        · simp only [FiberScheduler.requeue] at h
          repeat' split at h
          all_goals cases h
        · cases h
      · split at h
        · cases h
        · split at h
          · simp only [FiberScheduler.requeue] at h
            repeat' split at h
            all_goals cases h
          · cases h

theorem within_step (this a : Nat) : Event.within this (.step this a) :=
  ⟨Nat.le_refl _, by simp⟩

theorem within_yield (this : Nat) (d : Option Nat) : Event.within this (.yield this d) :=
  ⟨Nat.le_refl _, by simp⟩

theorem within_start (this : Nat) : Event.within this (.start this (some this)) :=
  ⟨Nat.le_refl _, by simp⟩

theorem destroy_returned {a : Nat} {w w' : World σ}
    (h : FiberScheduler.destroy a w = (.returned, w')) :
    w' = { w with scheds := w.scheds.take a } := by
  simp only [FiberScheduler.destroy] at h
  split at h
  · cases h
  · split at h
    · cases h; rfl
    · cases h

theorem destroy_not_threw {a : Nat} {w w' : World σ} {e : Exc} :
    FiberScheduler.destroy a w ≠ (.threw e, w') := by
  simp only [FiberScheduler.destroy]
  intro h
  split at h
  · cases h
  · split at h <;> cases h

/-- After the local scheduler of a `nested` command was run and destroyed, the world differs
from the one before the command by the trace only. -/
theorem frame_nested {this : Nat} {w w2 w3 : World σ} {B : FiberScheduler σ}
    (hlt : this < w.scheds.length)
    (hf : Frame w.scheds.length ({ w with scheds := w.scheds ++ [B] } : World σ) w2)
    (hd : FiberScheduler.destroy w.scheds.length w2 = (.returned, w3)) :
    Frame this w w3 ∧ w3.current_scheduler = w2.current_scheduler := by
  rw [destroy_returned hd]
  obtain ⟨l, e, g⟩ := hf.log
  have hb' : w2.scheds.take w.scheds.length = w.scheds := by
    simpa using hf.below
  refine ⟨⟨?_, ?_, l, e, fun x hx => Event.within_mono (Nat.le_of_lt hlt) (g x hx)⟩, rfl⟩
  · simp [hb']
  · simp [hb']

theorem trampoline_stop_ok {this : Nat} {w w' : World σ} {a : Action}
    (h : trampoline_stop this w = (.ok a, w')) :
    Frame this w w' ∧ w'.current_scheduler = w.current_scheduler ∧ a = { action := .STOP } := by
  simp only [trampoline_stop] at h
  split at h
  · cases h
  · split at h
    · split at h
      · cases h
      · cases h
        exact ⟨Frame.set_sched _ (by omega) _, by simp [World.set_sched], rfl⟩
    · cases h

theorem trampoline_catch_some {e : Exc} {w w' : World σ}
    (h : trampoline_catch e w = some w') (this : Nat) (hc : w.current_scheduler = some this) :
    Frame this w w' ∧ w'.current_scheduler = w.current_scheduler := by
  simp only [trampoline_catch, hc] at h
  split at h
  · cases h
  · cases h
    exact ⟨Frame.set_sched _ (Nat.le_refl _) _, by simp [World.set_sched]⟩

theorem switch_back_ok {this : Nat} {x : BodyExit σ} {w w' : World σ} {a : Action}
    (hc : w.current_scheduler = some this) (h : switch_back this (x, w) = (.ok a, w')) :
    Frame this w w' ∧ w'.current_scheduler = some this ∧ ∀ f, x ≠ .fault f := by
  cases x with
  | fault f => simp [switch_back] at h
  | returned =>
    simp only [switch_back] at h
    obtain ⟨h1, h2, -⟩ := trampoline_stop_ok h
    exact ⟨h1, h2.trans hc, by simp⟩
  | threw e =>
    simp only [switch_back] at h
    split at h
    · cases h
    · next w2 hw2 =>
      obtain ⟨g1, g2⟩ := trampoline_catch_some hw2 this hc
      obtain ⟨h1, h2, -⟩ := trampoline_stop_ok h
      exact ⟨g1.trans h1, (h2.trans g2).trans hc, by simp⟩
  | switched action k =>
    simp only [switch_back, save_context] at h
    split at h
    · cases h
    · next w2 hw2 =>
      split at hw2
      · cases hw2
      · cases hw2
        cases h
        exact ⟨Frame.set_sched _ (Nat.le_refl _) _, by simpa [World.set_sched] using hc, by simp⟩

theorem frame_invariant (fuel : Nat) :
    (∀ this s w x w', w.current_scheduler = some this → this < w.scheds.length →
      call step fuel this s w = some (x, w') → (∀ f, x ≠ .fault f) →
      Frame this w w' ∧ w'.current_scheduler = some this) ∧
    (∀ this f w a w', w.current_scheduler = some this → this < w.scheds.length →
      trampoline step fuel this f w = some (.ok a, w') →
      Frame this w w' ∧ w'.current_scheduler = some this) ∧
    (∀ this w x w', w.current_scheduler = some this →
      run step fuel this w = some (x, w') → (∀ f, x ≠ .fault f) →
      Frame this w w' ∧ w'.current_scheduler = some this ∧
        (x = .returned → (w'.scheds[this]?).map (fun S => S.queue) = some [])) ∧
    (∀ sched w x w',
      scheduler_run step fuel sched w = some (x, w') → (∀ f, x ≠ .fault f) →
      Frame sched w w' ∧ w'.current_scheduler = w.current_scheduler ∧
        (x = .returned → (w'.scheds[sched]?).map (fun S => S.queue) = some [])) := by
  induction fuel with
  | zero =>
    refine ⟨?_, ?_, ?_, ?_⟩ <;> intros <;> simp_all [call, trampoline, run, scheduler_run]
  | succ n ih =>
    obtain ⟨ihc, iht, ihr, ihs⟩ := ih
    refine ⟨?_, ?_, ?_, ?_⟩
    · intro this s w x w' hc hlt h hx
      rw [call] at h
      cases hs : step s with
      | ret =>
        simp only [hs, Option.some.injEq, Prod.mk.injEq] at h
        obtain ⟨-, rfl⟩ := h
        exact ⟨Frame.refl _ _, hc⟩
      | throw e =>
        simp only [hs, Option.some.injEq, Prod.mk.injEq] at h
        obtain ⟨-, rfl⟩ := h
        exact ⟨Frame.refl _ _, hc⟩
      | step a k =>
        simp only [hs] at h
        obtain ⟨h1, h2⟩ := ihc _ _ _ _ _ (by simpa [World.emit] using hc)
          (by simpa [World.emit] using hlt) h hx
        exact ⟨(Frame.emit w (within_step this a)).trans h1, h2⟩
      | yield k =>
        simp only [hs, yield, hc, if_true, Option.some.injEq, Prod.mk.injEq] at h
        obtain ⟨-, rfl⟩ := h
        exact ⟨Frame.emit w (within_yield this _), by simpa [World.emit] using hc⟩
      | yield_value v k =>
        simp only [hs, yield, hc, if_true, Option.some.injEq, Prod.mk.injEq] at h
        obtain ⟨-, rfl⟩ := h
        exact ⟨Frame.emit w (within_yield this _), by simpa [World.emit] using hc⟩
      | schedule f k =>
        obtain ⟨S, hS⟩ := getElem?_of_lt hlt
        simp only [hs, schedule, hc, hS] at h
        obtain ⟨h1, h2⟩ := ihc _ _ _ _ _ (by simpa [World.set_sched] using hc)
          (by simpa [World.set_sched] using hlt) h hx
        exact ⟨(Frame.set_sched w (Nat.le_refl _) _).trans h1, h2⟩
      | nested fs k hd =>
        simp only [hs] at h
        cases hsr : scheduler_run step n w.scheds.length
            { w with scheds := w.scheds ++ [fs.foldl (fun S f => S.schedule (.fn f)) {}] } with
        | none => simp [hsr] at h
        | some r1 =>
          rw [hsr] at h
          obtain ⟨x1, w2⟩ := r1
          cases x1 with
          | fault f =>
            simp only [Option.some.injEq, Prod.mk.injEq] at h
            exact absurd h.1.symm (hx f)
          | returned =>
            obtain ⟨hf2, hc2, -⟩ := ihs _ _ _ _ hsr (by simp)
            simp only at h
            split at h
            · next w3 hd3 =>
              obtain ⟨hf3, hc3⟩ := frame_nested hlt hf2 hd3
              obtain ⟨h1, h2⟩ := ihc _ _ _ _ _ (by rw [hc3, hc2]; exact hc)
                (by rw [hf3.length]; exact hlt) h hx
              exact ⟨hf3.trans h1, h2⟩
            · next x3 w3 hne hd3 =>
              simp only [Option.some.injEq, Prod.mk.injEq] at h
              obtain ⟨rfl, rfl⟩ := h
              cases x3 with
              | returned => exact absurd rfl hne
              | threw e => exact absurd hd3 destroy_not_threw
              | fault f => exact absurd rfl (hx f)
          | threw e =>
            obtain ⟨hf2, hc2, -⟩ := ihs _ _ _ _ hsr (by simp)
            simp only at h
            split at h
            · next w3 hd3 =>
              obtain ⟨hf3, hc3⟩ := frame_nested hlt hf2 hd3
              cases hd with
              | none =>
                simp only [Option.some.injEq, Prod.mk.injEq] at h
                obtain ⟨-, rfl⟩ := h
                exact ⟨hf3, by rw [hc3, hc2]; exact hc⟩
              | some s1 =>
                obtain ⟨h1, h2⟩ := ihc _ _ _ _ _ (by rw [hc3, hc2]; exact hc)
                  (by rw [hf3.length]; exact hlt) h hx
                exact ⟨hf3.trans h1, h2⟩
            · next x3 w3 hne hd3 =>
              simp only [Option.some.injEq, Prod.mk.injEq] at h
              obtain ⟨rfl, rfl⟩ := h
              cases x3 with
              | returned => exact absurd rfl hne
              | threw e => exact absurd hd3 destroy_not_threw
              | fault f => exact absurd rfl (hx f)
    · intro this f w a w' hc hlt h
      cases f with
      | fn s =>
        rw [trampoline] at h
        cases hcall : call step n this s w with
        | none => simp [hcall] at h
        | some r =>
          obtain ⟨x, w1⟩ := r
          simp only [hcall, Option.some.injEq] at h
          have hc1 : ∀ (hx : ∀ f, x ≠ .fault f), Frame this w w1 ∧ w1.current_scheduler = some this :=
            fun hx => ihc _ _ _ _ _ hc hlt hcall hx
          cases x with
          | fault f => simp [switch_back] at h
          | _ =>
            obtain ⟨h1, h2⟩ := hc1 (by simp)
            obtain ⟨g1, g2, -⟩ := switch_back_ok h2 h
            exact ⟨h1.trans g1, g2⟩
      | generator_lambda it s =>
        rw [trampoline] at h
        obtain ⟨S, hS⟩ := getElem?_of_lt hlt
        simp only [create_current_fiber_watch, hc, hS] at h
        cases hcall : call step n this s
            (w.set_sched this { S with sched_context := { S.sched_context with watch := some it } }) with
        | none => simp [hcall] at h
        | some r =>
          obtain ⟨x, w1⟩ := r
          simp only [hcall, Option.some.injEq] at h
          have hc1 : ∀ (hx : ∀ f, x ≠ .fault f), Frame this _ w1 ∧ w1.current_scheduler = some this :=
            fun hx => ihc _ _ _ _ _ (by simpa [World.set_sched] using hc)
              (by simpa [World.set_sched] using hlt) hcall hx
          cases x with
          | fault f => simp [switch_back] at h
          | _ =>
            obtain ⟨h1, h2⟩ := hc1 (by simp)
            obtain ⟨g1, g2, -⟩ := switch_back_ok h2 h
            exact ⟨((Frame.set_sched w (Nat.le_refl _) _).trans h1).trans g1, g2⟩
    · intro this w x w' hc h hx
      rw [run] at h
      cases hd : FiberScheduler.dequeue this w with
      | fault f =>
        simp only [hd, Option.some.injEq, Prod.mk.injEq] at h
        exact absurd h.1.symm (hx f)
      | empty =>
        simp only [hd, Option.some.injEq, Prod.mk.injEq] at h
        obtain ⟨rfl, rfl⟩ := h
        refine ⟨Frame.refl _ _, hc, fun _ => ?_⟩
        simp only [FiberScheduler.dequeue] at hd
        split at hd
        · cases hd
        · next S hS =>
          split at hd
          · next hq => simp [hS, hq]
          · split at hd <;> cases hd
      | switch fiber w1 =>
        simp only [hd] at h
        have hw1 : Frame this w w1 ∧ w1.current_scheduler = some this ∧ this < w.scheds.length := by
          simp only [FiberScheduler.dequeue] at hd
          split at hd
          · cases hd
          · next S hS =>
            split at hd
            · cases hd
            · split at hd
              · cases hd
              · cases hd
                refine ⟨(Frame.set_sched w (Nat.le_refl _) _).trans (Frame.emit _ ?_),
                  by simpa [World.emit, World.set_sched] using hc, lt_of_getElem?_eq_some hS⟩
                rw [hc]
                exact within_start this
        obtain ⟨hf1, hc1, hlt⟩ := hw1
        cases ht : trampoline step n this fiber w1 with
        | none => simp [ht] at h
        | some r =>
          obtain ⟨a, w2⟩ := r
          rw [ht] at h
          cases a with
          | error f =>
            simp only [Option.some.injEq, Prod.mk.injEq] at h
            exact absurd h.1.symm (hx f)
          | ok action =>
            obtain ⟨hf2, hc2⟩ := iht _ _ _ _ _ hc1 (by rw [hf1.length]; exact hlt) ht
            simp only at h
            cases hres : FiberScheduler.resumed this action w2 with
            | fault f =>
              simp only [hres, Option.some.injEq, Prod.mk.injEq] at h
              exact absurd h.1.symm (hx f)
            | rethrow e w3 =>
              simp only [hres, Option.some.injEq, Prod.mk.injEq] at h
              obtain ⟨rfl, rfl⟩ := h
              obtain ⟨rfl, -⟩ := resumed_rethrow hres
              exact ⟨hf1.trans hf2, hc2, by simp⟩
            | again w3 =>
              simp only [hres] at h
              obtain ⟨hf3, hc3⟩ := resumed_again hc2 hres
              obtain ⟨hf4, hc4, hq4⟩ := ihr _ _ _ _ hc3 h hx
              exact ⟨((hf1.trans hf2).trans hf3).trans hf4, hc4, hq4⟩
    · intro sched w x w' h hx
      rw [scheduler_run] at h
      cases hr : run step n sched { w with current_scheduler := some sched } with
      | none => simp [hr] at h
      | some r =>
        obtain ⟨x1, w1⟩ := r
        rw [hr] at h
        cases x1 with
        | fault f =>
          simp only [Option.some.injEq, Prod.mk.injEq] at h
          exact absurd h.1.symm (hx f)
        | returned =>
          simp only [Option.some.injEq, Prod.mk.injEq] at h
          obtain ⟨rfl, rfl⟩ := h
          obtain ⟨h1, h2, h3⟩ := ihr _ _ _ _ rfl hr (by simp)
          exact ⟨((Frame.current w sched _).trans h1).trans (Frame.current w1 sched _), rfl, h3⟩
        | threw e =>
          simp only [Option.some.injEq, Prod.mk.injEq] at h
          obtain ⟨rfl, rfl⟩ := h
          obtain ⟨h1, h2, h3⟩ := ihr _ _ _ _ rfl hr (by simp)
          exact ⟨((Frame.current w sched _).trans h1).trans (Frame.current w1 sched _), rfl,
            by simp⟩

theorem trampoline_succ (n this : Nat) (f : Fiber σ) (w : World σ) :
    trampoline step (n + 1) this f w =
      match invoke step n this f w with
      | none => none
      | some r => some (switch_back this r) := by
  cases f <;> rw [trampoline] <;> rfl

theorem invoke_mono {n m : Nat} (h : n ≤ m) {this : Nat} {f : Fiber σ} {w : World σ}
    {r : BodyExit σ × World σ} (hr : invoke step n this f w = some r) :
    invoke step m this f w = some r := by
  cases f with
  | fn s => exact call_mono step h hr
  | generator_lambda it s =>
    simp only [invoke] at hr ⊢
    split at hr
    · exact call_mono step h hr
    · exact hr

theorem invoke_frame {n this : Nat} {f : Fiber σ} {w w' : World σ} {x : BodyExit σ}
    (hc : w.current_scheduler = some this) (hlt : this < w.scheds.length)
    (h : invoke step n this f w = some (x, w')) (hx : ∀ f, x ≠ .fault f) :
    Frame this w w' ∧ w'.current_scheduler = some this := by
  cases f with
  | fn s => exact (frame_invariant step n).1 _ _ _ _ _ hc hlt h hx
  | generator_lambda it s =>
    obtain ⟨S, hS⟩ := getElem?_of_lt hlt
    simp only [invoke, create_current_fiber_watch, hc, hS] at h
    obtain ⟨h1, h2⟩ := (frame_invariant step n).1 _ _ _ _ _
      (by simpa [World.set_sched] using hc) (by simpa [World.set_sched] using hlt) h hx
    exact ⟨(Frame.set_sched w (Nat.le_refl _) _).trans h1, h2⟩

theorem dequeue_switch {this : Nat} {w w1 : World σ} {f : Fiber σ}
    (h : FiberScheduler.dequeue this w = .switch f w1) :
    ∃ S front rest, w.scheds[this]? = some S ∧ S.queue = front :: rest ∧ front.fiber = some f ∧
      w1 = (w.set_sched this
        { queue := rest, sched_context := { front with exception := none } }).emit
          (.start this w.current_scheduler) := by
  simp only [FiberScheduler.dequeue] at h
  split at h
  · cases h
  · next S hS =>
    split at h
    · cases h
    · next front rest hq =>
      split at h
      · cases h
      · next f' hf' =>
        cases h
        exact ⟨S, front, rest, hS, hq, hf', rfl⟩

theorem iterates_current {this : Nat} {w w' : World σ} (h : Iterates step this w w')
    (hc : w.current_scheduler = some this) : w'.current_scheduler = some this := by
  induction h with
  | refl => exact hc
  | @next w w1 w2 w3 w' fiber n action hd ht hres _ ih =>
    obtain ⟨S, front, rest, hS, -, -, rfl⟩ := dequeue_switch hd
    have hlt := lt_of_getElem?_eq_some hS
    obtain ⟨-, hc2⟩ := (frame_invariant step n).2.1 _ _ _ _ _
      (by simpa [World.emit, World.set_sched] using hc)
      (by simpa [World.emit, World.set_sched] using hlt) ht
    exact ih (resumed_again hc2 hres).2

theorem iterates_run {this : Nat} {w w' : World σ} (h : Iterates step this w w')
    {r : Exit × World σ} (hr : ∃ N, ∀ fuel, N ≤ fuel → run step fuel this w' = some r) :
    ∃ N, ∀ fuel, N ≤ fuel → run step fuel this w = some r := by
  induction h with
  | refl => exact hr
  | @next w w1 w2 w3 w' fiber n action hd ht hres _ ih =>
    obtain ⟨N, hN⟩ := ih hr
    refine ⟨max n N + 1, fun fuel hf => ?_⟩
    obtain ⟨m, rfl⟩ : ∃ m, fuel = m + 1 := ⟨fuel - 1, by omega⟩
    rw [run]
    simp only [hd, trampoline_mono step (by omega : n ≤ m) ht, hres]
    exact hN m (by omega)

/-- The iteration of `run` in which the body of the fiber throws: `run` rethrows at once. -/
theorem run_rethrows {this n : Nat} {wk w1 w2 : World σ} {f : Fiber σ} {e : Exc}
    (hc : wk.current_scheduler = some this)
    (hd : FiberScheduler.dequeue this wk = .switch f w1)
    (hb : invoke step n this f w1 = some (.threw e, w2)) :
    ∃ w', (∀ fuel, n + 2 ≤ fuel → run step fuel this wk = some (.threw e, w')) ∧
      w'.log = w2.log ∧
      (w'.scheds[this]?).map (fun S => S.queue) = (w2.scheds[this]?).map (fun S => S.queue) ∧
      w'.current_scheduler = some this := by
  obtain ⟨S, front, rest, hS, -, -, hw1⟩ := dequeue_switch hd
  have hlt := lt_of_getElem?_eq_some hS
  obtain ⟨hf, hc2⟩ := invoke_frame step
    (by rw [hw1]; simpa [World.emit, World.set_sched] using hc)
    (by rw [hw1]; simpa [World.emit, World.set_sched] using hlt) hb (by simp)
  have hlt2 : this < w2.scheds.length := by
    rw [hf.length, hw1]; simpa [World.emit, World.set_sched] using hlt
  obtain ⟨S2, hS2⟩ := getElem?_of_lt hlt2
  refine ⟨(w2.set_sched this
      { S2 with sched_context := { S2.sched_context with exception := some e } }).set_sched this
      { S2 with sched_context := { S2.sched_context with exception := some e, fiber := none } },
    ?_, ?_, ?_, ?_⟩
  · intro fuel hfuel
    obtain ⟨m, rfl⟩ : ∃ m, fuel = m + 2 := ⟨fuel - 2, by omega⟩
    rw [run]
    simp only [hd]
    rw [trampoline_succ, invoke_mono step (by omega : n ≤ m) hb]
    simp [switch_back, trampoline_catch, trampoline_stop, hc2, hS2, World.set_sched, hlt2,
      FiberScheduler.resumed]
  · simp [World.set_sched]
  · simp [World.set_sched, hlt2, hS2]
  · simpa [World.set_sched] using hc2

/-- Claim C3. The loop of `run` inside `scheduler_run(sched)` is at the beginning of an iteration
(`wk`); it takes the head `f` of the queue and switches into it (`w1`), and the body of `f` throws
`e` (in world `w2`).  Then `scheduler_run` throws `e` itself, and at that exit the trace and the
queue of `sched` are the ones of the moment of the throw: nothing was started or resumed after
it and the contexts that were queued are still queued. -/
theorem scheduler_run_rethrows (w0 wk w1 w2 : World σ) (sched n : Nat) (f : Fiber σ) (e : Exc)
    (hit : Iterates step sched { w0 with current_scheduler := some sched } wk)
    (hd : FiberScheduler.dequeue sched wk = .switch f w1)
    (hb : invoke step n sched f w1 = some (.threw e, w2)) :
    ∃ N, ∀ fuel, N ≤ fuel → ∃ w',
      scheduler_run step fuel sched w0 = some (.threw e, w') ∧
      w'.log = w2.log ∧
      (w'.scheds[sched]?).map (fun S => S.queue) = (w2.scheds[sched]?).map (fun S => S.queue) ∧
      w'.current_scheduler = w0.current_scheduler := by
  have hck := iterates_current step hit rfl
  obtain ⟨w', hrun, hlog, hq, -⟩ := run_rethrows step hck hd hb
  obtain ⟨N, hN⟩ := iterates_run step hit ⟨n + 2, hrun⟩
  refine ⟨N + 1, fun fuel hf => ?_⟩
  obtain ⟨m, rfl⟩ : ∃ m, fuel = m + 1 := ⟨fuel - 1, by omega⟩
  rw [scheduler_run]
  simp only [hN m (by omega)]
  exact ⟨_, rfl, hlog, hq, rfl⟩

/-- Three fibers of which the second throws: the first runs, the second throws in the second
iteration, the third stays in the queue and `scheduler_run` throws the same exception. -/
theorem scheduler_run_rethrows_witness :
    Iterates Prog.unfold 0
      { schedule_all 0 second_throws one_scheduler with current_scheduler := some 0 }
      second_throws_wk ∧
    FiberScheduler.dequeue 0 second_throws_wk =
      .switch (.fn (.step 1 (.throw (.user 7)))) second_throws_w1 ∧
    invoke Prog.unfold 2 0 (.fn (.step 1 (.throw (.user 7)))) second_throws_w1 =
      some (.threw (.user 7), second_throws_w2) ∧
    ∃ N, ∀ fuel, N ≤ fuel → ∃ w',
      scheduler_run Prog.unfold fuel 0 (schedule_all 0 second_throws one_scheduler) =
        some (.threw (.user 7), w') ∧
      w'.log = second_throws_w2.log ∧
      (w'.scheds[0]?).map (fun S => S.queue) =
        (second_throws_w2.scheds[0]?).map (fun S => S.queue) ∧
      w'.current_scheduler = (schedule_all 0 second_throws one_scheduler).current_scheduler :=
  have hit : Iterates Prog.unfold 0
      { schedule_all 0 second_throws one_scheduler with current_scheduler := some 0 }
      second_throws_wk := Iterates.next 3 rfl rfl rfl Iterates.refl
  ⟨hit, rfl, rfl, scheduler_run_rethrows Prog.unfold _ _ _ _ 0 2 _ _ hit rfl rfl⟩

/-- Claim C8. Take an invocation of `scheduler_run(B)` that exits by return or by an exception, in
particular one made by a fiber of a scheduler `A` for a scheduler `B` it has just constructed
(so that `A < B`).  At the exit every scheduler `A` below `B` is exactly as it was at the call:
the same contexts in the same order in its queue.  The trace has grown only by events of `B` and
of schedulers nested in `B`: no fiber of `A` was started or resumed, did a step or yielded, and
no `yield()` went to `A`.  After a return the queue of `B` is empty. -/
theorem nested_scheduler_run_isolated (fuel B : Nat) (w w' : World σ) (x : Exit)
    (h : scheduler_run step fuel B w = some (x, w')) (hx : ∀ f, x ≠ .fault f) :
    (∀ A, A < B → w'.scheds[A]? = w.scheds[A]?) ∧
    w'.scheds.length = w.scheds.length ∧
    (∃ l, w'.log = w.log ++ l ∧ ∀ e ∈ l, B ≤ e.sched) ∧
    (x = .returned → (w'.scheds[B]?).map (fun S => S.queue) = some []) := by
  obtain ⟨hf, -, hq⟩ := (frame_invariant step fuel).2.2.2 B w x w' h hx
  obtain ⟨l, hl, hw⟩ := hf.log
  refine ⟨fun A hA => ?_, hf.length, ⟨l, hl, fun e he => (hw e he).1⟩, hq⟩
  have h1 : (w'.scheds.take B)[A]? = (w.scheds.take B)[A]? := by rw [hf.below]
  rw [List.getElem?_take, List.getElem?_take] at h1
  simpa [hA] using h1

/-- The test `test_recursive_sched`: the inner run takes `y` from 0 to 2 and leaves `x` and the
outer scheduler as they were. -/
theorem nested_scheduler_run_isolated_witness :
    scheduler_run Prog.unfold 10 1 test_inner = some (.returned, test_inner_exit) ∧
    (∀ f, Exit.returned ≠ .fault f) ∧
    counter 1 test_inner.log = 0 ∧ counter 1 test_inner_exit.log = 2 ∧
    counter 0 test_inner_exit.log = counter 0 test_inner.log ∧
    (∀ A, A < 1 → test_inner_exit.scheds[A]? = test_inner.scheds[A]?) ∧
    test_inner_exit.scheds.length = test_inner.scheds.length ∧
    (∃ l, test_inner_exit.log = test_inner.log ++ l ∧ ∀ e ∈ l, 1 ≤ e.sched) ∧
    (Exit.returned = .returned →
      (test_inner_exit.scheds[1]?).map (fun S => S.queue) = some []) :=
  ⟨by decide!, fun _ h => Exit.noConfusion h, by decide, by decide, by decide,
    nested_scheduler_run_isolated Prog.unfold 10 1 test_inner test_inner_exit .returned
      (by decide!) (fun _ h => Exit.noConfusion h)⟩

theorem run_empty (n this : Nat) (w : World σ) (sc : Context σ)
    (h : w.scheds[this]? = some { queue := [], sched_context := sc }) :
    run step (n + 1) this w = some (.returned, w) := by
  rw [run]
  simp [FiberScheduler.dequeue, h]

/-- One advance step of the iterator at `it` whose producer is at point `s` and does the steps
`as` and then `e`. -/
theorem update_slice {it : Nat} {s : σ} {as : List Nat} {e : Stop σ}
    (hsl : Slice step s (as.map Op.step) e) (w : World σ) (I : Iterator σ)
    (hI : w.iters[it]? = some I) (hstop : I.stop_ = false)
    (hctx : I.context_ = some (suspended it s) ∨ I.context_ = some (fresh it s))
    (fuel : Nat) (hf : as.length + 4 ≤ fuel) :
    Iterator.update step fuel it w = some (e.update_exit,
      { w with
        iters := w.iters.set it (Iterator.after it e)
        log := w.log ++ Event.start w.scheds.length (some w.scheds.length) ::
          (as.map (Event.step w.scheds.length) ++ e.events w.scheds.length) }) := by
  obtain ⟨m, rfl⟩ : ∃ m, fuel = m + 3 := ⟨fuel - 3, by omega⟩
  have hit := lt_of_getElem?_eq_some hI
  have hcall := fun (S : FiberScheduler σ) (w0 : World σ) (h1 : w0.current_scheduler = some w.scheds.length)
      (h2 : w0.scheds[w.scheds.length]? = some S) =>
    call_slice step hsl w0 S h1 h2 m (by simp; omega)
  rcases hctx with hctx | hctx
  · simp only [Iterator.update, hI, hstop, hctx, Bool.false_eq_true, if_false]
    rw [scheduler_run, run]
    simp only [FiberScheduler.dequeue, World.set_iter, FiberScheduler.schedule_context, suspended,
      List.getElem?_concat_length, List.nil_append, World.set_sched, World.emit]
    rw [trampoline_succ]
    simp only [invoke]
    rw [hcall { queue := [], sched_context := { fiber := some (.fn s), watch := some it, exception := none } }
      _ rfl (by simp)]
    cases e with
    | ret =>
      simp [switch_back, Stop.exit, trampoline_stop, World.set_sched, FiberScheduler.resumed,
        hit, GeneratorWatch.call, World.set_iter, Stop.events, contexts_map_step, events_map_step]
      rw [run_empty step m _ _ _ (by simp; rfl)]
      simp [FiberScheduler.destroy, Stop.update_exit, Iterator.after]
    | throw x =>
      simp [switch_back, Stop.exit, trampoline_stop, trampoline_catch, World.set_sched,
        FiberScheduler.resumed,
        hit, GeneratorWatch.call, World.set_iter, Stop.events, contexts_map_step, events_map_step,
        FiberScheduler.destroy, Stop.update_exit, Iterator.after]
    | yield d k =>
      simp [switch_back, Stop.exit, save_context, World.set_sched, FiberScheduler.resumed,
        hit, GeneratorWatch.call, World.set_iter, Stop.events, contexts_map_step, events_map_step]
      rw [run_empty step m _ _ _ (by simp; rfl)]
      simp [FiberScheduler.destroy, Stop.update_exit, Iterator.after, suspended]
  · simp only [Iterator.update, hI, hstop, hctx, Bool.false_eq_true, if_false]
    rw [scheduler_run, run]
    simp only [FiberScheduler.dequeue, World.set_iter, FiberScheduler.schedule_context, fresh,
      FiberScheduler.create_context_from_fiber,
      List.getElem?_concat_length, List.nil_append, World.set_sched, World.emit]
    rw [trampoline_succ]
    simp only [invoke, create_current_fiber_watch, World.set_sched]
    simp only [List.length_append, List.length_singleton, Nat.lt_add_one, List.getElem?_set_self,
      List.set_set]
    rw [hcall { queue := [], sched_context := { fiber := some (.generator_lambda it s), watch := some it, exception := none } }
      _ rfl (by simp)]
    cases e with
    | ret =>
      simp [switch_back, Stop.exit, trampoline_stop, World.set_sched, FiberScheduler.resumed,
        hit, GeneratorWatch.call, World.set_iter, Stop.events, contexts_map_step, events_map_step]
      rw [run_empty step m _ _ _ (by simp; rfl)]
      simp [FiberScheduler.destroy, Stop.update_exit, Iterator.after]
    | throw x =>
      simp [switch_back, Stop.exit, trampoline_stop, trampoline_catch, World.set_sched,
        FiberScheduler.resumed,
        hit, GeneratorWatch.call, World.set_iter, Stop.events, contexts_map_step, events_map_step,
        FiberScheduler.destroy, Stop.update_exit, Iterator.after]
    | yield d k =>
      simp [switch_back, Stop.exit, save_context, World.set_sched, FiberScheduler.resumed,
        hit, GeneratorWatch.call, World.set_iter, Stop.events, contexts_map_step, events_map_step]
      rw [run_empty step m _ _ _ (by simp; rfl)]
      simp [FiberScheduler.destroy, Stop.update_exit, Iterator.after, suspended]

theorem yielded_append (l₁ l₂ : List Event) : yielded (l₁ ++ l₂) = yielded l₁ ++ yielded l₂ := by
  simp [yielded]

theorem yielded_segment_log (L : Nat) (sg : List Nat × Nat) :
    yielded (segment_log L sg) = [sg.2] := by
  simp only [segment_log, yielded, List.filterMap_cons, List.filterMap_append]
  have : List.filterMap (fun e => match e with
      | Event.yield _ (some v) => some v
      | _ => none) (sg.1.map (Event.step L)) = [] := by
    induction sg.1 with
    | nil => rfl
    | cons a l ih => simp
  simp [this]

theorem yielded_segments (L : Nat) (segs : List (List Nat × Nat)) :
    yielded (segs.flatMap (segment_log L)) = segs.map Prod.snd := by
  induction segs with
  | nil => rfl
  | cons sg segs ih => rw [List.flatMap_cons, yielded_append, yielded_segment_log, ih]; rfl

theorem yielded_start_steps (L : Nat) (as : List Nat) :
    yielded (Event.start L (some L) :: as.map (Event.step L)) = [] := by
  simp only [yielded, List.filterMap_cons]
  induction as with
  | nil => rfl
  | cons a l ih => simp

/-- The loop of the range `for` when the iterator holds the value `v` and the producer,
suspended at `s`, yields the values of `segs` and returns: the body receives `v` and then these
values. -/
theorem for_loop_yields {it : Nat} {s k : σ} {segs : List (List Nat × Nat)}
    (hy : Yields step s segs k) (tail : List Nat) (hr : Slice step k (tail.map Op.step) .ret) :
    ∀ (v : Nat) (received : List Nat) (w : World σ),
      w.iters[it]? = some (Iterator.after it (.yield (some v) s)) →
      ∃ N, ∀ fuel, N ≤ fuel →
        for_loop step (fun _ => false) fuel it received w = some (.returned,
          received ++ v :: segs.map Prod.snd,
          { w with
            iters := w.iters.set it (Iterator.after it .ret)
            log := w.log ++ (segs.flatMap (segment_log w.scheds.length) ++
              Event.start w.scheds.length (some w.scheds.length) ::
                tail.map (Event.step w.scheds.length)) }) := by
  induction hy with
  | @nil s =>
    intro v received w hI
    have hit := lt_of_getElem?_eq_some hI
    refine ⟨tail.length + 6, fun fuel hf => ?_⟩
    obtain ⟨m, rfl⟩ : ∃ m, fuel = m + 2 := ⟨fuel - 2, by omega⟩
    rw [for_loop]
    simp only [hI, Iterator.ne, Iterator.after, Generator.end_, Option.isSome_some, Bool.true_or,
      if_true, Iterator.deref]
    rw [update_slice step hr w _ hI rfl (Or.inl rfl) (m + 1) (by omega)]
    simp only [Stop.update_exit, Bool.false_eq_true, if_false]
    rw [for_loop]
    simp [hit, Iterator.ne, Iterator.after, Generator.end_, Stop.events]
  | @cons s s' k as v' segs hsl _ ih =>
    intro v received w hI
    have hit := lt_of_getElem?_eq_some hI
    obtain ⟨N, hN⟩ := ih hr v' (received ++ [v])
      { w with
        iters := w.iters.set it (Iterator.after it (.yield (some v') s'))
        log := w.log ++ Event.start w.scheds.length (some w.scheds.length) ::
          (as.map (Event.step w.scheds.length) ++
            (Stop.yield (some v') s').events w.scheds.length) }
      (by simp [hit])
    refine ⟨max (N + 1) (as.length + 5), fun fuel hf => ?_⟩
    obtain ⟨m, rfl⟩ : ∃ m, fuel = m + 1 := ⟨fuel - 1, by omega⟩
    rw [for_loop]
    simp only [hI, Iterator.ne, Iterator.after, Generator.end_, Option.isSome_some, Bool.true_or,
      if_true, Iterator.deref]
    rw [update_slice step hsl w _ hI rfl (Or.inl rfl) m (by omega)]
    simp only [Stop.update_exit, Bool.false_eq_true, if_false]
    rw [hN m (by omega)]
    simp [World.eq_iff, segment_log, Stop.events, Iterator.after]

theorem set_concat_length {α : Type} (l : List α) (x y : α) :
    (l ++ [x]).set l.length y = l ++ [y] := by
  rw [List.set_append_right _ _ (Nat.le_refl _)]
  simp

/-- The range `for` over a producer that yields the values of `segs` and returns. -/
theorem range_for_returns (f k : σ) (segs : List (List Nat × Nat)) (tail : List Nat)
    (hy : Yields step f segs k) (hr : Slice step k (tail.map Op.step) .ret) (w : World σ) :
    ∃ N, ∀ fuel, N ≤ fuel →
      range_for step (fun _ => false) fuel f w = some (.returned, segs.map Prod.snd,
        { w with
          iters := w.iters ++ [Iterator.after w.iters.length .ret]
          log := w.log ++ (segs.flatMap (segment_log w.scheds.length) ++
            Event.start w.scheds.length (some w.scheds.length) ::
              tail.map (Event.step w.scheds.length)) }) := by
  cases hy with
  | nil =>
    refine ⟨tail.length + 5, fun fuel hf => ?_⟩
    obtain ⟨m, rfl⟩ : ∃ m, fuel = m + 1 := ⟨fuel - 1, by omega⟩
    simp only [range_for, Generator.begin, Iterator.construct]
    rw [update_slice step hr _ _ (List.getElem?_concat_length _ _) rfl (Or.inr rfl) (m + 1)
      (by omega)]
    simp only [Stop.update_exit]
    rw [for_loop]
    simp [set_concat_length, Iterator.ne, Iterator.after, Generator.end_, Stop.events]
  | @cons _ s' _ as v segs' hsl hy' =>
    obtain ⟨N, hN⟩ := for_loop_yields step hy' tail hr v []
      { w with
        iters := w.iters ++ [Iterator.after w.iters.length (.yield (some v) s')]
        log := w.log ++ Event.start w.scheds.length (some w.scheds.length) ::
          (as.map (Event.step w.scheds.length) ++
            (Stop.yield (some v) s').events w.scheds.length) }
      (List.getElem?_concat_length _ _)
    refine ⟨max N (as.length + 4), fun fuel hf => ?_⟩
    simp only [range_for, Generator.begin, Iterator.construct]
    rw [update_slice step hsl _ _ (List.getElem?_concat_length _ _) rfl (Or.inr rfl) fuel
      (by omega)]
    simp only [Stop.update_exit, set_concat_length]
    rw [hN fuel (by omega)]
    simp [set_concat_length, World.eq_iff, segment_log, Stop.events]

/-- Claim C5, as amended. The producer `f`, whose code up to its return is body steps and
`yield(v)` calls only, calls `yield(v1)`, ..., `yield(vn)`, with body steps in between and
after, and returns.  Then the statement `for (auto elem : Generator<T>(f))` without `break`
ends (with enough fuel), its body has received exactly `v1, ..., vn`, in that order, each once;
these are the values that were passed to `yield`, and the iterator is left equal to `end()`.
For `n = 0` the body received nothing. -/
theorem range_for_delivers (f k : σ) (segs : List (List Nat × Nat)) (tail : List Nat)
    (hy : Yields step f segs k) (hr : Slice step k (tail.map Op.step) .ret) (w : World σ) :
    ∃ N, ∀ fuel, N ≤ fuel → ∃ w',
      range_for step (fun _ => false) fuel f w = some (.returned, segs.map Prod.snd, w') ∧
      yielded w'.log = yielded w.log ++ segs.map Prod.snd ∧
      w'.log = w.log ++ (segs.flatMap (segment_log w.scheds.length) ++
        Event.start w.scheds.length (some w.scheds.length) ::
          tail.map (Event.step w.scheds.length)) ∧
      w'.iters = w.iters ++ [Iterator.after w.iters.length .ret] ∧
      (∀ I, w'.iters[w.iters.length]? = some I → Iterator.ne I Generator.end_ = false) ∧
      w'.scheds = w.scheds ∧ w'.current_scheduler = w.current_scheduler := by
  obtain ⟨N, hN⟩ := range_for_returns step f k segs tail hy hr w
  refine ⟨N, fun fuel hf => ⟨_, hN fuel hf, ?_, rfl, rfl, ?_, rfl, rfl⟩⟩
  · simp only
    rw [yielded_append, yielded_append, yielded_segments, yielded_start_steps, List.append_nil]
  · intro I hI
    simp only [List.getElem?_concat_length, Option.some.injEq] at hI
    subst hI
    rfl

/-- The test `test_generator`: the body receives 0, 2, ..., 18. -/
theorem range_for_delivers_witness :
    Yields test_generator 0 test_generator_segs 10 ∧
    Slice test_generator 10 (([] : List Nat).map Op.step) .ret ∧
    ∃ N, ∀ fuel, N ≤ fuel → ∃ w',
      range_for test_generator (fun _ => false) fuel 0 ({} : World Nat) =
        some (.returned, test_generator_segs.map Prod.snd, w') ∧
      yielded w'.log = yielded ({} : World Nat).log ++ test_generator_segs.map Prod.snd ∧
      w'.log = ({} : World Nat).log ++
        (test_generator_segs.flatMap (segment_log ({} : World Nat).scheds.length) ++
          Event.start ({} : World Nat).scheds.length (some ({} : World Nat).scheds.length) ::
            ([] : List Nat).map (Event.step ({} : World Nat).scheds.length)) ∧
      w'.iters = ({} : World Nat).iters ++ [Iterator.after ({} : World Nat).iters.length .ret] ∧
      (∀ I, w'.iters[({} : World Nat).iters.length]? = some I →
        Iterator.ne I Generator.end_ = false) ∧
      w'.scheds = ({} : World Nat).scheds ∧
      w'.current_scheduler = ({} : World Nat).current_scheduler :=
  have hy : Yields test_generator 0 test_generator_segs 10 := by
    unfold test_generator_segs
    repeat (first | exact Yields.nil | refine Yields.cons (Slice.yield_value rfl) ?_)
  have hr : Slice test_generator 10 (([] : List Nat).map Op.step) .ret := Slice.ret rfl
  ⟨hy, hr, range_for_delivers test_generator 0 10 test_generator_segs [] hy hr {}⟩

/-- Claim C5 as stated fails: counterexample. The producer
`yield(1); yield(2); schedule([] { throw 5; });` calls `yield(1)`, `yield(2)` and returns, but
the body of the range `for` receives 1 only: the advance step of the second `operator*` runs
the producer to its return and then the fiber it scheduled, whose exception leaves `run`,
`update()` and `operator*`, so that 2 is not delivered and the statement is left by the
exception. -/
theorem scheduled_fiber_cuts_iteration :
    range_for Prog.unfold (fun _ => false) 7 yields_then_schedules ({} : World Prog) =
      some (.threw (.user 5), [1], yields_then_schedules_exit) ∧
    yielded yields_then_schedules_exit.log = [1, 2] ∧
    ∃ I, yields_then_schedules_exit.iters[0]? = some I ∧ I.stop_ = true :=
  ⟨by decide!, by decide, _, rfl, rfl⟩

/-- The loop of the range `for` when the iterator holds the value `v`, the producer yields at
least the values of `segs` after it, and the body breaks when it has received `vs`. -/
theorem for_loop_break {it : Nat} (brk : List Nat → Bool) {s k : σ}
    {segs : List (List Nat × Nat)} (hy : Yields step s segs k) :
    ∀ (v vlast : Nat) (vs received : List Nat) (w : World σ),
      w.iters[it]? = some (Iterator.after it (.yield (some v) s)) →
      v :: segs.map Prod.snd = vs ++ [vlast] → vs ≠ [] →
      (∀ j, j < vs.length → 0 < j → brk (received ++ vs.take j) = false) →
      brk (received ++ vs) = true →
      ∃ N, ∀ fuel, N ≤ fuel →
        for_loop step brk fuel it received w = some (.returned, received ++ vs,
          { w with
            iters := w.iters.set it (Iterator.after it (.yield (some vlast) k))
            log := w.log ++ segs.flatMap (segment_log w.scheds.length) }) := by
  induction hy with
  | nil =>
    intro v vlast vs received w _ hv hne
    exfalso
    have := congrArg List.length hv
    cases vs with
    | nil => exact hne rfl
    | cons a l => simp at this
  | @cons s s' k as v' segs hsl hy' ih =>
    intro v vlast vs received w hI hv hne hb1 hb2
    have hit := lt_of_getElem?_eq_some hI
    cases vs with
    | nil => exact absurd rfl hne
    | cons a vs' =>
      simp only [List.map_cons, List.cons_append, List.cons.injEq] at hv
      obtain ⟨rfl, hv'⟩ := hv
      have hstep : ∀ fuel, as.length + 5 ≤ fuel + 1 →
          for_loop step brk (fuel + 1) it received w =
            if brk (received ++ [v]) then some (.returned, received ++ [v],
              { w with
                iters := w.iters.set it (Iterator.after it (.yield (some v') s'))
                log := w.log ++ segment_log w.scheds.length (as, v') })
            else for_loop step brk fuel it (received ++ [v])
              { w with
                iters := w.iters.set it (Iterator.after it (.yield (some v') s'))
                log := w.log ++ segment_log w.scheds.length (as, v') } := by
        intro fuel hf
        rw [for_loop]
        simp only [hI, Iterator.ne, Iterator.after, Generator.end_, Option.isSome_some,
          Bool.true_or, if_true, Iterator.deref]
        rw [update_slice step hsl w _ hI rfl (Or.inl rfl) fuel (by omega)]
        simp only [Stop.update_exit, segment_log, Stop.events, Iterator.after]
      cases vs' with
      | nil =>
        have hlen := congrArg List.length hv'
        cases segs with
        | cons sg segs' => simp at hlen
        | nil =>
          cases hy'
          simp only [List.map_nil, List.nil_append, List.cons.injEq, and_true] at hv'
          subst hv'
          refine ⟨as.length + 5, fun fuel hf => ?_⟩
          obtain ⟨m, rfl⟩ : ∃ m, fuel = m + 1 := ⟨fuel - 1, by omega⟩
          rw [hstep m hf, if_pos hb2]
          simp
      | cons b vs'' =>
        have hfalse : brk (received ++ [v]) = false := by
          simpa using hb1 1 (by simp) (by omega)
        obtain ⟨N, hN⟩ := ih v' vlast (b :: vs'') (received ++ [v])
          { w with
            iters := w.iters.set it (Iterator.after it (.yield (some v') s'))
            log := w.log ++ segment_log w.scheds.length (as, v') }
          (by simp [hit]) hv' (by simp)
          (by
            intro j hj h0
            have := hb1 (j + 1) (by simpa using hj) (by omega)
            simpa using this)
          (by simpa using hb2)
        refine ⟨max (N + 1) (as.length + 5), fun fuel hf => ?_⟩
        obtain ⟨m, rfl⟩ : ∃ m, fuel = m + 1 := ⟨fuel - 1, by omega⟩
        rw [hstep m (by omega), hfalse]
        simp only [Bool.false_eq_true, if_false]
        rw [hN m (by omega)]
        simp [World.eq_iff]

theorem switches_append (l₁ l₂ : List Event) : switches (l₁ ++ l₂) = switches l₁ + switches l₂ := by
  simp [switches]

theorem switches_segment_log (L : Nat) (sg : List Nat × Nat) :
    switches (segment_log L sg) = 1 := by
  simp only [segment_log, switches, List.filter_cons, List.filter_append]
  have : List.filter (fun e => match e with
      | Event.start _ _ => true
      | _ => false) (sg.1.map (Event.step L)) = [] := by
    induction sg.1 with
    | nil => rfl
    | cons a l ih => simp
  simp [this]

theorem switches_segments (L : Nat) (segs : List (List Nat × Nat)) :
    switches (segs.flatMap (segment_log L)) = segs.length := by
  induction segs with
  | nil => rfl
  | cons sg segs ih =>
    rw [List.flatMap_cons, switches_append, switches_segment_log, ih, List.length_cons]
    omega

/-- The range `for` whose body breaks early.  The producer `f` calls `yield` at least for the
values `vs` and then `vlast`, with body steps in between (it may go on for ever after that),
and the body breaks as soon as it has received `vs`, that is after `k = vs.length`
dereferences.  Then the statement ends (with enough fuel) and the body has received `vs`; the
trace has grown by one segment for each of the `k + 1` advance steps; the producer has yielded
`k + 1` values, the last of which is still held by the iterator, and has not completed. -/
theorem range_for_stops_early (f k : σ) (segs : List (List Nat × Nat)) (vs : List Nat) (vlast : Nat)
    (brk : List Nat → Bool) (hy : Yields step f segs k)
    (hv : segs.map Prod.snd = vs ++ [vlast]) (hne : vs ≠ [])
    (hb1 : ∀ j, j < vs.length → 0 < j → brk (vs.take j) = false) (hb2 : brk vs = true)
    (w : World σ) :
    ∃ N, ∀ fuel, N ≤ fuel → ∃ w',
      range_for step brk fuel f w = some (.returned, vs, w') ∧
      w'.log = w.log ++ segs.flatMap (segment_log w.scheds.length) ∧
      switches w'.log = switches w.log + (vs.length + 1) ∧
      yielded w'.log = yielded w.log ++ (vs ++ [vlast]) ∧
      w'.iters = w.iters ++ [Iterator.after w.iters.length (.yield (some vlast) k)] ∧
      w'.scheds = w.scheds ∧ w'.current_scheduler = w.current_scheduler := by
  have hlen : segs.length = vs.length + 1 := by
    have := congrArg List.length hv
    simpa using this
  have hlog : ∀ l : List Event, l = w.log ++ segs.flatMap (segment_log w.scheds.length) →
      switches l = switches w.log + (vs.length + 1) ∧
      yielded l = yielded w.log ++ (vs ++ [vlast]) := by
    intro l hl
    rw [hl, switches_append, switches_segments, yielded_append, yielded_segments, hlen, hv]
    exact ⟨rfl, rfl⟩
  cases hy with
  | nil =>
    exfalso
    simp at hlen
  | @cons _ s' _ as v segs' hsl hy' =>
    obtain ⟨N, hN⟩ := for_loop_break step brk hy' v vlast vs []
      { w with
        iters := w.iters ++ [Iterator.after w.iters.length (.yield (some v) s')]
        log := w.log ++ segment_log w.scheds.length (as, v) }
      (List.getElem?_concat_length _ _) (by simpa using hv) hne
      (by simpa using hb1) (by simpa using hb2)
    refine ⟨max N (as.length + 4), fun fuel hf => ?_⟩
    simp only [range_for, Generator.begin, Iterator.construct]
    rw [update_slice step hsl _ _ (List.getElem?_concat_length _ _) rfl (Or.inr rfl) fuel
      (by omega)]
    simp only [Stop.update_exit, set_concat_length]
    have hN' := hN fuel (by omega)
    simp only [segment_log, List.nil_append, set_concat_length] at hN'
    simp only [Stop.events]
    rw [hN']
    have hl : w.log ++ Event.start w.scheds.length (some w.scheds.length) ::
        (as.map (Event.step w.scheds.length) ++ [Event.yield w.scheds.length (some v)]) ++
        segs'.flatMap (segment_log w.scheds.length) =
        w.log ++ ((as, v) :: segs').flatMap (segment_log w.scheds.length) := by
      simp [segment_log]
    obtain ⟨h1, h2⟩ := hlog _ rfl
    exact ⟨_, rfl, hl, by rw [hl]; exact h1, by rw [hl]; exact h2, rfl, rfl, rfl⟩

theorem call_value_only (hvo : ∀ s, (step s).value_only) :
    ∀ (fuel this : Nat) (s : σ) (w : World σ) (r : BodyExit σ × World σ),
      call step fuel this s w = some r → w.current_scheduler = some this →
      ∃ (bs : List Nat) (e : Stop σ), Slice step s (bs.map Op.step) e ∧ e.value_only ∧
        bs.length < fuel := by
  intro fuel
  induction fuel with
  | zero => intro this s w r h; simp [call] at h
  | succ n ih =>
    intro this s w r h hc
    rw [call] at h
    have hs := hvo s
    cases hstep : step s with
    | ret => exact ⟨[], .ret, Slice.ret hstep, trivial, by simp⟩
    | throw e => exact ⟨[], .throw e, Slice.throw hstep, trivial, by simp⟩
    | step a k =>
      simp only [hstep] at h
      obtain ⟨bs, e, hsl, he, hlen⟩ := ih this k _ r h (by simpa [World.emit] using hc)
      exact ⟨a :: bs, e, Slice.step hstep hsl, he, by simpa using hlen⟩
    | yield k => rw [hstep] at hs; exact False.elim hs
    | yield_value v k =>
      exact ⟨[], .yield (some v) k, Slice.yield_value hstep, trivial, by simp⟩
    | schedule f k => rw [hstep] at hs; exact False.elim hs
    | nested fs k hd => rw [hstep] at hs; exact False.elim hs

theorem scheduler_run_small (sched : Nat) (w : World σ) (fiber : Fiber σ) (w1 : World σ)
    (hd : FiberScheduler.dequeue sched { w with current_scheduler := some sched } =
      .switch fiber w1) (fuel : Nat) (h : fuel < 3) :
    scheduler_run step fuel sched w = none := by
  match fuel, h with
  | 0, _ => rfl
  | 1, _ => rw [scheduler_run, run]
  | 2, _ => rw [scheduler_run, run]; simp only [hd]; rw [trampoline]

/-- An advance step over a producer that hands back values only ran a stretch that ended with
a `yield(v)`, with the return or with a throw. -/
theorem update_value_only (hvo : ∀ s, (step s).value_only) {it : Nat} {s : σ} (w : World σ)
    (I : Iterator σ) (hI : w.iters[it]? = some I) (hstop : I.stop_ = false)
    (hctx : I.context_ = some (suspended it s) ∨ I.context_ = some (fresh it s))
    (fuel : Nat) (r : Exit × World σ) (h : Iterator.update step fuel it w = some r) :
    ∃ (bs : List Nat) (e : Stop σ), Slice step s (bs.map Op.step) e ∧ e.value_only ∧
      bs.length + 4 ≤ fuel := by
  by_cases hfuel : fuel < 3
  · exfalso
    rcases hctx with hctx | hctx
    · simp only [Iterator.update, hI, hstop, hctx, Bool.false_eq_true, if_false] at h
      rw [scheduler_run_small step _ _ (.fn s) _ (by
        simp [FiberScheduler.dequeue, World.set_iter, FiberScheduler.schedule_context, suspended]
        rfl) fuel hfuel] at h
      simp at h
    · simp only [Iterator.update, hI, hstop, hctx, Bool.false_eq_true, if_false] at h
      rw [scheduler_run_small step _ _ (.generator_lambda it s) _ (by
        simp [FiberScheduler.dequeue, World.set_iter, FiberScheduler.schedule_context, fresh,
          FiberScheduler.create_context_from_fiber]
        rfl) fuel hfuel] at h
      simp at h
  · obtain ⟨m, rfl⟩ : ∃ m, fuel = m + 3 := ⟨fuel - 3, by omega⟩
    rcases hctx with hctx | hctx
    · simp only [Iterator.update, hI, hstop, hctx, Bool.false_eq_true, if_false] at h
      rw [scheduler_run, run] at h
      simp only [FiberScheduler.dequeue, World.set_iter, FiberScheduler.schedule_context,
        suspended, List.getElem?_concat_length, List.nil_append, World.set_sched,
        World.emit] at h
      rw [trampoline_succ] at h
      simp only [invoke] at h
      cases hcall : call step m w.scheds.length s _ with
      | none => rw [hcall] at h; simp at h
      | some r' =>
        obtain ⟨bs, e, hsl, he, hlen⟩ := call_value_only step hvo _ _ _ _ _ hcall rfl
        exact ⟨bs, e, hsl, he, by omega⟩
    · simp only [Iterator.update, hI, hstop, hctx, Bool.false_eq_true, if_false] at h
      rw [scheduler_run, run] at h
      simp only [FiberScheduler.dequeue, World.set_iter, FiberScheduler.schedule_context, fresh,
        FiberScheduler.create_context_from_fiber,
        List.getElem?_concat_length, List.nil_append, World.set_sched, World.emit] at h
      rw [trampoline_succ] at h
      simp only [invoke, create_current_fiber_watch, World.set_sched] at h
      simp only [List.length_append, List.length_singleton, Nat.lt_add_one,
        List.getElem?_set_self, List.set_set] at h
      cases hcall : call step m w.scheds.length s _ with
      | none => rw [hcall] at h; simp at h
      | some r' =>
        obtain ⟨bs, e, hsl, he, hlen⟩ := call_value_only step hvo _ _ _ _ _ hcall rfl
        exact ⟨bs, e, hsl, he, by omega⟩

/-- When the range `for` without `break` over a producer that hands back values only ends
normally, the producer has returned. -/
theorem for_loop_value_only (hvo : ∀ s, (step s).value_only) :
    ∀ (fuel it : Nat) (received : List Nat) (w : World σ) (v : Nat) (s : σ) (r : List Nat)
      (w' : World σ), w.iters[it]? = some (Iterator.after it (.yield (some v) s)) →
      for_loop step (fun _ => false) fuel it received w = some (.returned, r, w') →
      ∃ (segs : List (List Nat × Nat)) (k : σ) (tail : List Nat),
        Yields step s segs k ∧ Slice step k (tail.map Op.step) .ret := by
  intro fuel
  induction fuel with
  | zero => intro it received w v s r w' _ h; simp [for_loop] at h
  | succ n ih =>
    intro it received w v s r w' hI h
    have hit := lt_of_getElem?_eq_some hI
    rw [for_loop] at h
    simp only [hI, Iterator.ne, Iterator.after, Generator.end_, Option.isSome_some,
      Bool.true_or, if_true, Iterator.deref] at h
    cases hup : Iterator.update step n it w with
    | none => rw [hup] at h; simp at h
    | some r1 =>
      obtain ⟨bs, e, hsl, he, hlen⟩ :=
        update_value_only step hvo w _ hI rfl (Or.inl rfl) n r1 hup
      rw [update_slice step hsl w _ hI rfl (Or.inl rfl) n hlen] at h
      cases e with
      | ret => exact ⟨[], s, bs, Yields.nil, hsl⟩
      | throw x => simp [Stop.update_exit] at h
      | yield d k' =>
        cases d with
        | none => exact False.elim he
        | some v' =>
          simp only [Stop.update_exit, Bool.false_eq_true, if_false] at h
          obtain ⟨segs, k, tail, hy, hr⟩ := ih it _ _ v' k' r w' (by simp [hit]) h
          exact ⟨(bs, v') :: segs, k, tail, Yields.cons hsl hy, hr⟩

theorem after_ret_ne_after_yield (it v : Nat) (k : σ) :
    (Iterator.after it .ret : Iterator σ) ≠ Iterator.after it (.yield (some v) k) := by
  intro h
  have := congrArg Iterator.stop_ h
  simp [Iterator.after] at this

/-- Claim C6, as amended. For a producer whose code consists of returns, throws, body steps and
`yield(v)` only (no plain `yield()`, no scheduling): the range `for` without `break` over
`Generator<T>(f)` ends normally exactly when `f`, after finitely many yields, returns; and
after every advance step that returns the iterator compares unequal to `end()` exactly when
the producer ran up to a `yield(v)` and is suspended behind it, and compares equal to `end()`
exactly when the producer ran to its return. -/
theorem generator_ends_iff_producer_returned (hvo : ∀ s, (step s).value_only) (f : σ)
    (w : World σ) :
    ((∃ fuel r w', range_for step (fun _ => false) fuel f w = some (.returned, r, w')) ↔
      ∃ (segs : List (List Nat × Nat)) (k : σ) (tail : List Nat),
        Yields step f segs k ∧ Slice step k (tail.map Op.step) .ret) ∧
    ∀ (fuel it : Nat) (s : σ) (w0 w1 : World σ) (I : Iterator σ),
      w0.iters[it]? = some I → I.stop_ = false →
      (I.context_ = some (suspended it s) ∨ I.context_ = some (fresh it s)) →
      Iterator.update step fuel it w0 = some (.returned, w1) →
      ∃ I', w1.iters[it]? = some I' ∧
        (Iterator.ne I' Generator.end_ = true ↔
          ∃ (bs : List Nat) (v : Nat) (k : σ),
            Slice step s (bs.map Op.step) (.yield (some v) k) ∧
            I' = Iterator.after it (.yield (some v) k)) ∧
        (Iterator.ne I' Generator.end_ = false ↔
          ∃ (bs : List Nat), Slice step s (bs.map Op.step) .ret ∧
            I' = Iterator.after it .ret) := by
  refine ⟨⟨?_, ?_⟩, ?_⟩
  · rintro ⟨fuel, r, w', h⟩
    simp only [range_for, Generator.begin, Iterator.construct] at h
    cases hup : Iterator.update step fuel w.iters.length
        { w with iters := w.iters ++
          [{ context_ := some (FiberScheduler.create_context_from_fiber
              (.generator_lambda w.iters.length f)) }] } with
    | none => rw [hup] at h; simp at h
    | some r1 =>
      obtain ⟨bs, e, hsl, he, hlen⟩ := update_value_only step hvo _ _
        (List.getElem?_concat_length _ _) rfl (Or.inr rfl) fuel r1 hup
      rw [update_slice step hsl _ _ (List.getElem?_concat_length _ _) rfl (Or.inr rfl) fuel
        hlen] at h
      cases e with
      | ret => exact ⟨[], f, bs, Yields.nil, hsl⟩
      | throw x => simp [Stop.update_exit] at h
      | yield d k' =>
        cases d with
        | none => exact False.elim he
        | some v' =>
          simp only [Stop.update_exit, set_concat_length] at h
          obtain ⟨segs, k, tail, hy, hr⟩ := for_loop_value_only step hvo fuel _ _ _ v' k' r w'
            (List.getElem?_concat_length _ _) h
          exact ⟨(bs, v') :: segs, k, tail, Yields.cons hsl hy, hr⟩
  · rintro ⟨segs, k, tail, hy, hr⟩
    obtain ⟨N, hN⟩ := range_for_returns step f k segs tail hy hr w
    exact ⟨N, _, _, hN N (Nat.le_refl _)⟩
  · intro fuel it s w0 w1 I hI hstop hctx hup
    have hit := lt_of_getElem?_eq_some hI
    obtain ⟨bs, e, hsl, he, hlen⟩ := update_value_only step hvo w0 I hI hstop hctx fuel _ hup
    rw [update_slice step hsl w0 I hI hstop hctx fuel hlen] at hup
    simp only [Option.some.injEq, Prod.mk.injEq] at hup
    obtain ⟨hexit, rfl⟩ := hup
    refine ⟨Iterator.after it e, by simp [hit], ?_, ?_⟩
    · cases e with
      | ret =>
        constructor
        · intro h; simp [Iterator.ne, Iterator.after, Generator.end_] at h
        · rintro ⟨_, v, k, _, h⟩
          exact absurd h (after_ret_ne_after_yield it v k)
      | throw x => simp [Stop.update_exit] at hexit
      | yield d k =>
        cases d with
        | none => exact False.elim he
        | some v =>
          constructor
          · intro _; exact ⟨bs, v, k, hsl, rfl⟩
          · intro _; simp [Iterator.ne, Iterator.after, Generator.end_]
    · cases e with
      | ret =>
        constructor
        · intro _; exact ⟨bs, hsl, rfl⟩
        · intro _; simp [Iterator.ne, Iterator.after, Generator.end_]
      | throw x => simp [Stop.update_exit] at hexit
      | yield d k =>
        cases d with
        | none => exact False.elim he
        | some v =>
          constructor
          · intro h; simp [Iterator.ne, Iterator.after, Generator.end_] at h
          · rintro ⟨_, _, h⟩
            exact absurd h.symm (after_ret_ne_after_yield it v k)

/-- Claim C6 as stated fails: counterexample. The producer `yield(); yield(1);`: the range
`for` ends, having received nothing, with the iterator equal to `end()`, although the producer
has not returned: it is suspended behind its plain `yield()`, before `yield(1)`. -/
theorem plain_yield_ends_iteration :
    range_for Prog.unfold (fun _ => false) 5 plain_yield_producer ({} : World Prog) =
      some (.returned, [], plain_yield_exit) ∧
    ∃ I, plain_yield_exit.iters[0]? = some I ∧ Iterator.ne I Generator.end_ = false ∧
      I.stop_ = false ∧ I.context_ = some (suspended 0 (.yield_value 1 .ret)) :=
  ⟨by decide!, _, rfl, rfl, rfl, rfl⟩

/-- The producer of `test_generator` hands back values only. -/
theorem generator_ends_iff_producer_returned_witness :
    (∀ s, (test_generator s).value_only) ∧
    ((∃ fuel r w', range_for test_generator (fun _ => false) fuel 0 ({} : World Nat) =
        some (.returned, r, w')) ↔
      ∃ (segs : List (List Nat × Nat)) (k : Nat) (tail : List Nat),
        Yields test_generator 0 segs k ∧ Slice test_generator k (tail.map Op.step) .ret) ∧
    ∀ (fuel it : Nat) (s : Nat) (w0 w1 : World Nat) (I : Iterator Nat),
      w0.iters[it]? = some I → I.stop_ = false →
      (I.context_ = some (suspended it s) ∨ I.context_ = some (fresh it s)) →
      Iterator.update test_generator fuel it w0 = some (.returned, w1) →
      ∃ I', w1.iters[it]? = some I' ∧
        (Iterator.ne I' Generator.end_ = true ↔
          ∃ (bs : List Nat) (v : Nat) (k : Nat),
            Slice test_generator s (bs.map Op.step) (.yield (some v) k) ∧
            I' = Iterator.after it (.yield (some v) k)) ∧
        (Iterator.ne I' Generator.end_ = false ↔
          ∃ (bs : List Nat), Slice test_generator s (bs.map Op.step) .ret ∧
            I' = Iterator.after it .ret) :=
  have hvo : ∀ s, (test_generator s).value_only := by
    intro s
    unfold test_generator
    split <;> trivial
  ⟨hvo, generator_ends_iff_producer_returned test_generator hvo 0 {}⟩

/-! ## One advance step -/

theorem call_no_scheduling (hp : ∀ s, (step s).no_scheduling) :
    ∀ (fuel this : Nat) (s : σ) (w : World σ) (r : BodyExit σ × World σ),
      call step fuel this s w = some r →
      ∃ (bs : List Nat) (e : Stop σ), Slice step s (bs.map Op.step) e ∧ bs.length < fuel := by
  intro fuel
  induction fuel with
  | zero => intro this s w r h; simp [call] at h
  | succ n ih =>
    intro this s w r h
    rw [call] at h
    have hs := hp s
    cases hstep : step s with
    | ret => exact ⟨[], .ret, Slice.ret hstep, by simp⟩
    | throw e => exact ⟨[], .throw e, Slice.throw hstep, by simp⟩
    | step a k =>
      simp only [hstep] at h
      obtain ⟨bs, e, hsl, hlen⟩ := ih this k _ r h
      exact ⟨a :: bs, e, Slice.step hstep hsl, by simpa using hlen⟩
    | yield k => exact ⟨[], .yield none k, Slice.yield hstep, by simp⟩
    | yield_value v k => exact ⟨[], .yield (some v) k, Slice.yield_value hstep, by simp⟩
    | schedule f k => rw [hstep] at hs; exact False.elim hs
    | nested fs k hd => rw [hstep] at hs; exact False.elim hs

/-- An advance step over a producer that does no scheduling ran one stretch of the producer. -/
theorem update_no_scheduling (hp : ∀ s, (step s).no_scheduling) {it : Nat} {s : σ}
    (w : World σ) (I : Iterator σ) (hI : w.iters[it]? = some I) (hstop : I.stop_ = false)
    (hctx : I.context_ = some (suspended it s) ∨ I.context_ = some (fresh it s))
    (fuel : Nat) (r : Exit × World σ) (h : Iterator.update step fuel it w = some r) :
    ∃ (bs : List Nat) (e : Stop σ), Slice step s (bs.map Op.step) e ∧ bs.length + 4 ≤ fuel := by
  by_cases hfuel : fuel < 3
  · exfalso
    rcases hctx with hctx | hctx
    · simp only [Iterator.update, hI, hstop, hctx, Bool.false_eq_true, if_false] at h
      rw [scheduler_run_small step _ _ (.fn s) _ (by
        simp [FiberScheduler.dequeue, World.set_iter, FiberScheduler.schedule_context, suspended]
        rfl) fuel hfuel] at h
      simp at h
    · simp only [Iterator.update, hI, hstop, hctx, Bool.false_eq_true, if_false] at h
      rw [scheduler_run_small step _ _ (.generator_lambda it s) _ (by
        simp [FiberScheduler.dequeue, World.set_iter, FiberScheduler.schedule_context, fresh,
          FiberScheduler.create_context_from_fiber]
        rfl) fuel hfuel] at h
      simp at h
  · obtain ⟨m, rfl⟩ : ∃ m, fuel = m + 3 := ⟨fuel - 3, by omega⟩
    rcases hctx with hctx | hctx
    · simp only [Iterator.update, hI, hstop, hctx, Bool.false_eq_true, if_false] at h
      rw [scheduler_run, run] at h
      simp only [FiberScheduler.dequeue, World.set_iter, FiberScheduler.schedule_context,
        suspended, List.getElem?_concat_length, List.nil_append, World.set_sched,
        World.emit] at h
      rw [trampoline_succ] at h
      simp only [invoke] at h
      cases hcall : call step m w.scheds.length s _ with
      | none => rw [hcall] at h; simp at h
      | some r' =>
        obtain ⟨bs, e, hsl, hlen⟩ := call_no_scheduling step hp _ _ _ _ _ hcall
        exact ⟨bs, e, hsl, by omega⟩
    · simp only [Iterator.update, hI, hstop, hctx, Bool.false_eq_true, if_false] at h
      rw [scheduler_run, run] at h
      simp only [FiberScheduler.dequeue, World.set_iter, FiberScheduler.schedule_context, fresh,
        FiberScheduler.create_context_from_fiber,
        List.getElem?_concat_length, List.nil_append, World.set_sched, World.emit] at h
      rw [trampoline_succ] at h
      simp only [invoke, create_current_fiber_watch, World.set_sched] at h
      simp only [List.length_append, List.length_singleton, Nat.lt_add_one,
        List.getElem?_set_self, List.set_set] at h
      cases hcall : call step m w.scheds.length s _ with
      | none => rw [hcall] at h; simp at h
      | some r' =>
        obtain ⟨bs, e, hsl, hlen⟩ := call_no_scheduling step hp _ _ _ _ _ hcall
        exact ⟨bs, e, hsl, by omega⟩

theorem switches_stretch (L : Nat) (bs : List Nat) (e : Stop σ) :
    switches (Event.start L (some L) :: (bs.map (Event.step L) ++ e.events L)) = 1 := by
  have h1 : switches (bs.map (Event.step L)) = 0 := by
    induction bs with
    | nil => rfl
    | cons a l ih => simp [switches]
  have h2 : switches (e.events L) = 0 := by
    cases e <;> rfl
  have h3 : Event.start L (some L) :: (bs.map (Event.step L) ++ e.events L) =
      [Event.start L (some L)] ++ (bs.map (Event.step L) ++ e.events L) := rfl
  rw [h3, switches_append, switches_append, h1, h2]
  rfl

/-- Claim C7, as amended. Take a producer that does no scheduling: its code is body steps,
`yield()` and `yield(v)` calls, returns and throws.  Every advance step `Iterator::update` on
an iterator that holds the context of the producer, fresh (the step of `begin()`) or suspended
(the step of a successful `operator*`), that ends has resumed the producer once (one switch
in the trace) and run it over one stretch of body steps, from where it was to its next
`yield`, with or without a value, to its return or to its throw, where it is left; and when
that stretch is finite the step does end.  So when the body of the range `for` over a
producer that calls `yield(v)` again and again breaks after it has received `k ≥ 1` values,
the statement ends, there were `k + 1` advance steps and `k + 1` yields, and the producer has
not completed: the iterator holds it, suspended behind its last yield. -/
theorem range_for_lazy :
    ((∀ s, (step s).no_scheduling) →
      ∀ (fuel it : Nat) (s : σ) (w : World σ) (I : Iterator σ) (r : Exit × World σ),
        w.iters[it]? = some I → I.stop_ = false →
        (I.context_ = some (suspended it s) ∨ I.context_ = some (fresh it s)) →
        Iterator.update step fuel it w = some r →
        ∃ (bs : List Nat) (e : Stop σ), Slice step s (bs.map Op.step) e ∧
          r = (e.update_exit,
            { w with
              iters := w.iters.set it (Iterator.after it e)
              log := w.log ++ Event.start w.scheds.length (some w.scheds.length) ::
                (bs.map (Event.step w.scheds.length) ++ e.events w.scheds.length) }) ∧
          switches (Event.start w.scheds.length (some w.scheds.length) ::
            (bs.map (Event.step w.scheds.length) ++ e.events w.scheds.length)) = 1) ∧
    (∀ (it : Nat) (s : σ) (bs : List Nat) (e : Stop σ) (w : World σ) (I : Iterator σ),
      w.iters[it]? = some I → I.stop_ = false →
      (I.context_ = some (suspended it s) ∨ I.context_ = some (fresh it s)) →
      Slice step s (bs.map Op.step) e → ∀ fuel, bs.length + 4 ≤ fuel →
      Iterator.update step fuel it w = some (e.update_exit,
        { w with
          iters := w.iters.set it (Iterator.after it e)
          log := w.log ++ Event.start w.scheds.length (some w.scheds.length) ::
            (bs.map (Event.step w.scheds.length) ++ e.events w.scheds.length) })) ∧
    (∀ (f k : σ) (segs : List (List Nat × Nat)) (vs : List Nat) (vlast : Nat)
      (brk : List Nat → Bool), Yields step f segs k → segs.map Prod.snd = vs ++ [vlast] →
      vs ≠ [] → (∀ j, j < vs.length → 0 < j → brk (vs.take j) = false) → brk vs = true →
      ∀ (w : World σ), ∃ N, ∀ fuel, N ≤ fuel → ∃ w',
        range_for step brk fuel f w = some (.returned, vs, w') ∧
        w'.log = w.log ++ segs.flatMap (segment_log w.scheds.length) ∧
        switches w'.log = switches w.log + (vs.length + 1) ∧
        yielded w'.log = yielded w.log ++ (vs ++ [vlast]) ∧
        w'.iters = w.iters ++ [Iterator.after w.iters.length (.yield (some vlast) k)] ∧
        w'.scheds = w.scheds ∧ w'.current_scheduler = w.current_scheduler) := by
  refine ⟨fun hp fuel it s w I r hI hstop hctx h => ?_,
    fun it s bs e w I hI hstop hctx hsl fuel hf => update_slice step hsl w I hI hstop hctx fuel hf,
    fun f k segs vs vlast brk hy hv hne hb1 hb2 w =>
      range_for_stops_early step f k segs vs vlast brk hy hv hne hb1 hb2 w⟩
  obtain ⟨bs, e, hsl, hlen⟩ := update_no_scheduling step hp w I hI hstop hctx fuel r h
  rw [update_slice step hsl w I hI hstop hctx fuel hlen] at h
  simp only [Option.some.injEq] at h
  exact ⟨bs, e, hsl, h.symm, switches_stretch _ bs e⟩

/-- The test `test_generator_endless`: the producer does no scheduling; the advance step of
`begin()` runs it to `yield(0)`; the body receives 0, ..., 14 and breaks; the producer has
yielded 0, ..., 15 and is suspended. -/
theorem range_for_lazy_witness :
    (∀ s, (test_generator_endless s).no_scheduling) ∧
    Iterator.update test_generator_endless 4 0 endless_fresh =
      some (.returned,
        { iters := [Iterator.after 0 (.yield (some 0) 1)]
          log := [.start 0 (some 0), .yield 0 (some 0)] }) ∧
    (∃ (bs : List Nat) (e : Stop Nat), Slice test_generator_endless 0 (bs.map Op.step) e ∧
      ((Exit.returned,
        ({ iters := [Iterator.after 0 (.yield (some 0) 1)]
           log := [.start 0 (some 0), .yield 0 (some 0)] } : World Nat)) =
        (e.update_exit,
          { endless_fresh with
            iters := endless_fresh.iters.set 0 (Iterator.after 0 e)
            log := endless_fresh.log ++
              Event.start endless_fresh.scheds.length (some endless_fresh.scheds.length) ::
                (bs.map (Event.step endless_fresh.scheds.length) ++
                  e.events endless_fresh.scheds.length) })) ∧
      switches (Event.start endless_fresh.scheds.length (some endless_fresh.scheds.length) ::
        (bs.map (Event.step endless_fresh.scheds.length) ++
          e.events endless_fresh.scheds.length)) = 1) ∧
    Yields test_generator_endless 0 test_generator_endless_segs 16 ∧
    test_generator_endless_segs.map Prod.snd =
      [0, 1, 2, 3, 4, 5, 6, 7, 8, 9, 10, 11, 12, 13, 14] ++ [15] ∧
    [0, 1, 2, 3, 4, 5, 6, 7, 8, 9, 10, 11, 12, 13, 14] ≠ ([] : List Nat) ∧
    (∀ j, j < [0, 1, 2, 3, 4, 5, 6, 7, 8, 9, 10, 11, 12, 13, 14].length → 0 < j →
      sum_exceeds_100 ([0, 1, 2, 3, 4, 5, 6, 7, 8, 9, 10, 11, 12, 13, 14].take j) = false) ∧
    sum_exceeds_100 [0, 1, 2, 3, 4, 5, 6, 7, 8, 9, 10, 11, 12, 13, 14] = true ∧
    ∃ N, ∀ fuel, N ≤ fuel → ∃ w',
      range_for test_generator_endless sum_exceeds_100 fuel 0 ({} : World Nat) =
        some (.returned, [0, 1, 2, 3, 4, 5, 6, 7, 8, 9, 10, 11, 12, 13, 14], w') ∧
      w'.log = ({} : World Nat).log ++
        test_generator_endless_segs.flatMap (segment_log ({} : World Nat).scheds.length) ∧
      switches w'.log = switches ({} : World Nat).log +
        ([0, 1, 2, 3, 4, 5, 6, 7, 8, 9, 10, 11, 12, 13, 14].length + 1) ∧
      yielded w'.log = yielded ({} : World Nat).log ++
        ([0, 1, 2, 3, 4, 5, 6, 7, 8, 9, 10, 11, 12, 13, 14] ++ [15]) ∧
      w'.iters = ({} : World Nat).iters ++
        [Iterator.after ({} : World Nat).iters.length (.yield (some 15) 16)] ∧
      w'.scheds = ({} : World Nat).scheds ∧
      w'.current_scheduler = ({} : World Nat).current_scheduler :=
  have hy : Yields test_generator_endless 0 test_generator_endless_segs 16 := by
    unfold test_generator_endless_segs
    repeat (first | exact Yields.nil | refine Yields.cons (Slice.yield_value rfl) ?_)
  ⟨fun _ => trivial, by decide!,
    (range_for_lazy test_generator_endless).1 (fun _ => trivial) 4 0 0 endless_fresh
      { context_ := some (fresh 0 0) } _ rfl rfl (Or.inr rfl) (by decide!),
    hy, by decide, by decide, by decide, by decide,
    (range_for_lazy test_generator_endless).2.2 0 16 test_generator_endless_segs
      [0, 1, 2, 3, 4, 5, 6, 7, 8, 9, 10, 11, 12, 13, 14] 15 sum_exceeds_100 hy
      (by decide) (by decide) (by decide) (by decide) {}⟩

/-- Claim C7 as stated fails: counterexample. The advance step of `begin()` over the producer
`throw 9;` runs the producer to its throw, and the one over `yield(); yield(1);` runs it to
its plain `yield()`: neither step ends at a `yield(value)` (no value was passed, none is
pending) or at the return of the producer (the iterator is not stopped). -/
theorem advance_step_ends_elsewhere :
    Iterator.construct Prog.unfold 4 throws_at_once ({} : World Prog) =
      some (.threw (.user 9), throws_at_once_exit) ∧
    (∃ I, throws_at_once_exit.iters[0]? = some I ∧ I.next_ = none ∧ I.stop_ = false) ∧
    yielded throws_at_once_exit.log = [] ∧
    Iterator.construct Prog.unfold 4 plain_yield_producer ({} : World Prog) =
      some (.returned, plain_yield_exit) ∧
    (∃ I, plain_yield_exit.iters[0]? = some I ∧ I.next_ = none ∧ I.stop_ = false ∧
      I.context_ = some (suspended 0 (.yield_value 1 .ret))) ∧
    yielded plain_yield_exit.log = [] :=
  ⟨by decide!, ⟨_, rfl, rfl, rfl⟩, by decide, by decide!, ⟨_, rfl, rfl, rfl, rfl⟩, by decide⟩

theorem nesting_pos {s : σ} {n : Nat} {ls : List Nat} (h : Nesting step s n ls) : 1 ≤ n := by
  induction h with
  | ret _ => exact Nat.le_refl _
  | step _ _ ih => exact ih
  | schedule _ _ _ ih1 ih2 => omega

theorem switches_events (this : Nat) (ops : List (Op σ)) : switches (Op.events this ops) = 0 := by
  induction ops with
  | nil => rfl
  | cons o ops ih =>
    cases o with
    | step a => simpa [Op.events, switches] using ih
    | schedule f => simpa [Op.events] using ih

theorem sched_events (this : Nat) (ops : List (Op σ)) :
    ∀ e ∈ Op.events this ops, e.sched = this := by
  induction ops with
  | nil => intro e he; simp [Op.events] at he
  | cons o ops ih =>
    cases o with
    | step a =>
      intro e he
      simp only [Op.events, List.mem_cons] at he
      rcases he with rfl | he
      · rfl
      · exact ih e he
    | schedule f => simpa [Op.events] using ih

/-- The body of a nesting as one stretch: its own steps, and the bodies it schedules. -/
theorem nesting_slice (this : Nat) {s : σ} {n : Nat} {ls : List Nat}
    (h : Nesting step s n ls) :
    ∃ (ops : List (Op σ)) (children : List (σ × Nat × List Nat)),
      Slice step s ops .ret ∧
      Op.contexts ops = children.map (fun c => FiberScheduler.create_context_from_fiber (.fn c.1)) ∧
      (∀ c ∈ children, Nesting step c.1 c.2.1 c.2.2) ∧
      n = 1 + (children.map (fun c => c.2.1)).sum ∧
      List.Perm ls (steps (Op.events this ops) ++ children.flatMap (fun c => c.2.2)) := by
  induction h with
  | ret hs => exact ⟨[], [], Slice.ret hs, rfl, by simp, rfl, by simp [Op.events, steps]⟩
  | @step s k a n ls hs _ ih =>
    obtain ⟨ops, children, hsl, hctx, hch, hn, hp⟩ := ih
    refine ⟨.step a :: ops, children, Slice.step hs hsl, by simpa [Op.contexts] using hctx,
      hch, hn, ?_⟩
    simpa [Op.events, steps, Event.label?] using hp
  | @schedule s f k m n lf lk hs hf _ _ ih =>
    obtain ⟨ops, children, hsl, hctx, hch, hn, hp⟩ := ih
    refine ⟨.schedule f :: ops, (f, m, lf) :: children, Slice.schedule hs hsl,
      by simpa [Op.contexts] using hctx, ?_, by simp [hn]; omega, ?_⟩
    · intro c hc
      rcases List.mem_cons.1 hc with rfl | hc
      · exact hf
      · exact hch c hc
    · simp only [Op.events, List.flatMap_cons]
      refine (List.Perm.append_left lf hp).trans ?_
      rw [← List.append_assoc, ← List.append_assoc]
      exact List.Perm.append_right _ List.perm_append_comm

theorem no_yield_events (this : Nat) (ops : List (Op σ)) (d : Option Nat) :
    Event.yield this d ∉ Op.events this ops := by
  induction ops with
  | nil => simp [Op.events]
  | cons o ops ih =>
    cases o with
    | step a => simpa [Op.events] using ih
    | schedule f => simpa [Op.events] using ih

/-- The loop of `run` over a queue of nestings: all bodies run, each one once. -/
theorem run_nesting (this : Nat) (total : Nat) :
    ∀ (fibers : List (σ × Nat × List Nat)), (∀ c ∈ fibers, Nesting step c.1 c.2.1 c.2.2) →
    (fibers.map (fun c => c.2.1)).sum = total →
    ∀ (w : World σ) (S : FiberScheduler σ), w.current_scheduler = some this →
      w.scheds[this]? = some S →
      S.queue = fibers.map (fun c => FiberScheduler.create_context_from_fiber (.fn c.1)) →
      ∃ N l, switches l = total ∧
        List.Perm (steps l) (fibers.flatMap (fun c => c.2.2)) ∧
        (∀ e ∈ l, e.sched = this ∧ ∀ c, e ≠ .yield this c) ∧
        ∀ fuel, N ≤ fuel → ∃ sc, run step fuel this w = some (.returned,
          { w with
            scheds := w.scheds.set this { queue := [], sched_context := sc }
            log := w.log ++ l }) := by
  induction total with
  | zero =>
    intro fibers hn hsum w S hc hS hq
    have hnil : fibers = [] := by
      cases fibers with
      | nil => rfl
      | cons c cs =>
        have := nesting_pos step (hn c (List.mem_cons_self _ _))
        simp at hsum
        omega
    subst hnil
    refine ⟨1, [], rfl, by simp [steps], by simp, fun fuel hf => ⟨S.sched_context, ?_⟩⟩
    obtain ⟨n, rfl⟩ : ∃ n, fuel = n + 1 := ⟨fuel - 1, by omega⟩
    have hS' : S = { queue := [], sched_context := S.sched_context } := by
      cases S; simp at hq; simp [hq]
    rw [hS'] at hS
    rw [run_empty step n this w _ hS]
    simp [World.eq_iff, set_getElem?_self _ _ _ hS]
  | succ total ih =>
    intro fibers hn hsum w S hc hS hq
    have hlt := lt_of_getElem?_eq_some hS
    cases fibers with
    | nil => simp at hsum
    | cons c rest =>
      obtain ⟨ops, children, hsl, hctx, hch, hcn, hp⟩ :=
        nesting_slice step this (hn c (List.mem_cons_self _ _))
      obtain ⟨N, l, hsw, hperm, hev, hrun⟩ := ih (rest ++ children)
        (by
          intro d hd
          rcases List.mem_append.1 hd with hd | hd
          · exact hn d (List.mem_cons_of_mem _ hd)
          · exact hch d hd)
        (by
          simp only [List.map_cons, List.sum_cons] at hsum
          simp only [List.map_append, List.sum_append]
          omega)
        (after_slice this w
          (rest.map (fun c => FiberScheduler.create_context_from_fiber (.fn c.1))) ops .ret)
        { queue := (rest ++ children).map
            (fun c => FiberScheduler.create_context_from_fiber (.fn c.1)),
          sched_context := {} }
        (by simpa [after_slice] using hc)
        (by simp [after_slice, hlt, hctx]) rfl
      refine ⟨max (N + 1) (ops.length + 3),
        Event.start this (some this) :: (Op.events this ops ++ l), ?_, ?_, ?_, ?_⟩
      · have h1 : switches (Event.start this (some this) :: (Op.events this ops ++ l)) =
            1 + switches (Op.events this ops ++ l) := by
          simp [switches]; omega
        rw [h1, switches_append, switches_events, hsw]
        omega
      · have h1 : steps (Event.start this (some this) :: (Op.events this ops ++ l)) =
            steps (Op.events this ops) ++ steps l := by
          simp [steps, Event.label?]
        rw [h1, List.flatMap_cons]
        refine ((List.Perm.append_left _ hperm).trans ?_).trans (List.Perm.append_right _ hp.symm)
        rw [List.flatMap_append, List.append_assoc]
        exact List.Perm.append_left _ List.perm_append_comm
      · intro e he
        rcases List.mem_cons.1 he with rfl | he
        · exact ⟨rfl, by simp⟩
        · rcases List.mem_append.1 he with he | he
          · refine ⟨sched_events this ops e he, ?_⟩
            intro d hd
            subst hd
            exact no_yield_events this ops d he
          · exact hev e he
      · intro fuel hf
        obtain ⟨n, rfl⟩ : ∃ n, fuel = n + 1 := ⟨fuel - 1, by omega⟩
        obtain ⟨sc, hsc⟩ := hrun n (by omega)
        refine ⟨sc, ?_⟩
        rw [run_slice step hsl w S
          (rest.map (fun c => FiberScheduler.create_context_from_fiber (.fn c.1))) none hc hS
          (by rw [hq]; rfl) n (by omega)]
        simp only
        rw [hsc]
        simp [after_slice, World.eq_iff, Stop.events]

/-- Claim C9. Fibers are scheduled on a scheduler with an empty queue; their bodies consist of
body steps and global `schedule(f)` calls, and so do the bodies `f`, to any finite depth.
Then `scheduler_run` returns (with enough fuel), and the trace `l` of the run is this: all its
events are of this scheduler, so every body scheduled from inside a fiber was queued on the
scheduler that ran that fiber and was run before the return; the number of switches into a
fiber is the number of bodies of the nestings and nobody yields, so every body ran once; the
body steps are those of all the bodies, each once.  A counter incremented by the steps `a`
grows by the number of steps `a` in the nestings. -/
theorem scheduler_run_runs_nested_schedules (fibers : List (σ × Nat × List Nat))
    (hn : ∀ c ∈ fibers, Nesting step c.1 c.2.1 c.2.2)
    (w : World σ) (sched : Nat) (S : FiberScheduler σ)
    (hS : w.scheds[sched]? = some S) (hq : S.queue = []) :
    ∃ N l, switches l = (fibers.map (fun c => c.2.1)).sum ∧
      List.Perm (steps l) (fibers.flatMap (fun c => c.2.2)) ∧
      (∀ e ∈ l, e.sched = sched ∧ ∀ d, e ≠ .yield sched d) ∧
      ∀ fuel, N ≤ fuel → ∃ w',
        scheduler_run step fuel sched (schedule_all sched (fibers.map (fun c => c.1)) w) =
          some (.returned, w') ∧
        w'.log = w.log ++ l ∧
        (∀ a, counter a w'.log = counter a w.log + (fibers.flatMap (fun c => c.2.2)).count a) ∧
        (w'.scheds[sched]?).map (fun S' => S'.queue) = some [] ∧
        w'.current_scheduler = w.current_scheduler := by
  have hlt := lt_of_getElem?_eq_some hS
  obtain ⟨N, l, hsw, hperm, hev, hrun⟩ := run_nesting step sched _ fibers hn rfl
    { (schedule_all sched (fibers.map (fun c => c.1)) w) with current_scheduler := some sched }
    { S with queue := fibers.map (fun c => FiberScheduler.create_context_from_fiber (.fn c.1)) }
    rfl
    (by simp [schedule_all, hS, World.set_sched, hlt, foldl_schedule, hq, List.map_map,
      Function.comp_def])
    rfl
  refine ⟨N + 1, l, hsw, hperm, hev, fun fuel hf => ?_⟩
  obtain ⟨n, rfl⟩ : ∃ n, fuel = n + 1 := ⟨fuel - 1, by omega⟩
  obtain ⟨sc, hsc⟩ := hrun n (by omega)
  rw [scheduler_run]
  simp only [hsc]
  refine ⟨_, rfl, ?_, ?_, ?_, ?_⟩
  · simp [schedule_all, hS, World.set_sched]
  · intro a
    simp only [schedule_all, hS, World.set_sched]
    rw [counter_append]
    simp only [counter]
    rw [hperm.count_eq]
  · simp [schedule_all, hS, World.set_sched, hlt]
  · simp [schedule_all, hS, World.set_sched]

/-- The test `test_recursive`: nine bodies run and `x` ends at 3. -/
theorem scheduler_run_runs_nested_schedules_witness :
    (∀ c ∈ test_recursive, Nesting Prog.unfold c.1 c.2.1 c.2.2) ∧
    ∃ N l, switches l = (test_recursive.map (fun c => c.2.1)).sum ∧
      List.Perm (steps l) (test_recursive.flatMap (fun c => c.2.2)) ∧
      (∀ e ∈ l, e.sched = 0 ∧ ∀ d, e ≠ .yield 0 d) ∧
      ∀ fuel, N ≤ fuel → ∃ w',
        scheduler_run Prog.unfold fuel 0
            (schedule_all 0 (test_recursive.map (fun c => c.1)) one_scheduler) =
          some (.returned, w') ∧
        w'.log = one_scheduler.log ++ l ∧
        (∀ a, counter a w'.log =
          counter a one_scheduler.log + (test_recursive.flatMap (fun c => c.2.2)).count a) ∧
        (w'.scheds[0]?).map (fun S' => S'.queue) = some [] ∧
        w'.current_scheduler = one_scheduler.current_scheduler :=
  have h1 : Nesting Prog.unfold (.step 0 .ret) 1 [0] := Nesting.step rfl (Nesting.ret rfl)
  have h2 : Nesting Prog.unfold (.schedule (.step 0 .ret) .ret) (1 + 1) ([0] ++ []) :=
    Nesting.schedule rfl h1 (Nesting.ret rfl)
  have h3 : Nesting Prog.unfold (.schedule (.schedule (.step 0 .ret) .ret) .ret)
      (1 + 1 + 1) ([0] ++ [] ++ []) :=
    Nesting.schedule rfl h2 (Nesting.ret rfl)
  have h4 : Nesting Prog.unfold
      (.schedule (.schedule (.schedule (.step 0 .ret) .ret) .ret) .ret)
      (1 + 1 + 1 + 1) ([0] ++ [] ++ [] ++ []) :=
    Nesting.schedule rfl h3 (Nesting.ret rfl)
  have h : ∀ c ∈ test_recursive, Nesting Prog.unfold c.1 c.2.1 c.2.2 := by
    intro c hc
    simp only [test_recursive, List.mem_cons, List.mem_singleton, List.not_mem_nil,
      or_false] at hc
    rcases hc with rfl | rfl | rfl
    · exact h2
    · exact h3
    · exact h4
  ⟨h, scheduler_run_runs_nested_schedules Prog.unfold test_recursive h one_scheduler 0 {} rfl rfl⟩

/-- Claim C11. Whenever `scheduler_run(sched)` returns normally, the queue of `sched` is empty, so
that the assertion of `~FiberScheduler` holds; and on a scheduler whose queue is empty
`scheduler_run` returns at once, with two units of fuel, and leaves the world, the trace
included, as it was: nothing was run. -/
theorem scheduler_run_returns_with_empty_queue (sched : Nat) (w : World σ) :
    (∀ fuel w', scheduler_run step fuel sched w = some (.returned, w') →
      (∃ S, w'.scheds[sched]? = some S ∧ S.queue = []) ∧
      (FiberScheduler.destroy sched w').1 = .returned) ∧
    (∀ S, w.scheds[sched]? = some S → S.queue = [] → ∀ fuel, 2 ≤ fuel →
      scheduler_run step fuel sched w = some (.returned, w)) := by
  refine ⟨fun fuel w' h => ?_, fun S hS hq fuel hf => ?_⟩
  · obtain ⟨-, -, hq⟩ := (frame_invariant step fuel).2.2.2 sched w _ w' h (by simp)
    have hq := hq rfl
    cases hS : w'.scheds[sched]? with
    | none => simp [hS] at hq
    | some S =>
      simp only [hS, Option.map_some', Option.some.injEq] at hq
      exact ⟨⟨S, rfl, hq⟩, by simp [FiberScheduler.destroy, hS, hq]⟩
  · obtain ⟨m, rfl⟩ : ∃ m, fuel = m + 2 := ⟨fuel - 2, by omega⟩
    rw [scheduler_run, run_empty step m sched _ S.sched_context (by
      cases S; simp only at hq; subst hq; simpa using hS)]

/-- The second local scheduler of `test_recursive_sched` is run until its queue is empty; one
on which nothing was scheduled, like the first, is left at once. -/
theorem scheduler_run_returns_with_empty_queue_witness :
    scheduler_run Prog.unfold 10 1 test_inner = some (.returned, test_inner_exit) ∧
    ((∃ S, test_inner_exit.scheds[1]? = some S ∧ S.queue = []) ∧
      (FiberScheduler.destroy 1 test_inner_exit).1 = .returned) ∧
    scheduler_run Prog.unfold 2 1 empty_local_sched = some (.returned, empty_local_sched) :=
  ⟨by decide!,
    (scheduler_run_returns_with_empty_queue Prog.unfold 1 test_inner).1 10 _ (by decide!),
    (scheduler_run_returns_with_empty_queue Prog.unfold 1 empty_local_sched).2 {} rfl rfl 2
      (Nat.le_refl 2)⟩

/-- Claim C12 fails on the code. Two fibers are scheduled and the first throws: `run` rethrows
at once, `scheduler_run` exits by the exception, and the second fiber, which was never
started, is still in the queue; the assertion `queue.empty()` of `~FiberScheduler` then
fails. -/
theorem scheduler_run_throw_leaves_queue :
    scheduler_run Prog.unfold 4 0 (schedule_all 0 first_throws one_scheduler) =
      some (.threw (.user 7), first_throws_exit) ∧
    (first_throws_exit.scheds[0]?).map (fun S => S.queue) =
      some [{ fiber := some (.fn (.step 0 .ret)) }] ∧
    FiberScheduler.destroy 0 first_throws_exit = (.fault .assert_failed, first_throws_exit) :=
  ⟨by decide!, by decide!, by decide!⟩

/-! ## Errors of the generator interface -/

/-- Claim C13, as amended. The first call of `begin()` on a `Generator` takes the stored callable
out (the generator holds none afterwards, however the call ends) and constructs the iterator
from it: it ends as `Iterator(Fiber)` ends.  When the producer does body steps only before
its first `yield`, return or throw, that is by returning the new iterator if the producer gets
to a `yield` or to its return, and by the exception of the producer if it throws.  Every later
call on the same generator throws "Duplicated run" and leaves generator and world as they
are: no context, no iterator, nothing run. -/
theorem generator_begin_once (f : σ) (w : World σ) :
    (∀ fuel x g' w', Generator.begin step fuel { func := some f } w = some (x, g', w') →
      g'.func = none ∧ Iterator.construct step fuel f w = some (x, w') ∧
      ∀ fuel2 w2, Generator.begin step fuel2 g' w2 = some (.threw .duplicated_run, g', w2)) ∧
    (∀ (bs : List Nat) (e : Stop σ), Slice step f (bs.map Op.step) e →
      ∀ fuel, bs.length + 4 ≤ fuel → ∃ w',
        Generator.begin step fuel { func := some f } w =
          some (e.update_exit, { func := none }, w') ∧
        w'.iters = w.iters ++ [Iterator.after w.iters.length e]) := by
  refine ⟨fun fuel x g' w' h => ?_, fun bs e hsl fuel hf => ?_⟩
  · simp only [Generator.begin] at h
    cases hc : Iterator.construct step fuel f w with
    | none => simp [hc] at h
    | some r =>
      simp only [hc, Option.some.injEq, Prod.mk.injEq] at h
      obtain ⟨rfl, rfl, rfl⟩ := h
      exact ⟨rfl, rfl, fun fuel2 w2 => rfl⟩
  · simp only [Generator.begin, Iterator.construct]
    rw [update_slice step hsl _ _ (List.getElem?_concat_length _ _) rfl (Or.inr rfl) fuel hf]
    exact ⟨_, rfl, by simp [set_concat_length]⟩

/-- Claim C13 as stated fails: counterexample. The producer `throw 9;`: the first call of
`begin()` consumes the callable and throws the exception of the producer; with no amount of
fuel does it return an iterator.  The producer `schedule([] { throw 5; }); yield(1);`: the
first call of `begin()` throws 5, the exception of the scheduled fiber, although the producer
got to its first `yield` and is suspended there. -/
theorem first_begin_throws :
    Generator.begin Prog.unfold 4 { func := some throws_at_once } ({} : World Prog) =
      some (.threw (.user 9), { func := none }, throws_at_once_exit) ∧
    (∀ fuel g w', Generator.begin Prog.unfold fuel { func := some throws_at_once }
      ({} : World Prog) ≠ some (.returned, g, w')) ∧
    Generator.begin Prog.unfold 5 { func := some schedules_before_yield } ({} : World Prog) =
      some (.threw (.user 5), { func := none }, schedules_before_yield_exit) ∧
    ∃ I, schedules_before_yield_exit.iters[0]? = some I ∧ I.next_ = some 1 ∧
      I.context_ = some (suspended 0 .ret) := by
  refine ⟨by decide!, fun fuel g w' h => ?_, by decide!, _, rfl, rfl, rfl⟩
  by_cases hf : 4 ≤ fuel
  · have hs : Slice Prog.unfold throws_at_once (([] : List Nat).map Op.step)
        (.throw (.user 9)) := Slice.throw rfl
    simp only [Generator.begin, Iterator.construct] at h
    rw [update_slice Prog.unfold hs _ _ (List.getElem?_concat_length _ _) rfl (Or.inr rfl) fuel
      hf] at h
    simp [Stop.update_exit] at h
  · have : fuel = 0 ∨ fuel = 1 ∨ fuel = 2 ∨ fuel = 3 := by omega
    have h0 : Generator.begin Prog.unfold fuel { func := some throws_at_once }
        ({} : World Prog) = none := by
      rcases this with rfl | rfl | rfl | rfl <;> decide!
    rw [h0] at h
    cases h

/-- The generator of `test_generator`: the first `begin()` returns the iterator that holds 0,
every later one throws. -/
theorem generator_begin_once_witness :
    Slice test_generator 0 (([] : List Nat).map Op.step) (.yield (some 0) 1) ∧
    (∃ w', Generator.begin test_generator 4 { func := some 0 } ({} : World Nat) =
        some (.returned, { func := none }, w') ∧
      w'.iters = ({} : World Nat).iters ++
        [Iterator.after ({} : World Nat).iters.length (.yield (some 0) 1)]) ∧
    ∀ fuel2 (w2 : World Nat), Generator.begin test_generator fuel2 { func := none } w2 =
      some (.threw .duplicated_run, { func := none }, w2) :=
  have hs : Slice test_generator 0 (([] : List Nat).map Op.step) (.yield (some 0) 1) :=
    Slice.yield_value rfl
  have h2 := (generator_begin_once test_generator 0 {}).2 [] _ hs 4 (Nat.le_refl 4)
  ⟨hs, h2, fun fuel2 w2 => h2.elim fun _ hw =>
    ((generator_begin_once test_generator 0 {}).1 4 _ _ _ hw.1).2.2 fuel2 w2⟩

/-- Claim C14. `operator*` on an iterator without pending value throws "Empty" and leaves the
world as it is: the producer is not resumed (the trace is the same) and pending value, context
and terminal flag of the iterator are unchanged.  The end sentinel is such an iterator; so is an
iterator after the advance step in which its producer returned, be it the step of the
constructor (the producer never yielded) or the step of the last `operator*` (every value
was taken). -/
theorem deref_without_pending_value :
    (∀ (it : Nat) (w : World σ) (I : Iterator σ), w.iters[it]? = some I → I.next_ = none →
      ∀ fuel, Iterator.deref step fuel it w = some (.threw .empty, none, w)) ∧
    (Generator.end_ : Iterator σ).next_ = none ∧
    (∀ (it : Nat) (w : World σ) (I : Iterator σ) (s : σ) (bs : List Nat),
      w.iters[it]? = some I → I.stop_ = false →
      (I.context_ = some (suspended it s) ∨ I.context_ = some (fresh it s)) →
      Slice step s (bs.map Op.step) .ret → ∀ fuel, bs.length + 4 ≤ fuel →
      ∃ w1, Iterator.update step fuel it w = some (.returned, w1) ∧
        ∀ fuel2, Iterator.deref step fuel2 it w1 = some (.threw .empty, none, w1)) := by
  have hA : ∀ (it : Nat) (w : World σ) (I : Iterator σ), w.iters[it]? = some I → I.next_ = none →
      ∀ fuel, Iterator.deref step fuel it w = some (.threw .empty, none, w) := by
    intro it w I hI hn fuel
    simp [Iterator.deref, hI, hn]
  refine ⟨hA, rfl, fun it w I s bs hI hstop hctx hsl fuel hf => ?_⟩
  have hit := lt_of_getElem?_eq_some hI
  rw [update_slice step hsl w I hI hstop hctx fuel hf]
  exact ⟨_, rfl, hA it _ (Iterator.after it .ret) (by simp [hit]) rfl⟩

/-- The end sentinel. -/
theorem deref_without_pending_value_witness :
    Iterator.deref Prog.unfold 3 0 ({ iters := [Generator.end_] } : World Prog) =
      some (.threw .empty, none, { iters := [Generator.end_] }) :=
  (deref_without_pending_value Prog.unfold).1 0 { iters := [Generator.end_] } Generator.end_
    rfl rfl 3

/-- Claim C15. While `current_scheduler` is null, the global `schedule(f)`, `yield()` and
`yield(v)` throw "Global scheduler is empty" and leave the world as it is: no context, nothing
queued, no switch.  `current_scheduler` is null in the initial world, and it is null again
whenever a `scheduler_run` that was called while it was null has exited, by return or by an
exception. -/
theorem no_current_scheduler_throws :
    (∀ (w : World σ), w.current_scheduler = none →
      (∀ f : σ, schedule f w = (.threw .global_scheduler_is_empty, w)) ∧
      (∀ (this : Nat) (k : σ), yield this none k w = (.threw .global_scheduler_is_empty, w)) ∧
      (∀ (this v : Nat) (k : σ),
        yield this (some v) k w = (.threw .global_scheduler_is_empty, w))) ∧
    ({} : World σ).current_scheduler = none ∧
    (∀ (fuel sched : Nat) (w w' : World σ) (x : Exit), w.current_scheduler = none →
      scheduler_run step fuel sched w = some (x, w') → (∀ f, x ≠ .fault f) →
      w'.current_scheduler = none) := by
  refine ⟨fun w h => ⟨fun f => ?_, fun this k => ?_, fun this v k => ?_⟩, rfl,
    fun fuel sched w w' x hw h hx => ?_⟩
  · simp [schedule, h]
  · simp [yield, h]
  · simp [yield, h]
  · obtain ⟨-, hc, -⟩ := (frame_invariant step fuel).2.2.2 sched w x w' h hx
    rw [hc, hw]

/-- The initial world. -/
theorem no_current_scheduler_throws_witness :
    (∀ f : Prog, schedule f ({} : World Prog) = (.threw .global_scheduler_is_empty, {})) ∧
    (∀ (this : Nat) (k : Prog),
      yield this none k ({} : World Prog) = (.threw .global_scheduler_is_empty, {})) ∧
    (∀ (this v : Nat) (k : Prog),
      yield this (some v) k ({} : World Prog) = (.threw .global_scheduler_is_empty, {})) :=
  (no_current_scheduler_throws Prog.unfold).1 {} rfl

/-! ## The stack pool -/

theorem count_flatMap_set {α : Type} (g : α → List Nat) (b : Nat) :
    ∀ (l : List α) (a : Nat) (y : α), l[a]? = some y → ∀ x,
      List.count b ((l.set a x).flatMap g) + List.count b (g y) =
        List.count b (l.flatMap g) + List.count b (g x) := by
  intro l
  induction l with
  | nil => intro a y h; simp at h
  | cons z l ih =>
    intro a y h x
    cases a with
    | zero =>
      simp only [List.getElem?_cons_zero, Option.some.injEq] at h
      subst h
      simp only [List.set_cons_zero, List.flatMap_cons, List.count_append]
      omega
    | succ a =>
      simp only [List.getElem?_cons_succ] at h
      have := ih a y h x
      simp only [List.set_cons_succ, List.flatMap_cons, List.count_append]
      omega

/-- The number of times the buffer `b` is held or listed as free. -/
theorem count_buffers (m : Memory) (b : Nat) :
    List.count b (m.held ++ m.free_list) = List.count b m.held + List.count b m.free_list :=
  List.count_append _ _ _

theorem exclusive_iff (m : Memory) :
    m.exclusive ↔ (∀ b, List.count b m.held + List.count b m.free_list ≤ 1) ∧
      ∀ S, some S ∈ m.handles → ∀ b, S.ptr = some b →
        ∃ sp, S.sp = some sp ∧ sp < m.pools.length := by
  unfold Memory.exclusive
  rw [List.nodup_iff_count_le_one]
  simp only [count_buffers]

/-- What `Stack::free` of a live object does. -/
theorem free_eq (a : Nat) (m : Memory) (S : Stack) (hS : m.handles[a]? = some (some S)) :
    (S.ptr = none → Stack.free a m = some m) ∧
    (∀ b sp P, S.ptr = some b → S.sp = some sp → m.pools[sp]? = some P →
      Stack.free a m = some { pools := m.pools.set sp (P.free b)
                              handles := m.handles.set a (some { S with ptr := none }) }) := by
  refine ⟨fun h => ?_, fun b sp P h1 h2 h3 => ?_⟩
  · simp [Stack.free, hS, h]
  · simp [Stack.free, hS, h1, h2, h3]

/-- After `Stack::free` the object holds nothing, the buffer it held is in its pool, and every
buffer is held or free as often as before. -/
theorem free_exclusive (a : Nat) (m m' : Memory) (hm : m.exclusive)
    (h : Stack.free a m = some m') :
    m'.exclusive ∧ m'.pools.length = m.pools.length ∧
    m'.handles.length = m.handles.length ∧
    (∃ S, m.handles[a]? = some (some S) ∧
      m'.handles = m.handles.set a (some { S with ptr := none })) := by
  rw [exclusive_iff] at hm ⊢
  obtain ⟨hc, hsp⟩ := hm
  simp only [Stack.free] at h
  cases hS : m.handles[a]? with
  | none => simp [hS] at h
  | some o =>
    cases o with
    | none => simp [hS] at h
    | some S =>
      simp only [hS] at h
      cases hp : S.ptr with
      | none =>
        simp only [hp, Option.some.injEq] at h
        subst h
        refine ⟨⟨hc, hsp⟩, rfl, rfl, S, rfl, ?_⟩
        have : ({ S with ptr := none } : Stack) = S := by cases S; simp_all
        rw [this]
        exact (set_getElem?_self _ _ _ hS).symm
      | some b =>
        simp only [hp] at h
        cases hq : S.sp with
        | none => simp [hq] at h
        | some sp =>
          simp only [hq] at h
          cases hP : m.pools[sp]? with
          | none => simp [hP] at h
          | some P =>
            simp only [hP, Option.some.injEq] at h
            subst h
            refine ⟨⟨fun c => ?_, ?_⟩, by simp, by simp, S, rfl, by simp [hq]⟩
            · have h1 := count_flatMap_set Stack.buffer c m.handles a (some S) hS
                (some { sp := some sp, ptr := none })
              have h2 := count_flatMap_set StackPool.stacks_ c m.pools sp P hP (P.free b)
              have h3 := hc c
              simp only [Memory.held, Memory.free_list] at h3 ⊢
              simp only [Stack.buffer, hp, Option.toList, StackPool.free, List.count_append,
                List.count_nil] at h1 h2 ⊢
              omega
            · intro S' hS' b' hb'
              simp only [List.length_set]
              rcases List.mem_or_eq_of_mem_set hS' with h1 | h1
              · exact hsp S' h1 b' hb'
              · simp only [Option.some.injEq] at h1
                subst h1
                simp at hb'

/-- Replacing handles keeps the invariant when every buffer is held as often as before and the
new handles that hold a buffer point to a pool. -/
theorem exclusive_of_counts (m m' : Memory) (hm : m.exclusive)
    (hc : ∀ c, List.count c m'.held + List.count c m'.free_list =
      List.count c m.held + List.count c m.free_list)
    (hp : m'.pools.length = m.pools.length)
    (hs : ∀ S, some S ∈ m'.handles → some S ∈ m.handles ∨
      ∀ b, S.ptr = some b → ∃ sp, S.sp = some sp ∧ sp < m.pools.length) :
    m'.exclusive := by
  rw [exclusive_iff] at hm ⊢
  refine ⟨fun c => by rw [hc c]; exact hm.1 c, fun S hS b hb => ?_⟩
  rw [hp]
  rcases hs S hS with h | h
  · exact hm.2 S h b hb
  · exact h b hb

theorem destroy_exclusive (a : Nat) (m m' : Memory) (hm : m.exclusive)
    (h : Stack.destroy a m = some m') : m'.exclusive := by
  simp only [Stack.destroy] at h
  cases hf : Stack.free a m with
  | none => simp [hf] at h
  | some m1 =>
    simp only [hf, Option.some.injEq] at h
    subst h
    obtain ⟨hm1, hp1, hl1, S, hS, hh⟩ := free_exclusive a m m1 hm hf
    have ha : a < m.handles.length := lt_of_getElem?_eq_some hS
    have h1 : m1.handles[a]? = some (some { S with ptr := none }) := by
      rw [hh]; simp [ha]
    refine exclusive_of_counts m1 _ hm1 (fun c => ?_) rfl (fun S' hS' => ?_)
    · have := count_flatMap_set Stack.buffer c m1.handles a _ h1 none
      simp only [Memory.held, Memory.free_list] at this ⊢
      simp only [Stack.buffer, Option.toList, List.count_nil] at this
      omega
    · rcases List.mem_or_eq_of_mem_set hS' with h2 | h2
      · exact Or.inl h2
      · cases h2

theorem move_construct_exclusive (other : Nat) (m m' : Memory) (hm : m.exclusive)
    (h : Stack.move_construct other m = some m') : m'.exclusive := by
  simp only [Stack.move_construct] at h
  cases hO : m.handles[other]? with
  | none => simp [hO] at h
  | some o =>
    cases o with
    | none => simp [hO] at h
    | some O =>
      simp only [hO, Option.some.injEq] at h
      subst h
      refine exclusive_of_counts m _ hm (fun c => ?_) rfl (fun S' hS' => ?_)
      · have := count_flatMap_set Stack.buffer c m.handles other _ hO
          (some { O with ptr := none })
        simp only [Memory.held, Memory.free_list, List.flatMap_append, List.count_append,
          List.flatMap_cons, List.flatMap_nil, List.append_nil] at this ⊢
        simp only [Stack.buffer, Option.toList, List.count_nil] at this ⊢
        omega
      · have hOm : some O ∈ m.handles := List.mem_iff_getElem?.2 ⟨_, hO⟩
        simp only [List.mem_append, List.mem_singleton, Option.some.injEq] at hS'
        rcases hS' with h2 | h2
        · rcases List.mem_or_eq_of_mem_set h2 with h3 | h3
          · exact Or.inl h3
          · simp only [Option.some.injEq] at h3
            subst h3
            exact Or.inr (fun b hb => by simp at hb)
        · subst h2
          exact Or.inr (fun b hb => ((exclusive_iff m).1 hm).2 O hOm b hb)

/-- The move assignment, once `free()` is done: the object at `this` takes the pool and the
buffer of the object at `other`, which then holds nothing. -/
theorem move_assign_eq (this other : Nat) (m m1 : Memory) (T O : Stack)
    (hf : Stack.free this m = some m1) (hT : m1.handles[this]? = some (some T))
    (hp : T.ptr = none) (hO : m1.handles[other]? = some (some O)) :
    Stack.move_assign this other m = some { m1 with
      handles := (m1.handles.set this (some { sp := O.sp, ptr := O.ptr })).set other
        (some { O with ptr := none }) } := by
  have ht := lt_of_getElem?_eq_some hT
  have ho := lt_of_getElem?_eq_some hO
  simp only [Stack.move_assign, hf, hT, hO, Stack.swap_ptr]
  by_cases hto : this = other
  · subst hto
    simp only [hT, Option.some.injEq] at hO
    subst hO
    simp [ht, hp]
  · have h1 : (m1.handles.set this (some { sp := O.sp, ptr := T.ptr }))[this]? =
        some (some { sp := O.sp, ptr := T.ptr }) := by simp [ht]
    have h2 : (m1.handles.set this (some { sp := O.sp, ptr := T.ptr }))[other]? =
        some (some O) := by rw [List.getElem?_set, if_neg hto, hO]
    simp only [h1, h2]
    have h3 : ((m1.handles.set this (some { sp := O.sp, ptr := T.ptr })).set this
        (some { sp := O.sp, ptr := O.ptr }))[other]? = some (some O) := by
      rw [List.getElem?_set, if_neg hto, h2]
    have h4 : (m1.handles.set this (some { sp := O.sp, ptr := O.ptr }))[other]? =
        some (some O) := by rw [List.getElem?_set, if_neg hto, hO]
    simp only [h3, hp, List.set_set, h4]

theorem move_assign_exclusive (this other : Nat) (m m' : Memory) (hm : m.exclusive)
    (h : Stack.move_assign this other m = some m') : m'.exclusive := by
  cases hf : Stack.free this m with
  | none => simp [Stack.move_assign, hf] at h
  | some m1 =>
    obtain ⟨hm1, hp1, hl1, S, hS, hh⟩ := free_exclusive this m m1 hm hf
    have ha : this < m.handles.length := lt_of_getElem?_eq_some hS
    have hT : m1.handles[this]? = some (some { S with ptr := none }) := by
      rw [hh]; simp [ha]
    cases hO : m1.handles[other]? with
    | none => simp [Stack.move_assign, hf, hT, hO] at h
    | some o =>
      cases o with
      | none => simp [Stack.move_assign, hf, hT, hO] at h
      | some O =>
        rw [move_assign_eq this other m m1 _ O hf hT rfl hO] at h
        simp only [Option.some.injEq] at h
        subst h
        have ho := lt_of_getElem?_eq_some hO
        have hOm : some O ∈ m1.handles := List.mem_iff_getElem?.2 ⟨_, hO⟩
        have hm1' := hm1
        refine (exclusive_of_counts m1 _ hm1 (fun c => ?_) rfl (fun S' hS' => ?_))
        · have h1 := count_flatMap_set Stack.buffer c m1.handles this _ hT
            (some { sp := O.sp, ptr := O.ptr })
          have h2 : ∃ Y, (m1.handles.set this (some { sp := O.sp, ptr := O.ptr }))[other]? =
              some (some Y) ∧ Y.ptr = O.ptr := by
            by_cases hto : this = other
            · subst hto
              exact ⟨_, by simp [hl1, ha], rfl⟩
            · exact ⟨O, by simp [List.getElem?_set, hto, hO], rfl⟩
          obtain ⟨Y, hY, hYp⟩ := h2
          have h3 := count_flatMap_set Stack.buffer c _ other _ hY (some { O with ptr := none })
          simp only [Memory.held, Memory.free_list] at h1 h3 ⊢
          simp only [Stack.buffer, Option.toList, List.count_nil, hYp] at h1 h3 ⊢
          omega
        · rcases List.mem_or_eq_of_mem_set hS' with h2 | h2
          · rcases List.mem_or_eq_of_mem_set h2 with h3 | h3
            · exact Or.inl h3
            · simp only [Option.some.injEq] at h3
              subst h3
              exact Or.inr (fun b hb => ((exclusive_iff m1).1 hm1').2 O hOm b hb)
          · simp only [Option.some.injEq] at h2
            subst h2
            exact Or.inr (fun b hb => by simp at hb)

/-- What `alloc()` hands out: the last buffer of the free list when there is one, else what
`std::calloc` returns. -/
theorem from_alloc_eq (pool : Nat) (calloc : Option Nat) (m : Memory) (P : StackPool)
    (hP : m.pools[pool]? = some P) :
    (∀ l b, P.stacks_ = l ++ [b] → Stack.from_alloc pool calloc m =
      some { pools := m.pools.set pool { stacks_ := l }
             handles := m.handles ++ [some { sp := some pool, ptr := some b }] }) ∧
    (P.stacks_ = [] → Stack.from_alloc pool calloc m =
      some { m with handles := m.handles ++ [some { sp := some pool, ptr := calloc }] }) := by
  refine ⟨fun l b h => ?_, fun h => ?_⟩
  · simp [Stack.from_alloc, hP, StackPool.alloc, h]
  · simp [Stack.from_alloc, hP, StackPool.alloc, h]
    exact set_getElem?_self _ _ _ hP

theorem exec_exclusive (m : Memory) (op : StackOp) (m' : Memory) (hm : m.exclusive)
    (h : m.exec op = some m') : m'.exclusive := by
  cases op with
  | construct =>
    simp only [Memory.exec, Stack.construct, Option.some.injEq] at h
    subst h
    refine exclusive_of_counts m _ hm (fun c => ?_) rfl (fun S hS => ?_)
    · simp [Memory.held, Memory.free_list, Stack.buffer]
    · simp only [List.mem_append, List.mem_singleton, Option.some.injEq] at hS
      rcases hS with h2 | h2
      · exact Or.inl h2
      · subst h2
        exact Or.inr (fun b hb => by cases hb)
  | move_construct other => exact move_construct_exclusive other m m' hm h
  | move_assign this other => exact move_assign_exclusive this other m m' hm h
  | destroy this => exact destroy_exclusive this m m' hm h
  | alloc pool calloc =>
    simp only [Memory.exec] at h
    cases hP : m.pools[pool]? with
    | none => simp [hP] at h
    | some P =>
      simp only [hP] at h
      have hpl := lt_of_getElem?_eq_some hP
      split at h
      · cases h
      · next hfresh =>
        rcases List.eq_nil_or_concat P.stacks_ with he | ⟨l, b, he⟩
        · rw [(from_alloc_eq pool calloc m P hP).2 he] at h
          simp only [Option.some.injEq] at h
          subst h
          have hmc : m.may_calloc calloc := by
            by_contra hc
            exact hfresh ⟨he, hc⟩
          rw [exclusive_iff] at hm ⊢
          refine ⟨fun c => ?_, fun S hS b hb => ?_⟩
          · have h3 := hm.1 c
            simp only [Memory.held, Memory.free_list, List.flatMap_append, List.count_append,
              List.flatMap_cons, List.flatMap_nil, List.append_nil, Stack.buffer] at h3 ⊢
            cases calloc with
            | none => simpa using h3
            | some b =>
              simp only [Memory.may_calloc, List.mem_append, not_or] at hmc
              by_cases hcb : b = c
              · subst hcb
                have h1 := List.count_eq_zero_of_not_mem hmc.1
                have h2 := List.count_eq_zero_of_not_mem hmc.2
                simp only [Memory.held, Memory.free_list] at h1 h2
                simp [h1, h2]
              · simp only [Option.toList, List.count_singleton]
                have : (b == c) = false := by simpa using hcb
                simp only [this]
                simpa using h3
          · simp only [List.mem_append, List.mem_singleton, Option.some.injEq] at hS
            rcases hS with h2 | h2
            · exact hm.2 S h2 b hb
            · subst h2
              exact ⟨pool, rfl, hpl⟩
        · rw [List.concat_eq_append] at he
          rw [(from_alloc_eq pool calloc m P hP).1 l b he] at h
          simp only [Option.some.injEq] at h
          subst h
          refine exclusive_of_counts m _ hm (fun c => ?_) (by simp) (fun S hS => ?_)
          · have h2 := count_flatMap_set StackPool.stacks_ c m.pools pool P hP { stacks_ := l }
            simp only [Memory.held, Memory.free_list, List.flatMap_append, List.count_append,
              List.flatMap_cons, List.flatMap_nil, List.append_nil, Stack.buffer] at h2 ⊢
            simp only [he, List.count_append, Option.toList] at h2 ⊢
            omega
          · simp only [List.mem_append, List.mem_singleton, Option.some.injEq] at hS
            rcases hS with h2 | h2
            · exact Or.inl h2
            · subst h2
              exact Or.inr (fun b' _ => ⟨pool, rfl, hpl⟩)

theorem execs_exclusive (ops : List StackOp) :
    ∀ (m m' : Memory), m.exclusive → m.execs ops = some m' → m'.exclusive := by
  induction ops with
  | nil =>
    intro m m' hm h
    simp only [Memory.execs, Option.some.injEq] at h
    subst h
    exact hm
  | cons op ops ih =>
    intro m m' hm h
    simp only [Memory.execs] at h
    cases he : m.exec op with
    | none => simp [he] at h
    | some m1 =>
      rw [he] at h
      exact ih m1 m' (exec_exclusive m op m1 hm he) h

/-- The member `Stack::free` of a live object is defined when the invariant holds. -/
theorem free_defined (a : Nat) (m : Memory) (hm : m.exclusive) (S : Stack)
    (hS : m.handles[a]? = some (some S)) : ∃ m1, Stack.free a m = some m1 := by
  cases hp : S.ptr with
  | none => exact ⟨m, (free_eq a m S hS).1 hp⟩
  | some b =>
    obtain ⟨sp, hsp, hlt⟩ := hm.2 S (List.mem_iff_getElem?.2 ⟨_, hS⟩) b hp
    obtain ⟨P, hP⟩ := getElem?_of_lt hlt
    exact ⟨_, (free_eq a m S hS).2 b sp P hp hsp hP⟩

theorem exec_defined (m : Memory) (op : StackOp) (hm : m.exclusive) (ha : m.allows op) :
    ∃ m', m.exec op = some m' := by
  cases op with
  | construct => exact ⟨_, rfl⟩
  | alloc pool calloc =>
    obtain ⟨P, hP, hc⟩ := ha
    simp only [Memory.exec, hP]
    rw [if_neg (fun h => h.2 (hc h.1))]
    simp [Stack.from_alloc, hP]
  | move_construct other =>
    obtain ⟨O, hO⟩ := ha
    simp [Memory.exec, Stack.move_construct, hO]
  | move_assign this other =>
    obtain ⟨⟨T, hT⟩, O, hO⟩ := ha
    obtain ⟨m1, hf⟩ := free_defined this m hm T hT
    obtain ⟨-, -, hl1, S, hS, hh⟩ := free_exclusive this m m1 hm hf
    have h1 : m1.handles[this]? = some (some { S with ptr := none }) := by
      rw [hh]; simp [lt_of_getElem?_eq_some hS]
    have h2 : ∃ O1, m1.handles[other]? = some (some O1) := by
      rw [hh, List.getElem?_set]
      split
      · exact ⟨{ S with ptr := none }, by simp [lt_of_getElem?_eq_some hS]⟩
      · exact ⟨O, hO⟩
    obtain ⟨O1, hO1⟩ := h2
    exact ⟨_, move_assign_eq this other m m1 _ O1 hf h1 rfl hO1⟩
  | destroy this =>
    obtain ⟨T, hT⟩ := ha
    obtain ⟨m1, hf⟩ := free_defined this m hm T hT
    simp [Memory.exec, Stack.destroy, hf]

/-- Claim C16. Across every sequence of `StackPool::alloc`, default and move construction, move
assignment (self-assignment too) and destruction of `Stack` objects, begun with empty pools or
in any memory where it holds, every buffer is held by at most one live `Stack` or is once in a
free list, never both, and each of these operations on live objects is defined.  Destroying
a `Stack` that holds a buffer, or assigning over it, appends the buffer to the free list of
its pool, where it is then exactly once; the source of a move holds nothing afterwards, and
destroying a `Stack` that holds nothing leaves the pools as they are; `alloc()` hands out the
last buffer of a free list that is not empty and removes it from the list. -/
theorem stack_buffers_exclusive :
    (∀ n, ({ pools := List.replicate n {} } : Memory).exclusive) ∧
    (∀ (m : Memory) (ops : List StackOp) (m' : Memory), m.exclusive →
      m.execs ops = some m' → m'.exclusive) ∧
    (∀ (m : Memory) (op : StackOp), m.exclusive → m.allows op → ∃ m', m.exec op = some m') ∧
    (∀ (m : Memory) (a : Nat) (S : Stack) (b : Nat), m.exclusive →
      m.handles[a]? = some (some S) → S.ptr = some b →
      ∃ sp P, S.sp = some sp ∧ m.pools[sp]? = some P ∧
        m.exec (.destroy a) = some { pools := m.pools.set sp (P.free b)
                                     handles := m.handles.set a none } ∧
        List.count b ((m.pools.set sp (P.free b)).flatMap StackPool.stacks_) = 1) ∧
    (∀ (m : Memory) (this other : Nat) (T O : Stack) (b : Nat), m.exclusive →
      m.handles[this]? = some (some T) → T.ptr = some b →
      m.handles[other]? = some (some O) → this ≠ other →
      ∃ sp P, T.sp = some sp ∧ m.pools[sp]? = some P ∧
        m.exec (.move_assign this other) = some
          { pools := m.pools.set sp (P.free b)
            handles := (m.handles.set this (some { sp := O.sp, ptr := O.ptr })).set other
              (some { O with ptr := none }) } ∧
        List.count b ((m.pools.set sp (P.free b)).flatMap StackPool.stacks_) = 1) ∧
    (∀ (m : Memory) (a : Nat) (S : Stack) (b : Nat), m.exclusive →
      m.handles[a]? = some (some S) → S.ptr = some b →
      ∃ sp P, S.sp = some sp ∧ m.pools[sp]? = some P ∧
        m.exec (.move_assign a a) = some
          { pools := m.pools.set sp (P.free b)
            handles := m.handles.set a (some { S with ptr := none }) } ∧
        List.count b ((m.pools.set sp (P.free b)).flatMap StackPool.stacks_) = 1) ∧
    (∀ (m : Memory) (other : Nat) (O : Stack), m.handles[other]? = some (some O) →
      m.exec (.move_construct other) = some { m with
        handles := m.handles.set other (some { O with ptr := none }) ++
          [some { sp := O.sp, ptr := O.ptr }] }) ∧
    (∀ (m : Memory) (a : Nat) (S : Stack), m.handles[a]? = some (some S) → S.ptr = none →
      m.exec (.destroy a) = some { m with handles := m.handles.set a none }) ∧
    (∀ (m : Memory) (pool : Nat) (P : StackPool) (l : List Nat) (b : Nat) (calloc : Option Nat),
      m.pools[pool]? = some P → P.stacks_ = l ++ [b] →
      m.exec (.alloc pool calloc) = some
        { pools := m.pools.set pool { stacks_ := l }
          handles := m.handles ++ [some { sp := some pool, ptr := some b }] }) := by
  have hfree : ∀ (m : Memory) (a : Nat) (S : Stack) (b : Nat), m.exclusive →
      m.handles[a]? = some (some S) → S.ptr = some b →
      ∃ sp P, S.sp = some sp ∧ m.pools[sp]? = some P ∧
        Stack.free a m = some { pools := m.pools.set sp (P.free b)
                                handles := m.handles.set a (some { S with ptr := none }) } ∧
        List.count b ((m.pools.set sp (P.free b)).flatMap StackPool.stacks_) = 1 := by
    intro m a S b hm hS hp
    obtain ⟨sp, hsp, hlt⟩ := hm.2 S (List.mem_iff_getElem?.2 ⟨_, hS⟩) b hp
    obtain ⟨P, hP⟩ := getElem?_of_lt hlt
    have hf := (free_eq a m S hS).2 b sp P hp hsp hP
    refine ⟨sp, P, hsp, hP, hf, ?_⟩
    obtain ⟨hm1, -⟩ := free_exclusive a m _ hm hf
    have h1 := ((exclusive_iff _).1 hm1).1 b
    have h2 := count_flatMap_set StackPool.stacks_ b m.pools sp P hP (P.free b)
    simp only [Memory.free_list, StackPool.free, List.count_append, List.count_singleton,
      beq_self_eq_true, if_true] at h1 h2 ⊢
    omega
  refine ⟨fun n => ?_, fun m ops m' hm h => execs_exclusive ops m m' hm h,
    fun m op hm ha => exec_defined m op hm ha, ?_, ?_, ?_, ?_, ?_, ?_⟩
  · refine ⟨?_, fun S hS => by simp at hS⟩
    have : (List.replicate n ({} : StackPool)).flatMap StackPool.stacks_ = [] := by
      induction n with
      | zero => rfl
      | succ n ih => simp [List.replicate_succ, ih]
    simp [Memory.held, Memory.free_list, this]
  · intro m a S b hm hS hp
    obtain ⟨sp, P, hsp, hP, hf, hc⟩ := hfree m a S b hm hS hp
    refine ⟨sp, P, hsp, hP, ?_, hc⟩
    simp [Memory.exec, Stack.destroy, hf]
  · intro m this other T O b hm hT hp hO hne
    obtain ⟨sp, P, hsp, hP, hf, hc⟩ := hfree m this T b hm hT hp
    refine ⟨sp, P, hsp, hP, ?_, hc⟩
    have ht := lt_of_getElem?_eq_some hT
    simp only [Memory.exec]
    rw [move_assign_eq this other m _ { T with ptr := none } O hf (by simp [ht]) rfl
      (by simp only; rw [List.getElem?_set, if_neg hne, hO])]
    simp
  · intro m a S b hm hS hp
    obtain ⟨sp, P, hsp, hP, hf, hc⟩ := hfree m a S b hm hS hp
    refine ⟨sp, P, hsp, hP, ?_, hc⟩
    have ht := lt_of_getElem?_eq_some hS
    simp only [Memory.exec]
    rw [move_assign_eq a a m _ { S with ptr := none } { S with ptr := none } hf
      (by simp [ht]) rfl (by simp [ht])]
    simp
  · intro m other O hO
    simp [Memory.exec, Stack.move_construct, hO]
  · intro m a S hS hp
    simp [Memory.exec, Stack.destroy, (free_eq a m S hS).1 hp]
  · intro m pool P l b calloc hP he
    simp only [Memory.exec, hP]
    rw [if_neg (fun h => by simp [he] at h), (from_alloc_eq pool calloc m P hP).1 l b he]

/-- The operations of `stack_ops` on one empty pool. -/
theorem stack_buffers_exclusive_witness :
    ({ pools := List.replicate 1 {} } : Memory).execs stack_ops = some stack_ops_exit ∧
    stack_ops_exit.exclusive :=
  ⟨by decide, stack_buffers_exclusive.2.1 _ stack_ops _ (stack_buffers_exclusive.1 1)
    (by decide)⟩

/-! ## A producer that throws -/

/-- The dereferences of an iterator that holds `v` and whose producer, suspended at `s`, yields
the values of `segs` and is then at `k`: all of them but the last return. -/
theorem derefs_yields (it : Nat) {s k : σ} {segs : List (List Nat × Nat)}
    (hy : Yields step s segs k) :
    ∀ (v : Nat) (w : World σ), w.iters[it]? = some (Iterator.after it (.yield (some v) s)) →
      ∃ (vs : List Nat) (vlast : Nat) (w1 : World σ),
        v :: segs.map Prod.snd = vs ++ [vlast] ∧ Derefs step it w vs w1 ∧
        w1.iters[it]? = some (Iterator.after it (.yield (some vlast) k)) ∧
        w1.scheds = w.scheds ∧ yielded w1.log = yielded w.log ++ segs.map Prod.snd := by
  induction hy with
  | @nil s =>
    intro v w hI
    exact ⟨[], v, w, rfl, Derefs.nil, hI, rfl, by simp⟩
  | @cons s s' k as v' segs hsl _ ih =>
    intro v w hI
    have hit := lt_of_getElem?_eq_some hI
    have hd : Iterator.deref step (as.length + 4) it w = some (.returned, some v,
        { w with
          iters := w.iters.set it (Iterator.after it (.yield (some v') s'))
          log := w.log ++ Event.start w.scheds.length (some w.scheds.length) ::
            (as.map (Event.step w.scheds.length) ++
              (Stop.yield (some v') s').events w.scheds.length) }) := by
      simp only [Iterator.deref, hI, Iterator.after]
      rw [update_slice step hsl w _ hI rfl (Or.inl rfl) _ (Nat.le_refl _)]
      rfl
    obtain ⟨vs, vlast, w1, hvs, hds, hI1, hs1, hl1⟩ := ih v'
      { w with
        iters := w.iters.set it (Iterator.after it (.yield (some v') s'))
        log := w.log ++ Event.start w.scheds.length (some w.scheds.length) ::
          (as.map (Event.step w.scheds.length) ++
            (Stop.yield (some v') s').events w.scheds.length) } (by simp [hit])
    refine ⟨v :: vs, vlast, w1, by rw [List.map_cons, hvs]; rfl, Derefs.cons _ hd hds, hI1,
      hs1, ?_⟩
    have : yielded (Event.start w.scheds.length (some w.scheds.length) ::
        (as.map (Event.step w.scheds.length) ++ [Event.yield w.scheds.length (some v')])) =
        [v'] := yielded_segment_log w.scheds.length (as, v')
    rw [hl1]
    show yielded (w.log ++ Event.start w.scheds.length (some w.scheds.length) ::
        (as.map (Event.step w.scheds.length) ++ [Event.yield w.scheds.length (some v')])) ++ _ = _
    rw [yielded_append, this]
    simp

/-- Claim C17, as amended. A producer whose code up to its throw is body steps and `yield(v)`
calls only calls `yield(v1)`, ..., `yield(vk)`, with body steps in between, and then throws
`e`.  For `k = 0`, `begin()` throws `e`.  For `k ≥ 1`, `begin()` returns, the first `k - 1`
dereferences return `v1`, ..., `v(k-1)`, and the `k`-th, entered while `vk` is the pending
value, throws `e` and returns nothing: `vk` was passed to `yield` but is not delivered.  After
the throw the iterator has no pending value and compares equal to `end()`. -/
theorem producer_throws_after_yields (f : σ) (e : Exc) (w : World σ) :
    (∀ (tail : List Nat), Slice step f (tail.map Op.step) (.throw e) →
      ∀ fuel, tail.length + 4 ≤ fuel → ∃ w',
        Generator.begin step fuel { func := some f } w = some (.threw e, { func := none }, w') ∧
        yielded w'.log = yielded w.log) ∧
    (∀ (segs : List (List Nat × Nat)) (bs : List Nat) (v : Nat) (k : σ) (tail : List Nat),
      Yields step f (segs ++ [(bs, v)]) k → Slice step k (tail.map Op.step) (.throw e) →
      ∃ (N : Nat) (w0 w1 w2 : World σ),
        (∀ fuel, N ≤ fuel →
          Generator.begin step fuel { func := some f } w =
            some (.returned, { func := none }, w0)) ∧
        Derefs step w.iters.length w0 (segs.map Prod.snd) w1 ∧
        (∃ I, w1.iters[w.iters.length]? = some I ∧ I.next_ = some v) ∧
        (∀ fuel, N ≤ fuel →
          Iterator.deref step fuel w.iters.length w1 = some (.threw e, none, w2)) ∧
        (∃ I, w2.iters[w.iters.length]? = some I ∧ I.next_ = none ∧
          Iterator.ne I Generator.end_ = false) ∧
        yielded w2.log = yielded w.log ++ (segs.map Prod.snd ++ [v])) := by
  refine ⟨fun tail ht fuel hf => ?_, fun segs bs v k tail hy ht => ?_⟩
  · simp only [Generator.begin, Iterator.construct]
    rw [update_slice step ht _ _ (List.getElem?_concat_length _ _) rfl (Or.inr rfl) fuel hf]
    refine ⟨_, rfl, ?_⟩
    show yielded (w.log ++ Event.start w.scheds.length (some w.scheds.length) ::
        (tail.map (Event.step w.scheds.length) ++ [])) = _
    rw [List.append_nil, yielded_append, yielded_start_steps, List.append_nil]
  · have hy' := hy
    cases hsegs : segs ++ [(bs, v)] with
    | nil => simp at hsegs
    | cons sg rest =>
      rw [hsegs] at hy
      cases hy with
      | @cons _ s' _ as v0 _ hsl hrest =>
        have hb : ∀ fuel, as.length + 4 ≤ fuel →
            Generator.begin step fuel { func := some f } w =
            some (.returned, { func := none },
              { w with
                iters := w.iters ++ [Iterator.after w.iters.length (.yield (some v0) s')]
                log := w.log ++ Event.start w.scheds.length (some w.scheds.length) ::
                  (as.map (Event.step w.scheds.length) ++
                    (Stop.yield (some v0) s').events w.scheds.length) }) := by
          intro fuel hf
          simp only [Generator.begin, Iterator.construct]
          rw [update_slice step hsl _ _ (List.getElem?_concat_length _ _) rfl (Or.inr rfl) fuel
            hf]
          simp [set_concat_length, Stop.update_exit]
        obtain ⟨vs, vlast, w1, hvs, hds, hI1, hs1, hl1⟩ :=
          derefs_yields step w.iters.length hrest v0
            { w with
              iters := w.iters ++ [Iterator.after w.iters.length (.yield (some v0) s')]
              log := w.log ++ Event.start w.scheds.length (some w.scheds.length) ::
                (as.map (Event.step w.scheds.length) ++
                  (Stop.yield (some v0) s').events w.scheds.length) }
            (List.getElem?_concat_length _ _)
        have hmap : (segs ++ [(bs, v)]).map Prod.snd = vs ++ [vlast] := by
          rw [hsegs]; exact hvs
        have hvv : segs.map Prod.snd = vs ∧ v = vlast := by
          rw [List.map_append] at hmap
          have := List.append_inj' hmap rfl
          simpa using this
        obtain ⟨rfl, rfl⟩ := hvv
        have hit1 := lt_of_getElem?_eq_some hI1
        refine ⟨max (as.length + 4) (tail.length + 4),
          { w with
            iters := w.iters ++ [Iterator.after w.iters.length (.yield (some v0) s')]
            log := w.log ++ Event.start w.scheds.length (some w.scheds.length) ::
              (as.map (Event.step w.scheds.length) ++
                (Stop.yield (some v0) s').events w.scheds.length) }, w1,
          { w1 with
            iters := w1.iters.set w.iters.length (Iterator.after w.iters.length (.throw e))
            log := w1.log ++ Event.start w1.scheds.length (some w1.scheds.length) ::
              (tail.map (Event.step w1.scheds.length) ++
                (Stop.throw e : Stop σ).events w1.scheds.length) }, ?_⟩
        refine ⟨?_, ?_, ?_, ?_, ?_, ?_⟩
        · exact fun fuel hf => hb fuel (by omega)
        · exact hds
        · exact ⟨_, hI1, rfl⟩
        · intro fuel hf
          simp only [Iterator.deref, hI1, Iterator.after]
          rw [update_slice step ht w1 _ hI1 rfl (Or.inl rfl) fuel (by omega)]
          rfl
        · exact ⟨Iterator.after w.iters.length (.throw e), by simp [hit1], rfl, rfl⟩
        · show yielded (w1.log ++ Event.start w1.scheds.length (some w1.scheds.length) ::
            (tail.map (Event.step w1.scheds.length) ++ [])) = _
          rw [List.append_nil, yielded_append, yielded_start_steps, List.append_nil, hl1]
          show yielded (w.log ++ Event.start w.scheds.length (some w.scheds.length) ::
            (as.map (Event.step w.scheds.length) ++ [Event.yield w.scheds.length (some v0)])) ++
              _ = _
          rw [yielded_append]
          have h0 := yielded_segment_log w.scheds.length (as, v0)
          simp only [segment_log] at h0
          rw [h0, List.append_assoc, List.singleton_append, hvs]

/-- The producer `yield(1); yield(2); throw 9;`: one dereference returns 1, the second throws. -/
theorem producer_throws_after_yields_witness :
    Yields Prog.unfold yields_then_throws ([([], 1)] ++ [([], 2)]) (.throw (.user 9)) ∧
    Slice Prog.unfold (.throw (.user 9)) (([] : List Nat).map Op.step) (.throw (.user 9)) ∧
    ∃ (N : Nat) (w0 w1 w2 : World Prog),
      (∀ fuel, N ≤ fuel →
        Generator.begin Prog.unfold fuel { func := some yields_then_throws } {} =
          some (.returned, { func := none }, w0)) ∧
      Derefs Prog.unfold ({} : World Prog).iters.length w0
        (([([], 1)] : List (List Nat × Nat)).map Prod.snd) w1 ∧
      (∃ I, w1.iters[({} : World Prog).iters.length]? = some I ∧ I.next_ = some 2) ∧
      (∀ fuel, N ≤ fuel →
        Iterator.deref Prog.unfold fuel ({} : World Prog).iters.length w1 =
          some (.threw (.user 9), none, w2)) ∧
      (∃ I, w2.iters[({} : World Prog).iters.length]? = some I ∧ I.next_ = none ∧
        Iterator.ne I Generator.end_ = false) ∧
      yielded w2.log = yielded ({} : World Prog).log ++
        (([([], 1)] : List (List Nat × Nat)).map Prod.snd ++ [2]) :=
  have hy : Yields Prog.unfold yields_then_throws ([([], 1)] ++ [([], 2)])
      (.throw (.user 9)) :=
    Yields.cons (Slice.yield_value rfl) (Yields.cons (Slice.yield_value rfl) Yields.nil)
  have ht : Slice Prog.unfold (.throw (.user 9)) (([] : List Nat).map Op.step)
      (.throw (.user 9)) := Slice.throw rfl
  ⟨hy, ht, (producer_throws_after_yields Prog.unfold yields_then_throws (.user 9) {}).2
    [([], 1)] [] 2 _ [] hy ht⟩

/-- Claim C17 as stated fails: counterexample. The producer
`yield(1); schedule([&] { ++x; }); throw 9;`: the first `operator*` does not throw 9; `run`
rethrows with the scheduled fiber still queued and the assertion of `~FiberScheduler` fails
for the private scheduler of the advance step.  The producer
`yield(1); schedule([] { throw 5; }); yield(2); throw 9;`: the first `operator*` does not
return 1; it throws 5, the exception of the scheduled fiber, and the second throws 9, so that
neither value is delivered. -/
theorem scheduling_producer_loses_values :
    Generator.begin Prog.unfold 4 { func := some schedules_then_throws } ({} : World Prog) =
      some (.returned, { func := none }, schedules_then_throws_begun) ∧
    Iterator.deref Prog.unfold 5 0 schedules_then_throws_begun =
      some (.fault .assert_failed, none, schedules_then_throws_exit) ∧
    Generator.begin Prog.unfold 4 { func := some yields_around_schedule } ({} : World Prog) =
      some (.returned, { func := none }, yields_around_schedule_begun) ∧
    Iterator.deref Prog.unfold 5 0 yields_around_schedule_begun =
      some (.threw (.user 5), none, yields_around_schedule_first) ∧
    Iterator.deref Prog.unfold 4 0 yields_around_schedule_first =
      some (.threw (.user 9), none, yields_around_schedule_second) ∧
    yielded yields_around_schedule_second.log = [1, 2] :=
  ⟨by decide!, by decide!, by decide!, by decide!, by decide!, by decide⟩

/-! ## `current_scheduler` when a fiber hands control back -/

theorem running_intro (w : World σ) {this : Nat} (S : FiberScheduler σ)
    (hc : w.current_scheduler = some this) (hS : w.scheds[this]? = some S)
    (hq : ∀ c ∈ S.queue, c.ready w.iters.length)
    (hw : ∀ it, S.sched_context.watch = some it → it < w.iters.length) : w.running this :=
  ⟨hc, S, hS, hq, hw⟩

theorem ready_intro (w : World σ) {this : Nat} (S : FiberScheduler σ)
    (hS : w.scheds[this]? = some S) (hq : ∀ c ∈ S.queue, c.ready w.iters.length) :
    w.ready this :=
  ⟨S, hS, hq⟩

theorem running_congr {w w' : World σ} {this : Nat} (h : w.running this)
    (hc : w'.current_scheduler = w.current_scheduler)
    (hs : w'.scheds[this]? = w.scheds[this]?) (hi : w'.iters.length = w.iters.length) :
    w'.running this := by
  obtain ⟨h1, S, h2, h3, h4⟩ := h
  exact ⟨hc.trans h1, S, hs.trans h2, by rw [hi]; exact h3, by rw [hi]; exact h4⟩

theorem running_lt {w : World σ} {this : Nat} (h : w.running this) : this < w.scheds.length := by
  obtain ⟨-, S, h2, -⟩ := h
  exact lt_of_getElem?_eq_some h2

theorem dequeue_sound {this : Nat} {w : World σ} (hc : w.current_scheduler = some this)
    (h : w.ready this) :
    (∀ f, FiberScheduler.dequeue this w ≠ .fault f) ∧
    ∀ f w1, FiberScheduler.dequeue this w = .switch f w1 →
      w1.running this ∧ f.ready w.iters.length ∧ w1.iters.length = w.iters.length := by
  obtain ⟨S, hS, hq⟩ := h
  have hlt := lt_of_getElem?_eq_some hS
  simp only [FiberScheduler.dequeue, hS]
  cases hqu : S.queue with
  | nil => simp
  | cons front rest =>
    obtain ⟨⟨f, hf, hfr⟩, hw⟩ := hq front (by simp [hqu])
    simp only [hf]
    refine ⟨fun f' h => (by cases h), fun f' w1 h => ?_⟩
    simp only [Dequeue.switch.injEq] at h
    obtain ⟨rfl, rfl⟩ := h
    refine ⟨running_intro _ { queue := rest, sched_context := { front with exception := none } }
      (by simpa [World.emit, World.set_sched] using hc) ?_ ?_ ?_, hfr, rfl⟩
    · simp [World.emit, World.set_sched, hlt, hf]
    · intro c hc'
      exact hq c (by simp [hqu, hc'])
    · exact hw

theorem resumed_sound {this : Nat} {w : World σ} {act : Action} (h : w.running this)
    (hs : act.action = .SCHED → ∃ S, w.scheds[this]? = some S ∧
      S.sched_context.ready w.iters.length) :
    (∀ f, FiberScheduler.resumed this act w ≠ .fault f) ∧
    ∀ w3, FiberScheduler.resumed this act w = .again w3 →
      w3.current_scheduler = some this ∧ w3.ready this ∧ w3.iters.length = w.iters.length := by
  obtain ⟨hc, S, hS, hq, hw⟩ := h
  have hlt := lt_of_getElem?_eq_some hS
  simp only [FiberScheduler.resumed, hS]
  cases hex : S.sched_context.exception with
  | some e => simp
  | none =>
    simp only
    cases hwa : S.sched_context.watch with
    | none =>
      simp only
      by_cases ha : act.action = .SCHED
      · obtain ⟨S', hS', hr⟩ := hs ha
        rw [hS] at hS'
        simp only [Option.some.injEq] at hS'
        subst hS'
        simp only [ha, if_true, FiberScheduler.requeue, hc, hS, World.set_sched,
          List.getElem?_set_self hlt]
        refine ⟨fun f h => (by cases h), fun w3 h => ?_⟩
        simp only [Resumed.again.injEq] at h
        subst h
        refine ⟨rfl, ready_intro _
          (FiberScheduler.schedule_context { queue := S.queue, sched_context := {} }
            S.sched_context) (by simp [hlt]) ?_, rfl⟩
        intro c hc'
        simp only [FiberScheduler.schedule_context, List.mem_append, List.mem_singleton] at hc'
        rcases hc' with h1 | h1
        · exact hq c h1
        · subst h1; exact hr
      · simp only [ha, if_false]
        refine ⟨fun f h => (by cases h), fun w3 h => ?_⟩
        simp only [Resumed.again.injEq] at h
        subst h
        exact ⟨hc, ready_intro _ S hS hq, rfl⟩
    | some it =>
      have hit := hw it hwa
      obtain ⟨I, hI⟩ := getElem?_of_lt hit
      simp only [hI]
      have hns : (GeneratorWatch.call I act S.sched_context).2.1.action ≠ .SCHED := by
        simp only [GeneratorWatch.call]
        split
        · simp
        · next h => simpa using h
      simp only [hns, if_false]
      refine ⟨fun f h => (by cases h), fun w3 h => ?_⟩
      simp only [Resumed.again.injEq] at h
      subst h
      refine ⟨by simpa [World.set_sched, World.set_iter] using hc,
        ready_intro _ { S with sched_context := (GeneratorWatch.call I act S.sched_context).2.2 }
          ?_ ?_, ?_⟩
      · simp [World.set_sched, World.set_iter, hlt]
      · simpa [World.set_sched, World.set_iter] using hq
      · simp [World.set_sched, World.set_iter]

theorem switch_back_sound {this : Nat} {x : BodyExit σ} {w1 : World σ}
    (hx : x ≠ .fault .undefined) (hr : (∀ f, x ≠ .fault f) → w1.running this) :
    (switch_back this (x, w1)).1 ≠ .error .undefined ∧
    ∀ act w2, switch_back this (x, w1) = (.ok act, w2) →
      w2.running this ∧ w2.iters.length = w1.iters.length ∧
      (act.action = .SCHED → ∃ S, w2.scheds[this]? = some S ∧
        S.sched_context.ready w2.iters.length) := by
  cases x with
  | fault f =>
    simp only [switch_back]
    refine ⟨fun h => ?_, fun act w2 h => by cases h⟩
    simp only [Except.error.injEq] at h
    subst h
    exact hx rfl
  | switched action k =>
    obtain ⟨hc, S, hS, hq, hw⟩ := hr (by simp)
    have hlt := lt_of_getElem?_eq_some hS
    simp only [switch_back, save_context, hS]
    refine ⟨fun h => (by cases h), fun act w2 h => ?_⟩
    simp only [Prod.mk.injEq, Except.ok.injEq] at h
    obtain ⟨rfl, rfl⟩ := h
    refine ⟨running_intro _ { S with sched_context := { S.sched_context with fiber := some (.fn k) } }
      (by simpa [World.set_sched] using hc) (by simp [World.set_sched, hlt]) hq hw, rfl,
      fun _ => ⟨{ S with sched_context := { S.sched_context with fiber := some (.fn k) } },
        by simp [World.set_sched, hlt], ⟨.fn k, rfl, trivial⟩, hw⟩⟩
  | returned =>
    obtain ⟨hc, S, hS, hq, hw⟩ := hr (by simp)
    have hlt := lt_of_getElem?_eq_some hS
    simp only [switch_back, trampoline_stop, hc, if_true, hS]
    refine ⟨fun h => (by cases h), fun act w2 h => ?_⟩
    simp only [Prod.mk.injEq, Except.ok.injEq] at h
    obtain ⟨rfl, rfl⟩ := h
    exact ⟨running_intro _ { S with sched_context := { S.sched_context with fiber := none } }
      (by simpa [World.set_sched] using hc) (by simp [World.set_sched, hlt]) hq hw, rfl,
      fun h => by cases h⟩
  | threw e =>
    obtain ⟨hc, S, hS, hq, hw⟩ := hr (by simp)
    have hlt := lt_of_getElem?_eq_some hS
    simp only [switch_back, trampoline_catch, hc, hS, trampoline_stop, World.set_sched, if_true,
      List.getElem?_set_self hlt]
    refine ⟨fun h => (by cases h), fun act w2 h => ?_⟩
    simp only [Prod.mk.injEq, Except.ok.injEq] at h
    obtain ⟨rfl, rfl⟩ := h
    exact ⟨running_intro _
      { S with sched_context := { S.sched_context with fiber := none, exception := some e } }
      rfl (by simp [hlt]) hq hw, rfl, fun h => by cases h⟩

theorem destroy_cases {a : Nat} {w w' : World σ} {x : Exit} (hlt : a < w.scheds.length)
    (h : FiberScheduler.destroy a w = (x, w')) : x = .returned ∨ x = .fault .assert_failed := by
  obtain ⟨S, hS⟩ := getElem?_of_lt hlt
  simp only [FiberScheduler.destroy, hS] at h
  split at h
  · cases h; exact Or.inl rfl
  · cases h; exact Or.inr rfl

/-- After the local scheduler of a `nested` command was run and destroyed, the schedulers are
those from before the command. -/
theorem nested_restores {w w2 w3 : World σ} {B : FiberScheduler σ}
    (hf : Frame w.scheds.length ({ w with scheds := w.scheds ++ [B] } : World σ) w2)
    (hd : FiberScheduler.destroy w.scheds.length w2 = (.returned, w3)) :
    w3.scheds = w.scheds ∧ w3.iters = w2.iters ∧ w3.current_scheduler = w2.current_scheduler := by
  rw [destroy_returned hd]
  have hb' : w2.scheds.take w.scheds.length = w.scheds := by
    simpa using hf.below
  exact ⟨hb', rfl, rfl⟩

theorem ready_nested (w : World σ) (fs : List σ) :
    World.ready ({ w with scheds := w.scheds ++
      [fs.foldl (fun S f => S.schedule (.fn f)) {}] } : World σ) w.scheds.length := by
  refine ready_intro _ _ (List.getElem?_concat_length _ _) ?_
  rw [foldl_schedule]
  intro c hc
  simp only [List.nil_append, List.mem_map] at hc
  obtain ⟨f, -, rfl⟩ := hc
  exact ⟨⟨.fn f, rfl, trivial⟩, fun it h => by cases h⟩

theorem invoke_sound_of_call {n this : Nat}
    (ihc : ∀ this s (w : World σ) x w', w.running this → call step n this s w = some (x, w') →
      x ≠ .fault .undefined ∧
        ((∀ f, x ≠ .fault f) → w'.running this ∧ w'.iters.length = w.iters.length))
    (f : Fiber σ) (w : World σ) (x : BodyExit σ) (w' : World σ) (hr : w.running this)
    (hf : f.ready w.iters.length) (h : invoke step n this f w = some (x, w')) :
    x ≠ .fault .undefined ∧
      ((∀ f, x ≠ .fault f) → w'.running this ∧ w'.iters.length = w.iters.length) := by
  cases f with
  | fn s => exact ihc this s w x w' hr h
  | generator_lambda it s =>
    obtain ⟨hc, S, hS, hq, hw⟩ := hr
    have hlt := lt_of_getElem?_eq_some hS
    simp only [invoke, create_current_fiber_watch, hc, hS] at h
    exact ihc this s
      (w.set_sched this { S with sched_context := { S.sched_context with watch := some it } })
      x w'
      (running_intro _ { S with sched_context := { S.sched_context with watch := some it } }
        (by simpa [World.set_sched] using hc) (by simp [World.set_sched, hlt]) hq
        (fun it' h' => by
          simp only [Option.some.injEq] at h'
          subst h'
          exact hf)) h

theorem sound_invariant (fuel : Nat) :
    (∀ this s (w : World σ) x w', w.running this → call step fuel this s w = some (x, w') →
      x ≠ .fault .undefined ∧
        ((∀ f, x ≠ .fault f) → w'.running this ∧ w'.iters.length = w.iters.length)) ∧
    (∀ this f (w : World σ) a w', w.running this → f.ready w.iters.length →
      trampoline step fuel this f w = some (a, w') →
      a ≠ .error .undefined ∧ ∀ act, a = .ok act →
        w'.running this ∧ w'.iters.length = w.iters.length ∧
        (act.action = .SCHED → ∃ S, w'.scheds[this]? = some S ∧
          S.sched_context.ready w'.iters.length)) ∧
    (∀ this (w : World σ) x w', w.current_scheduler = some this → w.ready this →
      run step fuel this w = some (x, w') →
      x ≠ .fault .undefined ∧ ((∀ f, x ≠ .fault f) → w'.iters.length = w.iters.length)) ∧
    (∀ sched (w : World σ) x w', w.ready sched →
      scheduler_run step fuel sched w = some (x, w') →
      x ≠ .fault .undefined ∧ ((∀ f, x ≠ .fault f) → w'.iters.length = w.iters.length)) := by
  induction fuel with
  | zero =>
    refine ⟨?_, ?_, ?_, ?_⟩ <;> intros <;> simp_all [call, trampoline, run, scheduler_run]
  | succ n ih =>
    obtain ⟨ihc, iht, ihr, ihs⟩ := ih
    refine ⟨?_, ?_, ?_, ?_⟩
    · intro this s w x w' hr h
      have hr' := hr
      obtain ⟨hc, S, hS, hq, hw⟩ := hr
      have hlt := lt_of_getElem?_eq_some hS
      rw [call] at h
      cases hs : step s with
      | ret =>
        simp only [hs, Option.some.injEq, Prod.mk.injEq] at h
        obtain ⟨rfl, rfl⟩ := h
        exact ⟨by simp, fun _ => ⟨hr', rfl⟩⟩
      | throw e =>
        simp only [hs, Option.some.injEq, Prod.mk.injEq] at h
        obtain ⟨rfl, rfl⟩ := h
        exact ⟨by simp, fun _ => ⟨hr', rfl⟩⟩
      | step a k =>
        simp only [hs] at h
        exact ihc this k (w.emit (.step this a)) x w' (running_congr hr' rfl rfl rfl) h
      | yield k =>
        simp only [hs, yield, hc, if_true, Option.some.injEq, Prod.mk.injEq] at h
        obtain ⟨rfl, rfl⟩ := h
        exact ⟨by simp, fun _ => ⟨running_congr hr' rfl rfl rfl, rfl⟩⟩
      | yield_value v k =>
        simp only [hs, yield, hc, if_true, Option.some.injEq, Prod.mk.injEq] at h
        obtain ⟨rfl, rfl⟩ := h
        exact ⟨by simp, fun _ => ⟨running_congr hr' rfl rfl rfl, rfl⟩⟩
      | schedule f k =>
        simp only [hs, schedule, hc, hS] at h
        exact ihc this k (w.set_sched this (S.schedule (.fn f))) x w'
          (running_intro _ (S.schedule (.fn f)) (by simpa [World.set_sched] using hc)
            (by simp [World.set_sched, hlt])
            (fun c hc' => by
              simp only [FiberScheduler.schedule, FiberScheduler.schedule_context,
                List.mem_append, List.mem_singleton] at hc'
              rcases hc' with h1 | h1
              · exact hq c h1
              · subst h1
                exact ⟨⟨.fn f, rfl, trivial⟩, fun it h' => by cases h'⟩)
            hw) h
      | nested fs k hd =>
        simp only [hs] at h
        cases hsr : scheduler_run step n w.scheds.length
            { w with scheds := w.scheds ++ [fs.foldl (fun S f => S.schedule (.fn f)) {}] } with
        | none => simp [hsr] at h
        | some r1 =>
          rw [hsr] at h
          obtain ⟨x1, w2⟩ := r1
          obtain ⟨hu, hi⟩ := ihs _ _ _ _ (ready_nested w fs) hsr
          have key : ∀ (hx1 : ∀ f, x1 ≠ .fault f) (x3 : Exit) (w3 : World σ),
              FiberScheduler.destroy w.scheds.length w2 = (x3, w3) →
              (x3 = .returned ∧ w3.running this ∧ w3.iters.length = w.iters.length) ∨
                x3 = .fault .assert_failed := by
            intro hx1 x3 w3 hd3
            obtain ⟨hf2, hc2, -⟩ := (frame_invariant step n).2.2.2 _ _ _ _ hsr hx1
            have hl2 : w.scheds.length < w2.scheds.length := by
              rw [hf2.length]; simp
            rcases destroy_cases hl2 hd3 with h3 | h3
            · subst h3
              obtain ⟨g1, g2, g3⟩ := nested_restores hf2 hd3
              refine Or.inl ⟨rfl, running_congr hr' (by rw [g3, hc2]) (by rw [g1]) ?_, ?_⟩
              · rw [g2]; exact hi hx1
              · rw [g2]; exact hi hx1
            · exact Or.inr h3
          cases x1 with
          | fault f =>
            simp only [Option.some.injEq, Prod.mk.injEq] at h
            obtain ⟨rfl, rfl⟩ := h
            exact ⟨fun h => hu (by simpa using h), fun hx => absurd rfl (hx f)⟩
          | returned =>
            simp only at h
            split at h
            · next w3 hd3 =>
              rcases key (by simp) _ _ hd3 with ⟨-, h1, h2⟩ | h1
              · obtain ⟨g1, g2⟩ := ihc this k w3 x w' h1 h
                exact ⟨g1, fun hx => ⟨(g2 hx).1, (g2 hx).2.trans h2⟩⟩
              · cases h1
            · next x3 w3 hne hd3 =>
              simp only [Option.some.injEq, Prod.mk.injEq] at h
              obtain ⟨rfl, rfl⟩ := h
              rcases key (by simp) _ _ hd3 with ⟨h1, -⟩ | h1
              · subst h1
                exact absurd rfl hne
              · subst h1
                exact ⟨by simp [Exit.toBody], fun hx => absurd rfl (hx .assert_failed)⟩
          | threw e =>
            simp only at h
            split at h
            · next w3 hd3 =>
              rcases key (by simp) _ _ hd3 with ⟨-, h1, h2⟩ | h1
              · cases hd with
                | none =>
                  simp only [Option.some.injEq, Prod.mk.injEq] at h
                  obtain ⟨rfl, rfl⟩ := h
                  exact ⟨by simp, fun _ => ⟨h1, h2⟩⟩
                | some s1 =>
                  obtain ⟨g1, g2⟩ := ihc this s1 w3 x w' h1 h
                  exact ⟨g1, fun hx => ⟨(g2 hx).1, (g2 hx).2.trans h2⟩⟩
              · cases h1
            · next x3 w3 hne hd3 =>
              simp only [Option.some.injEq, Prod.mk.injEq] at h
              obtain ⟨rfl, rfl⟩ := h
              rcases key (by simp) _ _ hd3 with ⟨h1, -⟩ | h1
              · subst h1
                exact absurd rfl hne
              · subst h1
                exact ⟨by simp [Exit.toBody], fun hx => absurd rfl (hx .assert_failed)⟩
    · intro this f w a w' hr hf h
      rw [trampoline_succ] at h
      cases hinv : invoke step n this f w with
      | none => simp [hinv] at h
      | some r =>
        obtain ⟨x, w1⟩ := r
        simp only [hinv, Option.some.injEq] at h
        obtain ⟨h1, h2⟩ := invoke_sound_of_call step ihc f w x w1 hr hf hinv
        obtain ⟨g1, g2⟩ := switch_back_sound h1 (fun hx => (h2 hx).1)
        rw [h] at g1
        refine ⟨g1, fun act ha => ?_⟩
        subst ha
        obtain ⟨k1, k2, k3⟩ := g2 act w' h
        have hx : ∀ f, x ≠ .fault f := by
          intro f' hf'
          subst hf'
          simp [switch_back] at h
        exact ⟨k1, k2.trans (h2 hx).2, k3⟩
    · intro this w x w' hc hr h
      rw [run] at h
      obtain ⟨d1, d2⟩ := dequeue_sound hc hr
      cases hd : FiberScheduler.dequeue this w with
      | fault f => exact absurd hd (d1 f)
      | empty =>
        simp only [hd, Option.some.injEq, Prod.mk.injEq] at h
        obtain ⟨rfl, rfl⟩ := h
        exact ⟨by simp, fun _ => rfl⟩
      | switch fiber w1 =>
        simp only [hd] at h
        obtain ⟨hr1, hf1, hl1⟩ := d2 fiber w1 hd
        cases ht : trampoline step n this fiber w1 with
        | none => simp [ht] at h
        | some r =>
          obtain ⟨a, w2⟩ := r
          rw [ht] at h
          obtain ⟨t1, t2⟩ := iht this fiber w1 a w2 hr1 (by rw [hl1]; exact hf1) ht
          cases a with
          | error f =>
            simp only [Option.some.injEq, Prod.mk.injEq] at h
            obtain ⟨rfl, rfl⟩ := h
            exact ⟨fun h => t1 (by simpa using h), fun hx => absurd rfl (hx f)⟩
          | ok action =>
            obtain ⟨hr2, hl2, hs2⟩ := t2 action rfl
            obtain ⟨r1, r2⟩ := resumed_sound hr2 hs2
            simp only at h
            cases hres : FiberScheduler.resumed this action w2 with
            | fault f => exact absurd hres (r1 f)
            | rethrow e w3 =>
              simp only [hres, Option.some.injEq, Prod.mk.injEq] at h
              obtain ⟨rfl, rfl⟩ := h
              obtain ⟨rfl, -⟩ := resumed_rethrow hres
              exact ⟨by simp, fun _ => hl2.trans hl1⟩
            | again w3 =>
              simp only [hres] at h
              obtain ⟨hc3, hr3, hl3⟩ := r2 w3 hres
              obtain ⟨g1, g2⟩ := ihr this w3 x w' hc3 hr3 h
              exact ⟨g1, fun hx => (g2 hx).trans (hl3.trans (hl2.trans hl1))⟩
    · intro sched w x w' hr h
      rw [scheduler_run] at h
      cases hrun : run step n sched { w with current_scheduler := some sched } with
      | none => simp [hrun] at h
      | some r =>
        obtain ⟨x1, w1⟩ := r
        rw [hrun] at h
        obtain ⟨S, hS, hq⟩ := hr
        obtain ⟨g1, g2⟩ := ihr sched { w with current_scheduler := some sched } x1 w1 rfl
          (ready_intro _ S hS hq) hrun
        cases x1 with
        | fault f =>
          simp only [Option.some.injEq, Prod.mk.injEq] at h
          obtain ⟨rfl, rfl⟩ := h
          exact ⟨g1, fun hx => absurd rfl (hx f)⟩
        | returned =>
          simp only [Option.some.injEq, Prod.mk.injEq] at h
          obtain ⟨rfl, rfl⟩ := h
          exact ⟨by simp, fun hx => g2 hx⟩
        | threw e =>
          simp only [Option.some.injEq, Prod.mk.injEq] at h
          obtain ⟨rfl, rfl⟩ := h
          exact ⟨by simp, fun hx => g2 hx⟩

theorem switch_back_defined {this : Nat} {x : BodyExit σ} {w1 : World σ}
    (hx : ∀ f, x ≠ .fault f) (hr : w1.running this) :
    ∃ act w2, switch_back this (x, w1) = (.ok act, w2) := by
  obtain ⟨hc, S, hS, hq, hw⟩ := hr
  have hlt := lt_of_getElem?_eq_some hS
  cases x with
  | fault f => exact absurd rfl (hx f)
  | switched action k =>
    simp only [switch_back, save_context, hS]
    exact ⟨_, _, rfl⟩
  | returned =>
    simp only [switch_back, trampoline_stop, hc, hS, if_true]
    exact ⟨_, _, rfl⟩
  | threw e =>
    simp only [switch_back, trampoline_catch, hc, hS, trampoline_stop, World.set_sched, if_true,
      List.getElem?_set_self hlt]
    exact ⟨_, _, rfl⟩

theorem update_sound (fuel it : Nat) (w : World σ) (I : Iterator σ) (x : Exit) (w' : World σ)
    (hI : w.iters[it]? = some I)
    (hctx : I.stop_ = false → ∀ c, I.context_ = some c → c.ready w.iters.length)
    (h : Iterator.update step fuel it w = some (x, w')) :
    x ≠ .fault .undefined ∧ ((∀ f, x ≠ .fault f) → w'.current_scheduler = w.current_scheduler) := by
  simp only [Iterator.update, hI] at h
  by_cases hstop : I.stop_ = true
  · simp only [hstop, if_true, Option.some.injEq, Prod.mk.injEq] at h
    obtain ⟨rfl, rfl⟩ := h
    exact ⟨by simp, fun _ => rfl⟩
  · simp only [hstop, if_false] at h
    cases hc : I.context_ with
    | none =>
      simp only [hc, Option.some.injEq, Prod.mk.injEq] at h
      obtain ⟨rfl, rfl⟩ := h
      exact ⟨by simp, fun _ => rfl⟩
    | some c =>
      simp only [hc] at h
      have hcr := hctx (by simpa using hstop) c hc
      have hst : I.stop_ = false := by simpa using hstop
      have hready : World.ready
          ({ current_scheduler := w.current_scheduler
             scheds := w.scheds ++ [({} : FiberScheduler σ).schedule_context c]
             iters := w.iters.set it { context_ := some {}, next_ := none, stop_ := false }
             log := w.log } : World σ)
          w.scheds.length := by
        refine ready_intro _ _ (List.getElem?_concat_length _ _) ?_
        intro c' hc'
        simp only [FiberScheduler.schedule_context, List.nil_append, List.mem_singleton] at hc'
        subst hc'
        simpa using hcr
      simp only [World.set_iter] at h
      cases hsr : scheduler_run step fuel w.scheds.length
          ({ current_scheduler := w.current_scheduler
             scheds := w.scheds ++ [({} : FiberScheduler σ).schedule_context c]
             iters := w.iters.set it { context_ := some {}, next_ := none, stop_ := false }
             log := w.log } : World σ) with
      | none => simp [hsr] at h
      | some r1 =>
        obtain ⟨x1, w2⟩ := r1
        rw [hsr] at h
        obtain ⟨hu, -⟩ := (sound_invariant step fuel).2.2.2 _ _ _ _ hready hsr
        cases x1 with
        | fault f =>
          simp only [Option.some.injEq, Prod.mk.injEq] at h
          obtain ⟨rfl, rfl⟩ := h
          exact ⟨hu, fun hx => absurd rfl (hx f)⟩
        | returned =>
          obtain ⟨hf2, hc2, -⟩ := (frame_invariant step fuel).2.2.2 _ _ _ _ hsr (by simp)
          have hl2 : w.scheds.length < w2.scheds.length := by
            rw [hf2.length]; simp
          cases hd3 : FiberScheduler.destroy w.scheds.length w2 with
          | mk y w3 =>
            rcases destroy_cases hl2 hd3 with h1 | h1
            · subst h1
              simp only [hd3, Option.some.injEq, Prod.mk.injEq] at h
              obtain ⟨rfl, rfl⟩ := h
              rw [destroy_returned hd3]
              exact ⟨by simp, fun _ => hc2⟩
            · subst h1
              simp only [hd3, Option.some.injEq, Prod.mk.injEq] at h
              obtain ⟨rfl, rfl⟩ := h
              exact ⟨by simp, fun hx => absurd rfl (hx .assert_failed)⟩
        | threw e =>
          obtain ⟨hf2, hc2, -⟩ := (frame_invariant step fuel).2.2.2 _ _ _ _ hsr (by simp)
          have hl2 : w.scheds.length < w2.scheds.length := by
            rw [hf2.length]; simp
          cases hd3 : FiberScheduler.destroy w.scheds.length w2 with
          | mk y w3 =>
            rcases destroy_cases hl2 hd3 with h1 | h1
            · subst h1
              simp only [hd3, Option.some.injEq, Prod.mk.injEq] at h
              obtain ⟨rfl, rfl⟩ := h
              rw [destroy_returned hd3]
              exact ⟨by simp, fun _ => hc2⟩
            · subst h1
              simp only [hd3, Option.some.injEq, Prod.mk.injEq] at h
              obtain ⟨rfl, rfl⟩ := h
              exact ⟨by simp, fun hx => absurd rfl (hx .assert_failed)⟩

/-- Claim C18. Schedulers are run by `scheduler_run` only, and a nested run is a run of a
scheduler of its own.  When `run` of the scheduler `this` switches into a fiber,
`current_scheduler` points to `this`; and whenever the fiber hands control back, by `yield`, by
returning or by throwing, also after nested `scheduler_run` calls that returned or threw,
`current_scheduler` points to `this` again and the switch goes through the `sched_context` of
`this`.  No run, nested runs included, ever switches through the context of another scheduler
or does anything else that is undefined; the requeue in `run` moves the `sched_context` of
`this` to the end of the queue of `this`; and a generator advance step, which runs the producer
in a private scheduler, is free of undefined behaviour too and leaves `current_scheduler` as
it found it. -/
theorem current_scheduler_at_hand_back :
    (∀ (this : Nat) (w : World σ), w.current_scheduler = some this → w.ready this →
      (∀ f, FiberScheduler.dequeue this w ≠ .fault f) ∧
      ∀ f w1, FiberScheduler.dequeue this w = .switch f w1 →
        w1.running this ∧ f.ready w1.iters.length) ∧
    (∀ (fuel this : Nat) (f : Fiber σ) (w : World σ) (x : BodyExit σ) (w' : World σ),
      w.running this → f.ready w.iters.length → invoke step fuel this f w = some (x, w') →
      x ≠ .fault .undefined ∧
      ((∀ f, x ≠ .fault f) → w'.current_scheduler = some this ∧
        ∃ act w'', switch_back this (x, w') = (.ok act, w''))) ∧
    (∀ (fuel sched : Nat) (w : World σ) (x : Exit) (w' : World σ), w.ready sched →
      scheduler_run step fuel sched w = some (x, w') → x ≠ .fault .undefined) ∧
    (∀ (this : Nat) (w : World σ) (S : FiberScheduler σ), w.current_scheduler = some this →
      w.scheds[this]? = some S →
      FiberScheduler.requeue this w = .again
        (w.set_sched this { queue := S.queue ++ [S.sched_context], sched_context := {} })) ∧
    (∀ (fuel it : Nat) (w : World σ) (I : Iterator σ) (x : Exit) (w' : World σ),
      w.iters[it]? = some I →
      (I.stop_ = false → ∀ c, I.context_ = some c → c.ready w.iters.length) →
      Iterator.update step fuel it w = some (x, w') →
      x ≠ .fault .undefined ∧
      ((∀ f, x ≠ .fault f) → w'.current_scheduler = w.current_scheduler)) := by
  refine ⟨fun this w hc hr => ?_, fun fuel this f w x w' hr hf h => ?_,
    fun fuel sched w x w' hr h => ((sound_invariant step fuel).2.2.2 sched w x w' hr h).1,
    fun this w S hc hS => ?_,
    fun fuel it w I x w' hI hctx h => update_sound step fuel it w I x w' hI hctx h⟩
  · obtain ⟨d1, d2⟩ := dequeue_sound hc hr
    refine ⟨d1, fun f w1 h => ?_⟩
    obtain ⟨h1, h2, h3⟩ := d2 f w1 h
    exact ⟨h1, by rw [h3]; exact h2⟩
  · obtain ⟨h1, h2⟩ := invoke_sound_of_call step
      (fun this s w x w' => (sound_invariant step fuel).1 this s w x w') f w x w' hr hf h
    refine ⟨h1, fun hx => ?_⟩
    obtain ⟨hr', -⟩ := h2 hx
    exact ⟨hr'.1, switch_back_defined hx hr'⟩
  · have hlt := lt_of_getElem?_eq_some hS
    simp [FiberScheduler.requeue, hc, hS, World.set_sched, hlt,
      FiberScheduler.schedule_context]

/-- The outer fiber of `test_recursive_sched_exc`, resumed after its first `yield()`: it runs
an empty local scheduler and one whose fiber throws, and hands back by `yield()`. -/
theorem current_scheduler_at_hand_back_witness :
    test_exc_resumed_world.running 0 ∧
    invoke Prog.unfold 8 0 (.fn test_exc_resumed) test_exc_resumed_world =
      some (.switched { action := .SCHED } (.schedule (.step 0 .ret) .ret),
        test_exc_hand_back) ∧
    BodyExit.switched { action := .SCHED } (Prog.schedule (.step 0 .ret) .ret) ≠
      .fault .undefined ∧
    ((∀ f, BodyExit.switched { action := .SCHED } (Prog.schedule (.step 0 .ret) .ret) ≠
        .fault f) →
      test_exc_hand_back.current_scheduler = some 0 ∧
      ∃ act w'', switch_back 0
        (BodyExit.switched { action := .SCHED } (Prog.schedule (.step 0 .ret) .ret),
          test_exc_hand_back) = (.ok act, w'')) :=
  have hr : test_exc_resumed_world.running 0 :=
    running_intro _ { queue := [], sched_context := { fiber := some (.fn test_exc_resumed) } }
      rfl rfl (fun c hc => by cases hc) (fun it h => by cases h)
  ⟨hr, by decide!,
    (current_scheduler_at_hand_back Prog.unfold).2.1 8 0 (.fn test_exc_resumed)
      test_exc_resumed_world _ test_exc_hand_back hr trivial (by decide!)⟩

end ChadFibers
